import Mathlib

/-!
Verification of the pathroute repository (Go): an all-pairs shortest-path
engine (Floyd-Warshall distance matrix, predecessor sets, bounded shortest
path enumeration, and "via-neighbor" alternate path computation).

The Go source is shallowly embedded: slices become lists, the in-place
matrix updates become explicit state passing over `List (List Int)`,
machine `int` becomes `Int` (the algorithm never overflows for any
realizable graph: all finite distances are bounded by 1000 * number of
nodes, far below `math.MaxInt`), and the recursive path collector takes an
explicit fuel argument bounding its recursion depth (in Go the recursion
terminates because the distance to the current target strictly decreases
by at least 1 at every level, so `dist + 1` levels suffice).
-/

/-- `math.MaxInt` on a 64-bit platform, used by the Go code as the
unreachable sentinel (`const InfSentinel = math.MaxInt`). -/
def InfSentinel : Int := 2 ^ 63 - 1

/-- Cap on shortest paths per pair (`MaxShortestPaths = 4`). -/
def MaxShortestPaths : Nat := 4

/-- Cap on via-neighbor paths per pair (`MaxViaNeighborPaths = 3`). -/
def MaxViaNeighborPaths : Nat := 3

/-- `graph.MinWeight = 1`. -/
def MinWeight : Int := 1

/-- `graph.MaxWeight = 1000`. -/
def MaxWeight : Int := 1000

/-- A directed edge of the JSON input (`graph.Edge`). -/
structure Edge where
  From : String
  To : String
  Weight : Int
  deriving DecidableEq, Repr

/-- Root input structure (`graph.GraphJSON`). -/
structure GraphJSON where
  Nodes : List String
  Edges : List Edge
  deriving DecidableEq, Repr

/-- Square adjacency / distance matrices are lists of rows. -/
abbrev Mat := List (List Int)

/-- Read cell (i,j); out of range reads give 0 (the Go code never reads
out of range: indices always come from `range N`). -/
def getM (M : Mat) (i j : Nat) : Int := (M.getD i []).getD j 0

/-- Write cell (i,j) (Go `dist[i][j] = v`); `List.set` is the functional
version of the in-place slice store. -/
def setM (M : Mat) (i j : Nat) (v : Int) : Mat := M.set i ((M.getD i []).set j v)

/-- An N x N matrix of zeroes (Go `make([][]int, N)` plus inner makes). -/
def zeroMat (n : Nat) : Mat := List.replicate n (List.replicate n 0)

/-- The graph store (`graph.Graph`).  The Go struct also carries a
`NameToIndex` map; it is derivable from `Nodes` (the map sends each name
to its unique index, names being distinct after construction), so the
embedding recomputes it with `findIdx` where the Go code consults the map. -/
structure Graph where
  Nodes : List String
  AdjMatrix : Mat
  deriving DecidableEq, Repr

/-- `g.NumNodes()`. -/
def NumNodes (g : Graph) : Nat := g.Nodes.length

/-- `g.Name(i)` (in range in every use). -/
def Name (g : Graph) (i : Nat) : String := g.Nodes.getD i ""

/-- `g.Weight(i, j)`: weight of edge i -> j, 0 meaning no edge. -/
def Weight (g : Graph) (i j : Nat) : Int := getM g.AdjMatrix i j

/-- `g.Index(name)`: index lookup, none when the name is unknown. -/
def Index (g : Graph) (n : String) : Option Nat := g.Nodes.findIdx? (fun m => m == n)

/-- `g.Neighbors(i)`: out-neighbors in ascending index order (the Go loop
scans `j` over the row and appends when the weight is positive). -/
def Neighbors (g : Graph) (i : Nat) : List Nat :=
  (List.range (g.AdjMatrix.getD i []).length).filter fun j => decide (0 < getM g.AdjMatrix i j)

/-- The node list built by `NewFromStruct`: declared nodes first in
declaration order, then edge endpoints (From then To per edge) in edge
order, each name kept at its first occurrence (the Go code tracks a
`seen` set; membership in the accumulator is that set). -/
def buildNodes (gj : GraphJSON) : List String :=
  let l1 := gj.Nodes.foldl (fun acc n => if n ∈ acc then acc else acc ++ [n]) []
  gj.Edges.foldl (fun acc e =>
    let acc2 := if e.From ∈ acc then acc else acc ++ [e.From]
    if e.To ∈ acc2 then acc2 else acc2 ++ [e.To]) l1

/-- Index of a name in the built node list (`nameToIndex[n]`; always
present for edge endpoints). -/
def idxOf (nodes : List String) (n : String) : Nat := nodes.findIdx (fun m => m == n)

/-- The adjacency matrix built by `NewFromStruct`: zeroes, then each edge
stores its weight (later duplicate edges overwrite earlier ones). -/
def buildAdj (gj : GraphJSON) (nodes : List String) : Mat :=
  gj.Edges.foldl (fun adj e => setM adj (idxOf nodes e.From) (idxOf nodes e.To) e.Weight)
    (zeroMat nodes.length)

/-- `graph.NewFromStruct`: validates every edge weight in
[MinWeight, MaxWeight] (error on the first bad edge), then builds the
node list; empty node list is an error; otherwise the graph is built. -/
def NewFromStruct (gj : GraphJSON) : Except String Graph :=
  match gj.Edges.find? (fun e => decide (e.Weight < MinWeight) || decide (MaxWeight < e.Weight)) with
  | some e => Except.error ("edge " ++ e.From ++ " -> " ++ e.To ++ " weight out of range")
  | none =>
    let nodes := buildNodes gj
    if nodes.isEmpty then Except.error "graph has no nodes"
    else Except.ok { Nodes := nodes, AdjMatrix := buildAdj gj nodes }

/-- Closed form of the `oldToNew` array built by `CopyWithoutNode`: the Go
loop stores the running count of retained nodes, which is `i` for `i < x`
and `i - 1` for `i > x`, and `-1` for the excluded index. -/
def oldToNewList (N x : Nat) : List Int :=
  (List.range N).map fun i => if i = x then -1 else if i < x then (i : Int) else (i : Int) - 1

/-- `g.CopyWithoutNode(excludeIdx)`: the subgraph without node `x`,
with nodes reindexed contiguously, plus the old-to-new index mapping. -/
def CopyWithoutNode (g : Graph) (x : Nat) : Graph × List Int :=
  let N := NumNodes g
  let oldToNew := oldToNewList N x
  let newNodes := g.Nodes.eraseIdx x
  let adj := (List.range N).foldl (fun adj i =>
    if i = x then adj else
    (List.range N).foldl (fun adj j =>
      if j = x ∨ getM g.AdjMatrix i j = 0 then adj
      else setM adj (oldToNew.getD i 0).toNat (oldToNew.getD j 0).toNat (getM g.AdjMatrix i j)) adj)
    (zeroMat newNodes.length)
  ({ Nodes := newNodes, AdjMatrix := adj }, oldToNew)

/-- Initial distance matrix of `RunFloyd` (and of `runFloydOnSubgraph`,
whose body is the same code): 0 on the diagonal, the edge weight where an
edge exists, `InfSentinel` otherwise. -/
def initDist (g : Graph) (N : Nat) : Mat :=
  (List.range N).map fun i => (List.range N).map fun j =>
    if i = j then 0 else if 0 < Weight g i j then Weight g i j else InfSentinel

/-- Innermost Floyd relaxation step: body of the `j` loop for fixed `k`,
`i` (skip when `dist[k][j]` is `InfSentinel`, otherwise relax `dist[i][j]`). -/
def fwStep (k i : Nat) (M : Mat) (j : Nat) : Mat :=
  if getM M k j = InfSentinel then M
  else if getM M i k + getM M k j < getM M i j then setM M i j (getM M i k + getM M k j)
  else M

/-- The `j` loop of the Floyd relaxation. -/
def fwInner (N k i : Nat) (M : Mat) : Mat := (List.range N).foldl (fwStep k i) M

/-- The `i` loop (with the hoisted `dist[i][k] == InfSentinel` skip). -/
def fwMid (N k : Nat) (M : Mat) : Mat :=
  (List.range N).foldl (fun M i => if getM M i k = InfSentinel then M else fwInner N k i M) M

/-- The full triple loop over midpoints `k`. -/
def fwAll (N : Nat) (M : Mat) : Mat := (List.range N).foldl (fun M k => fwMid N k M) M

/-- Predecessor sets: `pred[i][j]` lists every `m ≠ i` (ascending) with an
edge `(m, j)` satisfying `dist[i][m] + w(m, j) = dist[i][j]`; empty for
`i = j` or unreachable pairs (the Go code appends while scanning `m` in
ascending order, which is exactly a filter of `range N`). -/
def buildPred (g : Graph) (N : Nat) (dist : Mat) : List (List (List Nat)) :=
  (List.range N).map fun i => (List.range N).map fun j =>
    if i = j ∨ getM dist i j = InfSentinel then []
    else (List.range N).filter fun m =>
      decide (m ≠ i ∧ 0 < Weight g m j ∧ getM dist i m ≠ InfSentinel ∧
        getM dist i m + Weight g m j = getM dist i j)

/-- Read `pred[i][j]`. -/
def getPred (pred : List (List (List Nat))) (i j : Nat) : List Nat :=
  (pred.getD i []).getD j []

/-- `pathKey`: join the names with `|` (the dedup identity). -/
def pathKey (path : List String) : String :=
  path.foldl (fun s p => if s = "" then s ++ p else s ++ "|" ++ p) ""

/-- Append `path` to the output unless its key was already seen.  The Go
code keeps a separate `seen` map; it always holds exactly the keys of the
paths in `out`, so the membership test over `out` is that map lookup. -/
def emitPath (out : List (List String)) (path : List String) : List (List String) :=
  if out.any (fun q => decide (pathKey q = pathKey path)) then out else out ++ [path]

/-- `collectPaths`: backward enumeration of shortest paths.  `sfx` is the
suffix of names from the current target `j` to the final destination, and
`out` the shared accumulator.  The fuel argument bounds the recursion
depth: each recursive call moves to a predecessor `m` with
`dist[i][m] + w(m, j) = dist[i][j]` and `w(m, j) ≥ 1`, so the distance to
the target strictly decreases and `dist[i][j] + 1` levels always suffice
(which is the fuel `enumeratePaths` passes). -/
def collectPaths (g : Graph) (dist : Mat) (pred : List (List (List Nat))) (maxPaths : Nat) :
    Nat → Nat → Nat → List String → List (List String) → List (List String)
  | 0, _, _, _, out => out
  | Nat.succ fuel, i, j, sfx, out =>
    if maxPaths ≤ out.length then out
    else if i = j then emitPath out (Name g i :: sfx)
    else
      let out2 := if 0 < Weight g i j ∧ Weight g i j = getM dist i j then
          emitPath out (Name g i :: sfx)
        else out
      (getPred pred i j).foldl
        (fun acc m => collectPaths g dist pred maxPaths fuel i m (Name g m :: sfx) acc) out2

/-- `enumeratePaths` (and `enumeratePathsOnSub`, whose body is the same
code): up to `maxPaths` shortest paths from i to j. -/
def enumeratePaths (g : Graph) (dist : Mat) (pred : List (List (List Nat)))
    (i j maxPaths : Nat) : List (List String) :=
  if i = j then [[Name g i]]
  else if getM dist i j = InfSentinel then []
  else collectPaths g dist pred maxPaths ((getM dist i j).toNat + 1) i j [Name g j] []

/-- A path with its total distance (`PathDist`). -/
structure PathDist where
  Path : List String
  Distance : Int
  deriving DecidableEq, Repr

/-- Result for one ordered pair (`PairResult`). -/
structure PairResult where
  From : String
  To : String
  Distance : Int
  Paths : List (List String)
  ViaNeighborPaths : List PathDist
  deriving DecidableEq, Repr

/-- The per-pair record built inside `RunFloyd`'s double loop. -/
def pairResult (g : Graph) (dist : Mat) (pred : List (List (List Nat))) (i j : Nat) :
    PairResult :=
  if getM dist i j = InfSentinel then
    { From := Name g i, To := Name g j, Distance := -1, Paths := [], ViaNeighborPaths := [] }
  else
    { From := Name g i, To := Name g j, Distance := getM dist i j,
      Paths := enumeratePaths g dist pred i j MaxShortestPaths, ViaNeighborPaths := [] }

/-- All-pairs result (`AllPairsResult`; `g`, `dist`, `pred` are the
unexported fields kept for the via-neighbor pass). -/
structure AllPairsResult where
  Results : List PairResult
  g : Graph
  dist : Mat
  pred : List (List (List Nat))
  deriving Repr

/-- `RunFloyd`: distance matrix, predecessor sets, then one `PairResult`
per ordered pair appended in row-major order. -/
def RunFloyd (g : Graph) : AllPairsResult :=
  let N := NumNodes g
  let dist := fwAll N (initDist g N)
  let pred := buildPred g N dist
  { Results :=
      ((List.range N).map fun i => (List.range N).map fun j => pairResult g dist pred i j).flatten,
    g := g, dist := dist, pred := pred }

/-- Padding value for index reads inside the sort (never used in range). -/
def dpad : PathDist := { Path := [], Distance := 0 }

/-- One comparison/swap of the simple exchange sort in `dedupPathsByKey`. -/
def swapIf (l : List PathDist) (i j : Nat) : List PathDist :=
  if (l.getD j dpad).Distance < (l.getD i dpad).Distance then
    (l.set i (l.getD j dpad)).set j (l.getD i dpad)
  else l

/-- The double loop `for i; for j := i+1` of the exchange sort. -/
def exchangeSort (l : List PathDist) : List PathDist :=
  (List.range l.length).foldl (fun acc i =>
    (List.range' (i + 1) (l.length - (i + 1))).foldl (fun acc j => swapIf acc i j) acc) l

/-- The dedup-and-truncate loop of `dedupPathsByKey` (`res` accumulates
the kept entries; the `seen` map is exactly the keys of `res`). -/
def dedupTake : List PathDist → List PathDist → Nat → List PathDist
  | [], res, _ => res
  | c :: rest, res, maxN =>
    if maxN ≤ res.length then res
    else if res.any (fun r => decide (pathKey r.Path = pathKey c.Path)) then
      dedupTake rest res maxN
    else dedupTake rest (res ++ [c]) maxN

/-- `dedupPathsByKey`: sort by distance, then keep up to `maxN` entries
with distinct path keys. -/
def dedupPathsByKey (candidates : List PathDist) (maxN : Nat) : List PathDist :=
  if candidates.isEmpty then []
  else dedupTake (exchangeSort candidates) [] maxN

/-- The candidate pool for one (source, destination) pair in
`FillViaNeighborPaths`: for each out-neighbor `nb` of the source (in
ascending order), if `nb` survives in the subgraph and reaches the
mapped destination there, up to `MaxViaNeighborPaths` subgraph paths are
enumerated and prefixed with the source name. -/
def viaCandidates (g sub : Graph) (subDist : Mat) (subPred : List (List (List Nat)))
    (oldToNew : List Int) (fromIdx newTo : Nat) : List PathDist :=
  (Neighbors g fromIdx).foldl (fun cs nb =>
    let newNb := oldToNew.getD nb (-1)
    if newNb < 0 then cs
    else if getM subDist newNb.toNat newTo = InfSentinel then cs
    else
      let d := Weight g fromIdx nb + getM subDist newNb.toNat newTo
      let paths := enumeratePaths sub subDist subPred newNb.toNat newTo MaxViaNeighborPaths
      cs ++ paths.map (fun p => { Path := Name g fromIdx :: p, Distance := d })) []

/-- The write-back of one via-neighbor list: the Go loop scans `Results`
and assigns the field of the first entry whose `From`/`To` match, then
breaks. -/
def assignVia : List PairResult → String → String → List PathDist → List PairResult
  | [], _, _, _ => []
  | pr :: rest, f, t, v =>
    if pr.From = f ∧ pr.To = t then { pr with ViaNeighborPaths := v } :: rest
    else pr :: assignVia rest f t v

/-- `FillViaNeighborPaths`: for every source with at least one neighbor,
build the subgraph without it, rerun the Floyd pass on it
(`runFloydOnSubgraph` in Go is the same code as in `RunFloyd`), and for
every other destination that survives, pool, sort, dedup and write back
up to `MaxViaNeighborPaths` candidate paths. -/
def FillViaNeighborPaths (r : AllPairsResult) : AllPairsResult :=
  let g := r.g
  let N := NumNodes g
  let results := (List.range N).foldl (fun rs fromIdx =>
    let nbs := Neighbors g fromIdx
    if nbs.isEmpty then rs
    else
      let sc := CopyWithoutNode g fromIdx
      let sub := sc.1
      let oldToNew := sc.2
      let subDist := fwAll (NumNodes sub) (initDist sub (NumNodes sub))
      let subPred := buildPred sub (NumNodes sub) subDist
      (List.range N).foldl (fun rs toIdx =>
        if toIdx = fromIdx then rs
        else
          let newTo := oldToNew.getD toIdx (-1)
          if newTo < 0 then rs
          else
            assignVia rs (Name g fromIdx) (Name g toIdx)
              (dedupPathsByKey
                (viaCandidates g sub subDist subPred oldToNew fromIdx newTo.toNat)
                MaxViaNeighborPaths)) rs) r.Results
  { r with Results := results }

/-! ### Walks and paths over a graph

The specification's claims speak about directed paths and reachability in
the input graph; these are the standard notions over the adjacency
matrix: a walk is a nonempty sequence of in-range nodes in which every
consecutive pair is joined by an edge (positive weight), and a path is a
walk without repeated nodes. -/

/-- Total edge weight of a node sequence. -/
def walkWeight (g : Graph) : List Nat → Int
  | u :: v :: rest => Weight g u v + walkWeight g (v :: rest)
  | _ => 0

/-- `P` is a walk from `i` to `j` in `g`. -/
def IsWalkFrom (g : Graph) (i j : Nat) (P : List Nat) : Prop :=
  P.head? = some i ∧ P.getLast? = some j ∧ (∀ x ∈ P, x < NumNodes g) ∧
    List.Chain' (fun u v => 0 < Weight g u v) P

/-- `P` is a simple directed path from `i` to `j` in `g`. -/
def IsPathFrom (g : Graph) (i j : Nat) (P : List Nat) : Prop :=
  IsWalkFrom g i j P ∧ P.Nodup

/-- `j` is reachable from `i` by a directed path. -/
def Reachable (g : Graph) (i j : Nat) : Prop := ∃ P, IsPathFrom g i j P

/-- Intermediate nodes of a sequence (all but the endpoints). -/
def mids (P : List Nat) : List Nat := P.tail.dropLast

/-- Every weight of `g` is either 0 (no edge) or within the validated
range; true of every graph built by `NewFromStruct` and preserved by
`CopyWithoutNode`. -/
def WeightsOK (g : Graph) : Prop :=
  ∀ i j : Nat, Weight g i j = 0 ∨ (MinWeight ≤ Weight g i j ∧ Weight g i j ≤ MaxWeight)

/-- The view of a `PairResult` without its via-neighbor list (used to
state that `FillViaNeighborPaths` changes nothing else). -/
def stripVia (pr : PairResult) : String × String × Int × List (List String) :=
  (pr.From, pr.To, pr.Distance, pr.Paths)

/-- Extract the graph of a successful load (concrete test inputs only). -/
def getOk : Except String Graph → Graph
  | Except.ok g => g
  | Except.error _ => { Nodes := [], AdjMatrix := [] }

/-! ### Concrete inputs used as witnesses and counterexamples -/

/-- Scenario A of the specification: nodes A,B,C with A->B(50), B->A(80),
A->C(100), B->C(20). -/
def gjA : GraphJSON :=
  { Nodes := ["A", "B", "C"],
    Edges := [
      { From := "A", To := "B", Weight := 50 }, { From := "B", To := "A", Weight := 80 },
      { From := "A", To := "C", Weight := 100 }, { From := "B", To := "C", Weight := 20 }] }

/-- The loaded Scenario A graph. -/
def gA : Graph := getOk (NewFromStruct gjA)

/-- Scenario C of the specification: only edge A->B, so A is unreachable
from B. -/
def gjC : GraphJSON :=
  { Nodes := ["A", "B"], Edges := [{ From := "A", To := "B", Weight := 1 }] }

/-- The loaded Scenario C graph. -/
def gC : Graph := getOk (NewFromStruct gjC)

/-- Scenario D of the specification: A->B, A->C, B->D, C->D, all
weight 10. -/
def gjD : GraphJSON :=
  { Nodes := ["A", "B", "C", "D"],
    Edges := [
      { From := "A", To := "B", Weight := 10 }, { From := "A", To := "C", Weight := 10 },
      { From := "B", To := "D", Weight := 10 }, { From := "C", To := "D", Weight := 10 }] }

/-- The loaded Scenario D graph. -/
def gD : Graph := getOk (NewFromStruct gjD)

/-- A graph on which the tie-break order of the via-neighbor sort is
observable: from S, neighbor N1 (index 1) yields two candidate paths of
total distance 20 generated before neighbor N2's (index 2) single
candidate of total distance 10. -/
def gj4 : GraphJSON :=
  { Nodes := ["S", "N1", "N2", "X", "D"],
    Edges := [
      { From := "S", To := "N1", Weight := 10 }, { From := "S", To := "N2", Weight := 5 },
      { From := "N1", To := "D", Weight := 10 }, { From := "N1", To := "X", Weight := 5 },
      { From := "X", To := "D", Weight := 5 }, { From := "N2", To := "D", Weight := 5 }] }

/-- The loaded tie-break graph. -/
def g4 : Graph := getOk (NewFromStruct gj4)

/-- The subgraph of `g4` without S, and its Floyd data (the values
`FillViaNeighborPaths` computes for source S). -/
def g4sub : Graph := (CopyWithoutNode g4 0).1

/-- Distance matrix of the subgraph of `g4` without S. -/
def g4subDist : Mat := fwAll (NumNodes g4sub) (initDist g4sub (NumNodes g4sub))

/-- Predecessor sets of the subgraph of `g4` without S. -/
def g4subPred : List (List (List Nat)) := buildPred g4sub (NumNodes g4sub) g4subDist

/-- A one-node input: adding a self-loop edge naming a brand-new node to
it changes the node set and hence the whole result set. -/
def gj1 : GraphJSON := { Nodes := ["A"], Edges := [] }

/-- `gj1` with a self-loop edge on the new node name B. -/
def gj1b : GraphJSON :=
  { Nodes := ["A"], Edges := [{ From := "B", To := "B", Weight := 5 }] }

/-- Scenario A input plus a self-loop on the existing node A. -/
def gjAloop : GraphJSON :=
  { Nodes := gjA.Nodes, Edges := gjA.Edges ++ [{ From := "A", To := "A", Weight := 7 }] }

/-- The original index a new subgraph index refers to, after removing
node `x` (specification-side inverse of the `oldToNew` mapping). -/
def oldIdx (x a : Nat) : Nat := if a < x then a else a + 1

/-- The new subgraph index of a retained original index, after removing
node `x` (the value `CopyWithoutNode` stores in `oldToNew`). -/
def newIdx (x i : Nat) : Nat := if i < x then i else i - 1

/-! ### Derived predicates used by the statements and invariants -/

/-- `M` is a well-formed N x N matrix. -/
def MatWF (M : Mat) (N : Nat) : Prop := M.length = N ∧ ∀ row ∈ M, row.length = N

/-- Soundness invariant of the Floyd relaxation: entries are nonnegative,
bounded by the sentinel, zero on the diagonal, and every finite entry is
realized by some walk. -/
def FloydInv (g : Graph) (M : Mat) : Prop :=
  ∀ i j : Nat, i < NumNodes g → j < NumNodes g →
    0 ≤ getM M i j ∧ getM M i j ≤ InfSentinel ∧ (i = j → getM M i j = 0) ∧
    (getM M i j < InfSentinel → ∃ P, IsWalkFrom g i j P ∧ walkWeight g P = getM M i j)

/-- Completeness invariant after processing midpoints `0..k-1`: every
walk whose intermediate nodes are all below `k` bounds the corresponding
entry. -/
def CompInv (g : Graph) (k : Nat) (M : Mat) : Prop :=
  ∀ i j : Nat, i < NumNodes g → j < NumNodes g → ∀ P, IsWalkFrom g i j P →
    (∀ x ∈ mids P, x < k) → walkWeight g P < InfSentinel → getM M i j ≤ walkWeight g P

/-- What membership in a predecessor list guarantees (true of
`buildPred`'s output). -/
def PredOK (g : Graph) (dist : Mat) (pred : List (List (List Nat))) : Prop :=
  ∀ i j m : Nat, m ∈ getPred pred i j →
    m ≠ i ∧ m < NumNodes g ∧ 0 < Weight g m j ∧ getM dist i m ≠ InfSentinel ∧
      getM dist i m + Weight g m j = getM dist i j

/-- Invariant of the suffix maintained by `collectPaths` (stated over the
index sequence `S` whose names form the string suffix): nonempty, ends at
the destination `j`, avoids the source `i`, stays in range, and each hop
is an edge realizing the distance equality of the predecessor relation. -/
def SuffixInv (g : Graph) (dist : Mat) (i j : Nat) (S : List Nat) : Prop :=
  S ≠ [] ∧ S.getLast? = some j ∧ (∀ x ∈ S, x ≠ i ∧ x < NumNodes g) ∧
    List.Chain' (fun u v => 0 < Weight g u v ∧ getM dist i u + Weight g u v = getM dist i v) S

/-- Two graphs that agree everywhere except possibly on the single
diagonal adjacency cell (s,s) — the shape produced by adding a self-loop
on an existing node. -/
def DiagAgree (g1 g2 : Graph) (s : Nat) : Prop :=
  g1.Nodes = g2.Nodes ∧ ∀ i j : Nat, ¬(i = s ∧ j = s) → Weight g1 i j = Weight g2 i j

/-! ### Generic list and matrix lemmas -/

theorem foldl_invariant {α : Type _} {β : Type _} (f : α → β → α) (P : α → Prop) :
    ∀ (l : List β) (a : α), P a → (∀ x b, b ∈ l → P x → P (f x b)) → P (l.foldl f a)
  | [], a, ha, _ => ha
  | b :: l, a, ha, hstep =>
    foldl_invariant f P l (f a b) (hstep a b (List.mem_cons_self b l) ha)
      (fun x c hc hx => hstep x c (List.mem_cons_of_mem b hc) hx)

theorem getD_ext {α : Type _} {l l' : List α} {n n' : Nat} (d : α) (h : l[n]? = l'[n']?) :
    l.getD n d = l'.getD n' d := by
  rw [List.getD_eq_getElem?_getD, List.getD_eq_getElem?_getD, h]

theorem getD_of_getElem? {α : Type _} {l : List α} {n : Nat} {a : α} (d : α)
    (h : l[n]? = some a) : l.getD n d = a := by
  rw [List.getD_eq_getElem?_getD, h]; rfl

theorem getD_eq_elem {α : Type _} {l : List α} {n : Nat} (d : α) (h : n < l.length) :
    l.getD n d = l[n] := getD_of_getElem? d (List.getElem?_eq_getElem h)

theorem getD_default {α : Type _} {l : List α} {n : Nat} (d : α) (h : l.length ≤ n) :
    l.getD n d = d := by
  rw [List.getD_eq_getElem?_getD, List.getElem?_eq_none h]; rfl

theorem matWF_rowLen {M : Mat} {N : Nat} (h : MatWF M N) {i : Nat} (hi : i < N) :
    (M.getD i []).length = N := by
  rcases h with ⟨hlen, hrows⟩
  have hiM : i < M.length := by omega
  rw [getD_eq_elem [] hiM]
  exact hrows _ (List.getElem_mem hiM)

theorem matWF_setM {M : Mat} {N : Nat} (h : MatWF M N) (i j : Nat) (v : Int) :
    MatWF (setM M i j v) N := by
  constructor
  · show (M.set i ((M.getD i []).set j v)).length = N
    rw [List.length_set]; exact h.1
  · intro row hrow
    rcases Nat.lt_or_ge i M.length with hi | hi
    · rcases List.mem_or_eq_of_mem_set hrow with h1 | h2
      · exact h.2 row h1
      · subst h2
        simp only [List.length_set]
        rw [getD_eq_elem [] hi]
        exact h.2 _ (List.getElem_mem hi)
    · rw [show setM M i j v = M from List.set_eq_of_length_le hi] at hrow
      exact h.2 row hrow

theorem getM_setM_self {M : Mat} {N i j : Nat} (h : MatWF M N) (hi : i < N) (hj : j < N)
    (v : Int) : getM (setM M i j v) i j = v := by
  have hiM : i < M.length := by have := h.1; omega
  have hjr : j < (M.getD i []).length := by rw [matWF_rowLen h hi]; omega
  show ((M.set i ((M.getD i []).set j v)).getD i []).getD j 0 = v
  have h1 : (M.set i ((M.getD i []).set j v))[i]? = some ((M.getD i []).set j v) :=
    List.getElem?_set_self (by simpa using hiM)
  rw [getD_of_getElem? [] h1]
  exact getD_of_getElem? 0 (List.getElem?_set_self (by simpa using hjr))

theorem getM_setM_ne {M : Mat} {i j i' j' : Nat} (v : Int) (h : ¬(i' = i ∧ j' = j)) :
    getM (setM M i j v) i' j' = getM M i' j' := by
  show ((M.set i ((M.getD i []).set j v)).getD i' []).getD j' 0 = (M.getD i' []).getD j' 0
  by_cases hii : i' = i
  · subst hii
    have hjj : j' ≠ j := fun hc => h ⟨rfl, hc⟩
    rcases Nat.lt_or_ge i' M.length with hi | hi
    · have h1 : (M.set i' ((M.getD i' []).set j v))[i']? = some ((M.getD i' []).set j v) :=
        List.getElem?_set_self (by simpa using hi)
      rw [getD_of_getElem? [] h1]
      apply getD_ext
      exact List.getElem?_set_ne (fun hc => hjj hc.symm)
    · rw [getD_default [] (by simpa using hi), getD_default [] (by simpa using hi)]
  · have hrow : (M.set i ((M.getD i []).set j v)).getD i' [] = M.getD i' [] :=
      getD_ext [] (List.getElem?_set_ne (fun hc => hii hc.symm))
    rw [hrow]

theorem getM_zeroMat (n i j : Nat) : getM (zeroMat n) i j = 0 := by
  show ((List.replicate n (List.replicate n (0 : Int))).getD i []).getD j 0 = 0
  rcases Nat.lt_or_ge i n with hi | hi
  · rw [getD_of_getElem? [] (List.getElem?_replicate_of_lt hi)]
    rcases Nat.lt_or_ge j n with hj | hj
    · rw [getD_of_getElem? 0 (List.getElem?_replicate_of_lt hj)]
    · rw [getD_default 0 (by simpa using hj)]
  · rw [getD_default [] (by simpa using hi)]; rfl

theorem matWF_zeroMat (n : Nat) : MatWF (zeroMat n) n := by
  constructor
  · show (List.replicate n (List.replicate n (0 : Int))).length = n
    rw [List.length_replicate]
  · intro row hrow
    have := List.eq_of_mem_replicate hrow
    simp [this]

theorem getM_initDist (g : Graph) (N i j : Nat) (hi : i < N) (hj : j < N) :
    getM (initDist g N) i j =
      if i = j then 0 else if 0 < Weight g i j then Weight g i j else InfSentinel := by
  show (((List.range N).map _).getD i []).getD j 0 = _
  rw [getD_of_getElem? []
    (by rw [List.getElem?_map, List.getElem?_range hi]; rfl)]
  rw [getD_of_getElem? 0
    (by rw [List.getElem?_map, List.getElem?_range hj]; rfl)]

theorem matWF_initDist (g : Graph) (N : Nat) : MatWF (initDist g N) N := by
  constructor
  · show ((List.range N).map _).length = N
    rw [List.length_map, List.length_range]
  · intro row hrow
    rcases List.mem_map.mp hrow with ⟨i, _, hrw⟩
    rw [← hrw, List.length_map, List.length_range]

/-! ### Walks: weights, composition, splitting, de-looping -/

theorem walkWeight_cons_cons (g : Graph) (u v : Nat) (rest : List Nat) :
    walkWeight g (u :: v :: rest) = Weight g u v + walkWeight g (v :: rest) := rfl

theorem walkWeight_append (g : Graph) (x : Nat) :
    ∀ (A B : List Nat),
      walkWeight g (A ++ x :: B) = walkWeight g (A ++ [x]) + walkWeight g (x :: B)
  | [], _ => by simp [walkWeight]
  | [a], B => by
    show walkWeight g (a :: x :: B) = walkWeight g (a :: [x]) + walkWeight g (x :: B)
    rw [walkWeight_cons_cons, walkWeight_cons_cons]
    show _ = Weight g a x + walkWeight g [x] + _
    show _ = Weight g a x + 0 + _
    ring
  | a :: a' :: A, B => by
    show walkWeight g (a :: a' :: (A ++ x :: B)) =
      walkWeight g (a :: a' :: (A ++ [x])) + walkWeight g (x :: B)
    rw [walkWeight_cons_cons, walkWeight_cons_cons,
      show a' :: (A ++ x :: B) = (a' :: A) ++ x :: B from rfl,
      walkWeight_append g x (a' :: A) B]
    exact (add_assoc (Weight g a a') (walkWeight g (a' :: (A ++ [x]))) (walkWeight g (x :: B))).symm

theorem walkWeight_nonneg (g : Graph) :
    ∀ P : List Nat, List.Chain' (fun u v => 0 < Weight g u v) P → 0 ≤ walkWeight g P
  | [], _ => le_refl 0
  | [_], _ => le_refl 0
  | u :: v :: rest, h => by
    rcases List.chain'_cons.mp h with ⟨huv, hrest⟩
    rw [walkWeight_cons_cons]
    have := walkWeight_nonneg g (v :: rest) hrest
    omega

theorem exists_first_occ {α : Type _} [DecidableEq α] {a : α} :
    ∀ {l : List α}, a ∈ l → ∃ s t, l = s ++ a :: t ∧ a ∉ s
  | [], h => absurd h (List.not_mem_nil a)
  | b :: l, h => by
    by_cases hab : a = b
    · exact ⟨[], l, by simp [hab], List.not_mem_nil a⟩
    · have hal : a ∈ l := by
        rcases List.mem_cons.mp h with h1 | h2
        · exact absurd h1 hab
        · exact h2
      rcases exists_first_occ hal with ⟨s, t, hst, hns⟩
      exact ⟨b :: s, t, by simp [hst], by
        intro hmem
        rcases List.mem_cons.mp hmem with h1 | h2
        · exact hab h1
        · exact hns h2⟩

theorem exists_last_occ {α : Type _} [DecidableEq α] {a : α} :
    ∀ {l : List α}, a ∈ l → ∃ s t, l = s ++ a :: t ∧ a ∉ t
  | [], h => absurd h (List.not_mem_nil a)
  | b :: l, h => by
    by_cases hal : a ∈ l
    · rcases exists_last_occ hal with ⟨s, t, hst, hnt⟩
      exact ⟨b :: s, t, by simp [hst], hnt⟩
    · have hab : a = b := by
        rcases List.mem_cons.mp h with h1 | h2
        · exact h1
        · exact absurd h2 hal
      exact ⟨[], l, by simp [hab], hal⟩

theorem mids_cons (u : Nat) (rest : List Nat) : mids (u :: rest) = rest.dropLast := rfl

theorem mids_subset_tail (P : List Nat) : ∀ x ∈ mids P, x ∈ P.tail :=
  fun _ hx => List.dropLast_subset _ hx

theorem mem_of_mem_mids {P : List Nat} {x : Nat} (h : x ∈ mids P) : x ∈ P :=
  List.mem_of_mem_tail (mids_subset_tail P x h)

theorem walk_single (g : Graph) {i : Nat} (hi : i < NumNodes g) :
    IsWalkFrom g i i [i] := by
  refine ⟨rfl, rfl, ?_, ?_⟩
  · intro x hx
    rcases List.mem_singleton.mp hx with rfl
    exact hi
  · exact List.chain'_singleton i

theorem walk_edge (g : Graph) {i j : Nat} (hi : i < NumNodes g) (hj : j < NumNodes g)
    (hw : 0 < Weight g i j) : IsWalkFrom g i j [i, j] := by
  refine ⟨rfl, rfl, ?_, ?_⟩
  · intro x hx
    rcases List.mem_cons.mp hx with rfl | hx2
    · exact hi
    · rcases List.mem_singleton.mp hx2 with rfl
      exact hj
  · exact List.chain'_cons.mpr ⟨hw, List.chain'_singleton j⟩

theorem walkWeight_edge (g : Graph) (i j : Nat) : walkWeight g [i, j] = Weight g i j := by
  rw [walkWeight_cons_cons]
  show Weight g i j + 0 = Weight g i j
  ring

theorem getLast_eq_of_cons_ne {α : Type _} {b : α} {B : List α} {j : α}
    (h : (b :: B).getLast? = some j) (hB : B ≠ []) : B.getLast? = some j := by
  rcases B with _ | ⟨y, t⟩
  · exact absurd rfl hB
  · rwa [List.getLast?_cons_cons] at h

theorem dropLast_cons_subset (k : Nat) (D : List Nat) :
    ∀ x ∈ D.dropLast, x ∈ (k :: D).dropLast := by
  intro x hx
  rcases D with _ | ⟨y, t⟩
  · simp at hx
  · rw [show (k :: y :: t).dropLast = k :: (y :: t).dropLast from rfl]
    exact List.mem_cons_of_mem k hx

theorem walk_compose (g : Graph) {i k j : Nat} {P1 P2 : List Nat}
    (h1 : IsWalkFrom g i k P1) (h2 : IsWalkFrom g k j P2) :
    IsWalkFrom g i j (P1 ++ P2.tail) ∧
      walkWeight g (P1 ++ P2.tail) = walkWeight g P1 + walkWeight g P2 ∧
      (∀ x ∈ mids (P1 ++ P2.tail), x ∈ mids P1 ∨ x = k ∨ x ∈ mids P2) := by
  obtain ⟨hh1, hl1, hm1, hc1⟩ := h1
  obtain ⟨hh2, hl2, hm2, hc2⟩ := h2
  rcases P2 with _ | ⟨k2, t⟩
  · cases hh2
  obtain rfl : k = k2 := by
    have h0 : k2 = k := by simpa using hh2
    exact h0.symm
  rcases P1 with _ | ⟨i1, r⟩
  · cases hh1
  obtain rfl : i = i1 := by
    have h0 : i1 = i := by simpa using hh1
    exact h0.symm
  rcases t with _ | ⟨y, t'⟩
  · -- one-node second walk: k = j and the composition is P1 itself
    have hkj : k = j := by simpa using hl2
    subst hkj
    have hsimp : (i :: r) ++ ([k] : List Nat).tail = i :: r := by simp
    rw [hsimp]
    refine ⟨⟨hh1, by simpa using hl1, hm1, by simpa using hc1⟩, ?_, ?_⟩
    · show walkWeight g (i :: r) = walkWeight g (i :: r) + walkWeight g [k]
      show walkWeight g (i :: r) = walkWeight g (i :: r) + 0
      ring
    · intro x hx
      left
      exact hx
  · -- the second walk has at least one edge
    have hky : 0 < Weight g k y ∧ List.Chain' (fun u v => 0 < Weight g u v) (y :: t') :=
      List.chain'_cons.mp hc2
    have hyt : (y :: t').getLast? = some j := by
      have h0 := hl2
      rwa [List.getLast?_cons_cons] at h0
    have hP1eq : (i :: r).dropLast ++ [k] = i :: r := List.dropLast_append_getLast? k hl1
    refine ⟨⟨?_, ?_, ?_, ?_⟩, ?_, ?_⟩
    · simp
    · show ((i :: r) ++ (y :: t')).getLast? = some j
      rw [List.getLast?_append, hyt]
      rfl
    · intro x hx
      rcases List.mem_append.mp hx with hx1 | hx2
      · exact hm1 x hx1
      · exact hm2 x (List.mem_cons_of_mem k hx2)
    · refine List.chain'_append.mpr ⟨hc1, hky.2, ?_⟩
      intro a ha b hb
      have ha' : a = k := by
        rw [hl1] at ha
        exact (by simpa using ha : k = a).symm
      have hb' : b = y := (by simpa using hb : y = b).symm
      rw [ha', hb']
      exact hky.1
    · show walkWeight g ((i :: r) ++ y :: t') = _
      rw [← hP1eq, show ((i :: r).dropLast ++ [k]) ++ y :: t' = (i :: r).dropLast ++ k :: y :: t' by
        simp]
      rw [walkWeight_append g k ((i :: r).dropLast) (y :: t')]
    · intro x hx
      have hx2 : x ∈ (r ++ y :: t').dropLast := hx
      rw [List.dropLast_append_cons] at hx2
      rcases List.mem_append.mp hx2 with hr | hyt'
      · -- x sits in r: either strictly inside P1 or equal to its last node k
        rcases r with _ | ⟨r0, r''⟩
        · simp at hr
        · have hrlast : (r0 :: r'').getLast? = some k :=
            getLast_eq_of_cons_ne hl1 (by simp)
          have hreq : (r0 :: r'').dropLast ++ [k] = r0 :: r'' :=
            List.dropLast_append_getLast? k hrlast
          rw [← hreq] at hr
          rcases List.mem_append.mp hr with hmid | hk
          · exact Or.inl hmid
          · exact Or.inr (Or.inl (by simpa using hk))
      · exact Or.inr (Or.inr hyt')

theorem getLast_some_of_ne_nil {α : Type _} (a : α) (l : List α) :
    ∃ z, (a :: l).getLast? = some z :=
  ⟨(a :: l).getLast (by simp), List.getLast?_eq_getLast _ _⟩

theorem walk_trim_head (g : Graph) {k j : Nat} {Q : List Nat} (hQ : IsWalkFrom g k j Q) :
    ∃ P2, IsWalkFrom g k j P2 ∧ k ∉ mids P2 ∧ (∀ x ∈ mids P2, x ∈ mids Q) ∧
      walkWeight g P2 ≤ walkWeight g Q := by
  by_cases hmem : k ∈ mids Q
  case neg => exact ⟨Q, hQ, hmem, fun x hx => hx, le_refl _⟩
  case pos =>
  obtain ⟨hh, hl, hm, hc⟩ := hQ
  rcases Q with _ | ⟨k0, B⟩
  · cases hh
  obtain rfl : k = k0 := by
    have h0 : k0 = k := by simpa using hh
    exact h0.symm
  have hkB : k ∈ B := List.dropLast_subset B hmem
  obtain ⟨C, D, hBeq, hkD⟩ := exists_last_occ hkB
  subst hBeq
  have hsplit : k :: (C ++ k :: D) = (k :: C) ++ (k :: D) := by simp
  have hchains := List.chain'_append.mp (hsplit ▸ hc)
  refine ⟨k :: D, ⟨rfl, ?_, ?_, hchains.2.1⟩, ?_, ?_, ?_⟩
  · -- the last element is still j
    obtain ⟨z, hz⟩ := getLast_some_of_ne_nil k D
    have hQlast : (k :: (C ++ k :: D)).getLast? = some z := by
      rw [hsplit, List.getLast?_append, hz]
      rfl
    rw [hl] at hQlast
    rw [hz]
    exact hQlast.symm
  · intro x hx
    exact hm x (by
      rw [hsplit]
      exact List.mem_append.mpr (Or.inr hx))
  · -- k does not reappear strictly inside
    intro hx
    exact hkD (List.dropLast_subset D hx)
  · intro x hx
    have : x ∈ (k :: D).dropLast := dropLast_cons_subset k D x hx
    show x ∈ (C ++ k :: D).dropLast
    rw [List.dropLast_append_cons]
    exact List.mem_append.mpr (Or.inr this)
  · -- dropping the prefix loop can only decrease the weight
    have hw : walkWeight g (k :: (C ++ k :: D)) =
        walkWeight g ((k :: C) ++ [k]) + walkWeight g (k :: D) := by
      rw [show k :: (C ++ k :: D) = (k :: C) ++ k :: D from by simp]
      exact walkWeight_append g k (k :: C) D
    have hchain1 : List.Chain' (fun u v => 0 < Weight g u v) ((k :: C) ++ [k]) := by
      have h2 : (k :: C) ++ (k :: D) = ((k :: C) ++ [k]) ++ D := by simp
      exact (List.chain'_append.mp (h2 ▸ hsplit ▸ hc)).1
    have := walkWeight_nonneg g _ hchain1
    omega

theorem walk_split (g : Graph) {i j k : Nat} {P : List Nat}
    (hP : IsWalkFrom g i j P) (hk : k ∈ mids P) :
    ∃ P1 P2, IsWalkFrom g i k P1 ∧ IsWalkFrom g k j P2 ∧
      k ∉ mids P1 ∧ k ∉ mids P2 ∧
      (∀ x ∈ mids P1, x ∈ mids P) ∧ (∀ x ∈ mids P2, x ∈ mids P) ∧
      walkWeight g P1 + walkWeight g P2 ≤ walkWeight g P := by
  obtain ⟨hh, hl, hm, hc⟩ := hP
  have hkP : k ∈ P := mem_of_mem_mids hk
  obtain ⟨A, B, hPeq, hkA⟩ := exists_first_occ hkP
  have hsplit : A ++ k :: B = (A ++ [k]) ++ B := by simp
  have hchains := List.chain'_append.mp (hPeq ▸ hc)
  -- the suffix k :: B is a walk from k to j
  have hQwalk : IsWalkFrom g k j (k :: B) := by
    refine ⟨rfl, ?_, ?_, hchains.2.1⟩
    · obtain ⟨z, hz⟩ := getLast_some_of_ne_nil k B
      have hPlast : P.getLast? = some z := by
        rw [hPeq, List.getLast?_append, hz]
        rfl
      rw [hl] at hPlast
      rw [hz]
      exact hPlast.symm
    · intro x hx
      exact hm x (hPeq ▸ List.mem_append.mpr (Or.inr hx))
  obtain ⟨P2, hP2, hkP2, hP2mids, hP2w⟩ := walk_trim_head g hQwalk
  have hmidsQ : ∀ x ∈ mids (k :: B), x ∈ mids P := by
    intro x hx
    rcases A with _ | ⟨a, A'⟩
    · simpa [hPeq] using hx
    · rw [hPeq]
      show x ∈ (A' ++ k :: B).dropLast
      rw [List.dropLast_append_cons]
      exact List.mem_append.mpr (Or.inr (dropLast_cons_subset k B x hx))
  rcases A with _ | ⟨a, A'⟩
  · -- the first occurrence is the head: i = k and the first leg is trivial
    obtain rfl : i = k := by
      have h0 := hh
      rw [hPeq] at h0
      exact (by simpa using h0 : k = i).symm
    refine ⟨[i], P2, walk_single g (hm i hkP), hP2, by simp [mids], hkP2, ?_, ?_, ?_⟩
    · intro x hx
      simp [mids] at hx
    · intro x hx
      exact hmidsQ x (hP2mids x hx)
    · have hPw : walkWeight g P = walkWeight g (i :: B) := by simp [hPeq]
      have h0 : walkWeight g ([i] : List Nat) = 0 := rfl
      omega
  · -- the first leg has at least one edge
    obtain rfl : i = a := by
      have h0 := hh
      rw [hPeq] at h0
      exact (by simpa using h0 : a = i).symm
    have hP1walk : IsWalkFrom g i k ((i :: A') ++ [k]) := by
      refine ⟨by simp, List.getLast?_concat _, ?_, ?_⟩
      · intro x hx
        rcases List.mem_append.mp hx with hx1 | hx2
        · exact hm x (hPeq ▸ List.mem_append.mpr (Or.inl hx1))
        · rcases List.mem_singleton.mp hx2 with rfl
          exact hm x hkP
      · exact (List.chain'_append.mp ((hsplit ▸ hPeq) ▸ hc)).1
    refine ⟨(i :: A') ++ [k], P2, hP1walk, hP2, ?_, hkP2, ?_, ?_, ?_⟩
    · show k ∉ (A' ++ [k]).dropLast
      rw [List.dropLast_concat]
      intro hx
      exact hkA (List.mem_cons_of_mem i hx)
    · show ∀ x ∈ (A' ++ [k]).dropLast, x ∈ mids P
      rw [List.dropLast_concat]
      intro x hx
      rw [hPeq]
      show x ∈ (A' ++ k :: B).dropLast
      rw [List.dropLast_append_cons]
      exact List.mem_append.mpr (Or.inl hx)
    · intro x hx
      exact hmidsQ x (hP2mids x hx)
    · have hPw : walkWeight g P =
          walkWeight g ((i :: A') ++ [k]) + walkWeight g (k :: B) := by
        rw [hPeq]
        exact walkWeight_append g k (i :: A') B
      omega

theorem walk_to_path (g : Graph) :
    ∀ (n : Nat) (P : List Nat), P.length ≤ n → ∀ {i j : Nat}, IsWalkFrom g i j P →
      ∃ Q, IsPathFrom g i j Q ∧ (∀ x ∈ Q, x ∈ P) ∧ walkWeight g Q ≤ walkWeight g P := by
  intro n
  induction n with
  | zero =>
    intro P hlen i j hw
    rcases P with _ | ⟨u, rest⟩
    · cases hw.1
    · simp at hlen
  | succ n ih =>
    intro P hlen i j hw
    obtain ⟨hh, hl, hm, hc⟩ := hw
    rcases P with _ | ⟨u, rest⟩
    · cases hh
    obtain rfl : i = u := by
      exact (by simpa using hh : u = i).symm
    by_cases hu : i ∈ rest
    · -- loop back to the start: cut everything up to the last occurrence of i
      obtain ⟨C, D, hreq, hnD⟩ := exists_last_occ hu
      subst hreq
      have hsplit : i :: (C ++ i :: D) = (i :: C) ++ (i :: D) := by simp
      have hchains := List.chain'_append.mp (hsplit ▸ hc)
      have hlast' : (i :: D).getLast? = some j := by
        obtain ⟨z, hz⟩ := getLast_some_of_ne_nil i D
        have h0 : (i :: (C ++ i :: D)).getLast? = some z := by
          rw [hsplit, List.getLast?_append, hz]
          rfl
        rw [hl] at h0
        rw [hz]
        exact h0.symm
      have hwalk' : IsWalkFrom g i j (i :: D) := by
        refine ⟨rfl, hlast', ?_, hchains.2.1⟩
        intro x hx
        exact hm x (by
          rw [hsplit]
          exact List.mem_append.mpr (Or.inr hx))
      have hlen' : (i :: D).length ≤ n := by
        simp at hlen ⊢
        omega
      obtain ⟨Q, hQ, hQsub, hQw⟩ := ih (i :: D) hlen' hwalk'
      refine ⟨Q, hQ, ?_, ?_⟩
      · intro x hx
        exact (by
          rw [hsplit]
          exact List.mem_append.mpr (Or.inr (hQsub x hx)) :
          x ∈ i :: (C ++ i :: D))
      · have hw2 : walkWeight g (i :: (C ++ i :: D)) =
            walkWeight g ((i :: C) ++ [i]) + walkWeight g (i :: D) := by
          rw [show i :: (C ++ i :: D) = (i :: C) ++ i :: D from by simp]
          exact walkWeight_append g i (i :: C) D
        have hchain1 : List.Chain' (fun u v => 0 < Weight g u v) ((i :: C) ++ [i]) := by
          have h2 : (i :: C) ++ (i :: D) = ((i :: C) ++ [i]) ++ D := by simp
          exact (List.chain'_append.mp (h2 ▸ hsplit ▸ hc)).1
        have := walkWeight_nonneg g _ hchain1
        omega
    · rcases rest with _ | ⟨v, rest'⟩
      · -- single node: i = j and the walk is already a path
        obtain rfl : i = j := by simpa using hl
        exact ⟨[i], ⟨⟨rfl, rfl, hm, List.chain'_singleton i⟩, List.nodup_singleton i⟩,
          fun x hx => hx, le_refl _⟩
      · have hiv : 0 < Weight g i v ∧
            List.Chain' (fun a b => 0 < Weight g a b) (v :: rest') := List.chain'_cons.mp hc
        have hwalkrest : IsWalkFrom g v j (v :: rest') := by
          refine ⟨rfl, ?_, ?_, hiv.2⟩
          · rwa [List.getLast?_cons_cons] at hl
          · intro x hx
            exact hm x (List.mem_cons_of_mem i hx)
        have hlen' : (v :: rest').length ≤ n := by
          simp at hlen ⊢
          omega
        obtain ⟨Q, hQ, hQsub, hQw⟩ := ih _ hlen' hwalkrest
        obtain ⟨hQwalk, hQnodup⟩ := hQ
        obtain ⟨hQh, hQl, hQm, hQc⟩ := hQwalk
        rcases Q with _ | ⟨v0, t⟩
        · cases hQh
        obtain rfl : v = v0 := by
          exact (by simpa using hQh : v0 = v).symm
        have hQsubP : ∀ x ∈ v :: t, x ∈ i :: v :: rest' :=
          fun x hx => List.mem_cons_of_mem i (hQsub x hx)
        refine ⟨i :: v :: t, ⟨⟨rfl, ?_, ?_, ?_⟩, ?_⟩, ?_, ?_⟩
        · rw [List.getLast?_cons_cons]
          exact hQl
        · intro x hx
          rcases List.mem_cons.mp hx with rfl | hx2
          · exact hm x (List.mem_cons_self x _)
          · exact hm x (List.mem_cons_of_mem i (hQsub x hx2))
        · exact List.chain'_cons.mpr ⟨hiv.1, hQc⟩
        · refine List.nodup_cons.mpr ⟨?_, hQnodup⟩
          intro hmem
          exact hu (hQsub i hmem)
        · intro x hx
          rcases List.mem_cons.mp hx with rfl | hx2
          · exact List.mem_cons_self x _
          · exact hQsubP x hx2
        · rw [walkWeight_cons_cons, walkWeight_cons_cons]
          omega

theorem reachable_of_walk (g : Graph) {i j : Nat} {P : List Nat}
    (h : IsWalkFrom g i j P) : Reachable g i j := by
  obtain ⟨Q, hQ, _, _⟩ := walk_to_path g P.length P (le_refl _) h
  exact ⟨Q, hQ⟩

theorem nodup_length_le (N : Nat) (P : List Nat) (hm : ∀ x ∈ P, x < N)
    (hnd : P.Nodup) : P.length ≤ N := by
  have h1 : P.toFinset.card = P.length := List.toFinset_card_of_nodup hnd
  have h2 : P.toFinset ⊆ Finset.range N := by
    intro x hx
    rw [Finset.mem_range]
    exact hm x (List.mem_toFinset.mp hx)
  have h3 := Finset.card_le_card h2
  rw [h1, Finset.card_range] at h3
  exact h3

theorem path_weight_le (g : Graph) (hW : WeightsOK g) :
    ∀ P : List Nat, List.Chain' (fun u v => 0 < Weight g u v) P →
      walkWeight g P ≤ MaxWeight * ((P.length - 1 : Nat) : Int)
  | [], _ => by simp [walkWeight]
  | [u], _ => by simp [walkWeight]
  | u :: v :: rest, h => by
    rcases List.chain'_cons.mp h with ⟨huv, hrest⟩
    have hle := path_weight_le g hW (v :: rest) hrest
    have huv1000 : Weight g u v ≤ MaxWeight := by
      rcases hW u v with h0 | h1
      · omega
      · exact h1.2
    rw [walkWeight_cons_cons]
    have hlen : ((u :: v :: rest).length - 1 : Nat) = ((v :: rest).length - 1 : Nat) + 1 := by
      simp
    rw [hlen]
    push_cast
    have hMW : (0 : Int) ≤ MaxWeight := by norm_num [MaxWeight]
    nlinarith [hle, huv1000]

/-! ### Floyd relaxation: soundness and completeness invariants -/

theorem infSentinel_pos : (0 : Int) < InfSentinel := by norm_num [InfSentinel]

theorem getM_fwStep_other {k i : Nat} {M : Mat} {j i' j' : Nat} (h : ¬(i' = i ∧ j' = j)) :
    getM (fwStep k i M j) i' j' = getM M i' j' := by
  unfold fwStep
  split_ifs with h1 h2
  · rfl
  · exact getM_setM_ne _ h
  · rfl

theorem getM_fwStep_le {N k i j : Nat} {M : Mat} (hWF : MatWF M N) (hi : i < N) (hj : j < N) :
    getM (fwStep k i M j) i j ≤ getM M i j := by
  unfold fwStep
  split_ifs with h1 h2
  · exact le_refl _
  · rw [getM_setM_self hWF hi hj]
    omega
  · exact le_refl _

theorem getM_fwStep_relax {N k i j : Nat} {M : Mat} (hWF : MatWF M N) (hi : i < N) (hj : j < N)
    (hkj : getM M k j ≠ InfSentinel) :
    getM (fwStep k i M j) i j ≤ getM M i k + getM M k j := by
  unfold fwStep
  split_ifs with h1 h2
  · exact absurd h1 hkj
  · rw [getM_setM_self hWF hi hj]
  · omega

theorem matWF_fwStep {N k i j : Nat} {M : Mat} (hWF : MatWF M N) :
    MatWF (fwStep k i M j) N := by
  unfold fwStep
  split_ifs with h1 h2
  · exact hWF
  · exact matWF_setM hWF i j _
  · exact hWF

theorem floydInv_fwStep (g : Graph) {M : Mat} {k i j : Nat}
    (hWF : MatWF M (NumNodes g)) (hInv : FloydInv g M)
    (hk : k < NumNodes g) (hi : i < NumNodes g) (hj : j < NumNodes g) :
    FloydInv g (fwStep k i M j) := by
  intro a b ha hb
  by_cases hab : a = i ∧ b = j
  · obtain ⟨rfl, rfl⟩ := hab
    unfold fwStep
    split_ifs with h1 h2
    · exact hInv a b ha hb
    · -- a relaxation actually happened
      rw [getM_setM_self hWF ha hb]
      obtain ⟨hak0, hakInf, hdiagak, hsndak⟩ := hInv a k ha hk
      obtain ⟨hkb0, hkbInf, hdiagkb, hsndkb⟩ := hInv k b hk hb
      obtain ⟨hab0, habInf, hdiagab, hsndab⟩ := hInv a b ha hb
      have hkbfin : getM M k b < InfSentinel := lt_of_le_of_ne hkbInf h1
      have hakfin : getM M a k < InfSentinel := by
        rcases lt_or_eq_of_le hakInf with h | h
        · exact h
        · exfalso
          omega
      obtain ⟨P1, hP1, hw1⟩ := hsndak hakfin
      obtain ⟨P2, hP2, hw2⟩ := hsndkb hkbfin
      obtain ⟨hcomp, hwcomp, _⟩ := walk_compose g hP1 hP2
      refine ⟨by omega, by omega, ?_, ?_⟩
      · intro hab2
        subst hab2
        have hz := hdiagab rfl
        omega
      · intro _
        exact ⟨P1 ++ P2.tail, hcomp, by omega⟩
    · exact hInv a b ha hb
  · rw [getM_fwStep_other hab]
    exact hInv a b ha hb

theorem fwStep_diag_col (g : Graph) {M : Mat} {k i : Nat}
    (hInv : FloydInv g M) (hk : k < NumNodes g) : fwStep k i M k = M := by
  unfold fwStep
  have hkk : getM M k k = 0 := (hInv k k hk hk).2.2.1 rfl
  split_ifs with h1 h2
  · rfl
  · exfalso
    rw [hkk] at h2
    omega
  · rfl

theorem fwStep_diag_row (g : Graph) {M : Mat} {k j : Nat}
    (hInv : FloydInv g M) (hk : k < NumNodes g) : fwStep k k M j = M := by
  unfold fwStep
  have hkk : getM M k k = 0 := (hInv k k hk hk).2.2.1 rfl
  split_ifs with h1 h2
  · rfl
  · exfalso
    rw [hkk] at h2
    omega
  · rfl

theorem fwInner_go (g : Graph) (k i : Nat) (hk : k < NumNodes g) (hi : i < NumNodes g) :
    ∀ (js : List Nat) (M : Mat), (∀ j ∈ js, j < NumNodes g) →
      MatWF M (NumNodes g) → FloydInv g M →
      MatWF (js.foldl (fwStep k i) M) (NumNodes g) ∧
        FloydInv g (js.foldl (fwStep k i) M) ∧
        (∀ a b, getM (js.foldl (fwStep k i) M) a b ≤ getM M a b) ∧
        (∀ a, getM (js.foldl (fwStep k i) M) a k = getM M a k) ∧
        (∀ b, getM (js.foldl (fwStep k i) M) k b = getM M k b)
  | [], M, _, hWF, hInv => ⟨hWF, hInv, fun _ _ => le_refl _, fun _ => rfl, fun _ => rfl⟩
  | j :: rest, M, hjs, hWF, hInv => by
    have hj : j < NumNodes g := hjs j (List.mem_cons_self j rest)
    have hWF1 := @matWF_fwStep (NumNodes g) k i j M hWF
    have hInv1 := floydInv_fwStep g hWF hInv hk hi hj
    obtain ⟨hWF2, hInv2, hle2, hcol2, hrow2⟩ :=
      fwInner_go g k i hk hi rest (fwStep k i M j)
        (fun x hx => hjs x (List.mem_cons_of_mem j hx)) hWF1 hInv1
    rw [List.foldl_cons]
    refine ⟨hWF2, hInv2, ?_, ?_, ?_⟩
    · intro a b
      refine le_trans (hle2 a b) ?_
      by_cases hab : a = i ∧ b = j
      · obtain ⟨rfl, rfl⟩ := hab
        exact getM_fwStep_le hWF hi hj
      · rw [getM_fwStep_other hab]
    · intro a
      rw [hcol2 a]
      by_cases hjk : j = k
      · subst hjk
        rw [fwStep_diag_col g hInv hk]
      · rw [@getM_fwStep_other k i M j a k (fun hc => hjk hc.2.symm)]
    · intro b
      rw [hrow2 b]
      by_cases hik : i = k
      · subst hik
        rw [fwStep_diag_row g hInv hk]
      · rw [@getM_fwStep_other k i M j k b (fun hc => hik hc.1.symm)]

theorem fwInner_bound (g : Graph) (k i : Nat) (hk : k < NumNodes g) (hi : i < NumNodes g) :
    ∀ (js : List Nat) (M : Mat), (∀ j ∈ js, j < NumNodes g) →
      MatWF M (NumNodes g) → FloydInv g M →
      ∀ j0 ∈ js, getM M k j0 ≠ InfSentinel →
        getM (js.foldl (fwStep k i) M) i j0 ≤ getM M i k + getM M k j0
  | [], _, _, _, _, j0, hj0, _ => absurd hj0 (List.not_mem_nil j0)
  | j :: rest, M, hjs, hWF, hInv, j0, hj0, hkj0 => by
    have hj : j < NumNodes g := hjs j (List.mem_cons_self j rest)
    have hWF1 := @matWF_fwStep (NumNodes g) k i j M hWF
    have hInv1 := floydInv_fwStep g hWF hInv hk hi hj
    have hrest : ∀ x ∈ rest, x < NumNodes g := fun x hx => hjs x (List.mem_cons_of_mem j hx)
    obtain ⟨_, _, hle2, hcol2, hrow2⟩ := fwInner_go g k i hk hi rest (fwStep k i M j) hrest hWF1 hInv1
    rw [List.foldl_cons]
    rcases List.mem_cons.mp hj0 with rfl | hj0r
    · -- the bound is established at this step and only improves afterwards
      have hstep : getM (fwStep k i M j0) i j0 ≤ getM M i k + getM M k j0 :=
        getM_fwStep_relax hWF hi (hjs j0 hj0) hkj0
      exact le_trans (hle2 i j0) hstep
    · -- the step leaves row k and column k alone, so the hypothesis carries over
      have hcol1 : getM (fwStep k i M j) i k = getM M i k := by
        by_cases hjk : j = k
        · subst hjk
          rw [fwStep_diag_col g hInv hk]
        · rw [@getM_fwStep_other k i M j i k (fun hc => hjk hc.2.symm)]
      have hrow1 : getM (fwStep k i M j) k j0 = getM M k j0 := by
        by_cases hik : i = k
        · subst hik
          rw [fwStep_diag_row g hInv hk]
        · rw [@getM_fwStep_other k i M j k j0 (fun hc => hik hc.1.symm)]
      have := fwInner_bound g k i hk hi rest (fwStep k i M j) hrest hWF1 hInv1 j0 hj0r
        (by rw [hrow1]; exact hkj0)
      rw [hcol1, hrow1] at this
      exact this

theorem fwMid_go (g : Graph) (k : Nat) (hk : k < NumNodes g) :
    ∀ (is : List Nat) (M : Mat), (∀ i ∈ is, i < NumNodes g) →
      MatWF M (NumNodes g) → FloydInv g M →
      MatWF (is.foldl (fun M i => if getM M i k = InfSentinel then M else
          fwInner (NumNodes g) k i M) M) (NumNodes g) ∧
        FloydInv g (is.foldl (fun M i => if getM M i k = InfSentinel then M else
          fwInner (NumNodes g) k i M) M) ∧
        (∀ a b, getM (is.foldl (fun M i => if getM M i k = InfSentinel then M else
          fwInner (NumNodes g) k i M) M) a b ≤ getM M a b) ∧
        (∀ a, getM (is.foldl (fun M i => if getM M i k = InfSentinel then M else
          fwInner (NumNodes g) k i M) M) a k = getM M a k) ∧
        (∀ b, getM (is.foldl (fun M i => if getM M i k = InfSentinel then M else
          fwInner (NumNodes g) k i M) M) k b = getM M k b)
  | [], M, _, hWF, hInv => ⟨hWF, hInv, fun _ _ => le_refl _, fun _ => rfl, fun _ => rfl⟩
  | i :: rest, M, his, hWF, hInv => by
    have hi : i < NumNodes g := his i (List.mem_cons_self i rest)
    have hrange : ∀ j ∈ List.range (NumNodes g), j < NumNodes g :=
      fun j hj => List.mem_range.mp hj
    have hstep : MatWF (if getM M i k = InfSentinel then M else
        fwInner (NumNodes g) k i M) (NumNodes g) ∧
        FloydInv g (if getM M i k = InfSentinel then M else fwInner (NumNodes g) k i M) ∧
        (∀ a b, getM (if getM M i k = InfSentinel then M else
          fwInner (NumNodes g) k i M) a b ≤ getM M a b) ∧
        (∀ a, getM (if getM M i k = InfSentinel then M else
          fwInner (NumNodes g) k i M) a k = getM M a k) ∧
        (∀ b, getM (if getM M i k = InfSentinel then M else
          fwInner (NumNodes g) k i M) k b = getM M k b) := by
      split_ifs with hguard
      · exact ⟨hWF, hInv, fun _ _ => le_refl _, fun _ => rfl, fun _ => rfl⟩
      · exact fwInner_go g k i hk hi (List.range (NumNodes g)) M hrange hWF hInv
    obtain ⟨hWF1, hInv1, hle1, hcol1, hrow1⟩ := hstep
    obtain ⟨hWF2, hInv2, hle2, hcol2, hrow2⟩ :=
      fwMid_go g k hk rest _ (fun x hx => his x (List.mem_cons_of_mem i hx)) hWF1 hInv1
    rw [List.foldl_cons]
    refine ⟨hWF2, hInv2, ?_, ?_, ?_⟩
    · intro a b
      exact le_trans (hle2 a b) (hle1 a b)
    · intro a
      rw [hcol2 a, hcol1 a]
    · intro b
      rw [hrow2 b, hrow1 b]

theorem fwMid_bound (g : Graph) (k : Nat) (hk : k < NumNodes g) :
    ∀ (is : List Nat) (M : Mat), (∀ i ∈ is, i < NumNodes g) →
      MatWF M (NumNodes g) → FloydInv g M →
      ∀ i0 ∈ is, ∀ j0, j0 < NumNodes g →
        getM M i0 k ≠ InfSentinel → getM M k j0 ≠ InfSentinel →
        getM (is.foldl (fun M i => if getM M i k = InfSentinel then M else
            fwInner (NumNodes g) k i M) M) i0 j0 ≤ getM M i0 k + getM M k j0
  | [], _, _, _, _, i0, hi0, _, _, _, _ => absurd hi0 (List.not_mem_nil i0)
  | i :: rest, M, his, hWF, hInv, i0, hi0, j0, hj0, hik0, hkj0 => by
    have hi : i < NumNodes g := his i (List.mem_cons_self i rest)
    have hrange : ∀ j ∈ List.range (NumNodes g), j < NumNodes g :=
      fun j hj => List.mem_range.mp hj
    have hrest : ∀ x ∈ rest, x < NumNodes g := fun x hx => his x (List.mem_cons_of_mem i hx)
    rw [List.foldl_cons]
    rcases List.mem_cons.mp hi0 with rfl | hi0r
    · -- the row i0 is processed now; later iterations only decrease entries
      have hM1eq : (if getM M i0 k = InfSentinel then M else fwInner (NumNodes g) k i0 M) =
          fwInner (NumNodes g) k i0 M := by
        rw [if_neg hik0]
      rw [hM1eq]
      have hb := fwInner_bound g k i0 hk hi (List.range (NumNodes g)) M hrange hWF hInv j0
        (List.mem_range.mpr hj0) hkj0
      obtain ⟨hWF1, hInv1, _, _, _⟩ :=
        fwInner_go g k i0 hk hi (List.range (NumNodes g)) M hrange hWF hInv
      obtain ⟨_, _, hle2, _, _⟩ := fwMid_go g k hk rest _ hrest hWF1 hInv1
      exact le_trans (hle2 i0 j0) hb
    · have hstep : MatWF (if getM M i k = InfSentinel then M else
          fwInner (NumNodes g) k i M) (NumNodes g) ∧
          FloydInv g (if getM M i k = InfSentinel then M else fwInner (NumNodes g) k i M) ∧
          (∀ a, getM (if getM M i k = InfSentinel then M else
            fwInner (NumNodes g) k i M) a k = getM M a k) ∧
          (∀ b, getM (if getM M i k = InfSentinel then M else
            fwInner (NumNodes g) k i M) k b = getM M k b) := by
        split_ifs with hguard
        · exact ⟨hWF, hInv, fun _ => rfl, fun _ => rfl⟩
        · obtain ⟨h1, h2, _, h4, h5⟩ :=
            fwInner_go g k i hk hi (List.range (NumNodes g)) M hrange hWF hInv
          exact ⟨h1, h2, h4, h5⟩
      obtain ⟨hWF1, hInv1, hcol1, hrow1⟩ := hstep
      have := fwMid_bound g k hk rest _ hrest hWF1 hInv1 i0 hi0r j0 hj0
        (by rw [hcol1 i0]; exact hik0) (by rw [hrow1 j0]; exact hkj0)
      rw [hcol1 i0, hrow1 j0] at this
      exact this

theorem compInv_round (g : Graph) {k : Nat} {M : Mat} (hk : k < NumNodes g)
    (hWF : MatWF M (NumNodes g)) (hInv : FloydInv g M) (hComp : CompInv g k M) :
    CompInv g (k + 1) (fwMid (NumNodes g) k M) := by
  intro i j hi hj P hP hmids hwlt
  have hrange : ∀ x ∈ List.range (NumNodes g), x < NumNodes g :=
    fun x hx => List.mem_range.mp hx
  have hfw : fwMid (NumNodes g) k M =
      (List.range (NumNodes g)).foldl (fun M i => if getM M i k = InfSentinel then M else
        fwInner (NumNodes g) k i M) M := rfl
  by_cases hkP : k ∈ mids P
  case neg =>
    have hlt : ∀ x ∈ mids P, x < k := by
      intro x hx
      have h1 := hmids x hx
      have h2 : x ≠ k := fun hc => hkP (hc ▸ hx)
      omega
    have hbase := hComp i j hi hj P hP hlt hwlt
    obtain ⟨_, _, hle, _, _⟩ := fwMid_go g k hk (List.range (NumNodes g)) M hrange hWF hInv
    rw [hfw]
    exact le_trans (hle i j) hbase
  case pos =>
    obtain ⟨P1, P2, hP1, hP2, hkm1, hkm2, hsub1, hsub2, hwsum⟩ := walk_split g hP hkP
    have hnn1 := walkWeight_nonneg g P1 hP1.2.2.2
    have hnn2 := walkWeight_nonneg g P2 hP2.2.2.2
    have hw1lt : walkWeight g P1 < InfSentinel := by omega
    have hw2lt : walkWeight g P2 < InfSentinel := by omega
    have hm1 : ∀ x ∈ mids P1, x < k := by
      intro x hx
      have h1 := hmids x (hsub1 x hx)
      have h2 : x ≠ k := fun hc => hkm1 (hc ▸ hx)
      omega
    have hm2 : ∀ x ∈ mids P2, x < k := by
      intro x hx
      have h1 := hmids x (hsub2 x hx)
      have h2 : x ≠ k := fun hc => hkm2 (hc ▸ hx)
      omega
    have hb1 := hComp i k hi hk P1 hP1 hm1 hw1lt
    have hb2 := hComp k j hk hj P2 hP2 hm2 hw2lt
    have hik : getM M i k ≠ InfSentinel := by omega
    have hkj : getM M k j ≠ InfSentinel := by omega
    have := fwMid_bound g k hk (List.range (NumNodes g)) M hrange hWF hInv i
      (List.mem_range.mpr hi) j hj hik hkj
    rw [hfw]
    omega

theorem fwAll_go (g : Graph) :
    ∀ n : Nat, n ≤ NumNodes g → ∀ M : Mat,
      MatWF M (NumNodes g) → FloydInv g M → CompInv g 0 M →
      MatWF ((List.range n).foldl (fun M k => fwMid (NumNodes g) k M) M) (NumNodes g) ∧
        FloydInv g ((List.range n).foldl (fun M k => fwMid (NumNodes g) k M) M) ∧
        CompInv g n ((List.range n).foldl (fun M k => fwMid (NumNodes g) k M) M)
  | 0, _, M, hWF, hInv, hComp => ⟨hWF, hInv, hComp⟩
  | Nat.succ n, hn, M, hWF, hInv, hComp => by
    obtain ⟨hWF1, hInv1, hComp1⟩ := fwAll_go g n (by omega) M hWF hInv hComp
    have hnN : n < NumNodes g := by omega
    rw [List.range_succ, List.foldl_append, List.foldl_cons, List.foldl_nil]
    refine ⟨?_, ?_, ?_⟩
    · obtain ⟨h1, _, _, _, _⟩ := fwMid_go g n hnN (List.range (NumNodes g)) _
        (fun x hx => List.mem_range.mp hx) hWF1 hInv1
      exact h1
    · obtain ⟨_, h2, _, _, _⟩ := fwMid_go g n hnN (List.range (NumNodes g)) _
        (fun x hx => List.mem_range.mp hx) hWF1 hInv1
      exact h2
    · exact compInv_round g hnN hWF1 hInv1 hComp1

theorem floydInv_initDist (g : Graph) (hW : WeightsOK g) :
    FloydInv g (initDist g (NumNodes g)) := by
  intro i j hi hj
  rw [getM_initDist g (NumNodes g) i j hi hj]
  by_cases hij : i = j
  · subst hij
    rw [if_pos rfl]
    refine ⟨le_refl 0, le_of_lt infSentinel_pos, fun _ => rfl, fun _ => ?_⟩
    exact ⟨[i], walk_single g hi, rfl⟩
  · rw [if_neg hij]
    by_cases hw : 0 < Weight g i j
    · rw [if_pos hw]
      have hle : Weight g i j ≤ MaxWeight := by
        rcases hW i j with h0 | h1
        · omega
        · exact h1.2
      have hMW : MaxWeight < InfSentinel := by norm_num [MaxWeight, InfSentinel]
      refine ⟨le_of_lt hw, by omega, fun hc => absurd hc hij, fun _ => ?_⟩
      exact ⟨[i, j], walk_edge g hi hj hw, walkWeight_edge g i j⟩
    · rw [if_neg hw]
      exact ⟨le_of_lt infSentinel_pos, le_refl _, fun hc => absurd hc hij,
        fun hc => absurd hc (lt_irrefl _)⟩

theorem compInv0_initDist (g : Graph) : CompInv g 0 (initDist g (NumNodes g)) := by
  intro i j hi hj P hP hmids _
  have hmnil : mids P = [] := by
    rcases h : mids P with _ | ⟨x, t⟩
    · rfl
    · exfalso
      have := hmids x (h ▸ List.mem_cons_self x t)
      omega
  obtain ⟨hh, hl, hm, hc⟩ := hP
  have hlen : P.length ≤ 2 := by
    have h1 : (mids P).length = P.length - 2 := by
      show P.tail.dropLast.length = P.length - 2
      rw [List.length_dropLast, List.length_tail]
      omega
    rw [hmnil] at h1
    simp at h1
    omega
  rcases P with _ | ⟨u, rest⟩
  · cases hh
  obtain rfl : i = u := (by simpa using hh : u = i).symm
  rcases rest with _ | ⟨v, rest'⟩
  · -- single node
    obtain rfl : i = j := by simpa using hl
    rw [getM_initDist g (NumNodes g) i i hi hi, if_pos rfl]
    show (0 : Int) ≤ walkWeight g [i]
    exact le_refl 0
  · rcases rest' with _ | ⟨w', rest''⟩
    · -- exactly one edge
      obtain rfl : j = v := (by simpa using hl : v = j).symm
      have hw : 0 < Weight g i j := (List.chain'_cons.mp hc).1
      have hwW : walkWeight g [i, j] = Weight g i j := walkWeight_edge g i j
      rw [getM_initDist g (NumNodes g) i j hi hj]
      by_cases hij : i = j
      · rw [if_pos hij]
        rw [hwW]
        omega
      · rw [if_neg hij, if_pos hw, hwW]
    · simp at hlen

/-! ### Properties of graphs built by NewFromStruct -/

theorem getM_setM_self_raw {M : Mat} {i j : Nat} (hi : i < M.length)
    (hj : j < (M.getD i []).length) (v : Int) : getM (setM M i j v) i j = v := by
  show ((M.set i ((M.getD i []).set j v)).getD i []).getD j 0 = v
  rw [getD_of_getElem? [] (List.getElem?_set_self (by simpa using hi))]
  exact getD_of_getElem? 0 (List.getElem?_set_self (by simpa using hj))

theorem getM_setM_or (M : Mat) (a b : Nat) (v : Int) (i j : Nat) :
    getM (setM M a b v) i j = getM M i j ∨ getM (setM M a b v) i j = v := by
  by_cases hab : i = a ∧ j = b
  · obtain ⟨rfl, rfl⟩ := hab
    rcases Nat.lt_or_ge i M.length with hi | hi
    · rcases Nat.lt_or_ge j (M.getD i []).length with hj | hj
      · exact Or.inr (getM_setM_self_raw hi hj v)
      · left
        show ((M.set i ((M.getD i []).set j v)).getD i []).getD j 0 = (M.getD i []).getD j 0
        rw [getD_of_getElem? [] (List.getElem?_set_self (by simpa using hi)),
          List.set_eq_of_length_le hj]
    · left
      show ((M.set i ((M.getD i []).set j v)).getD i []).getD j 0 = _
      rw [List.set_eq_of_length_le hi]
      rfl
  · exact Or.inl (getM_setM_ne v hab)

theorem weightsOK_of_ok {gj : GraphJSON} {g : Graph} (h : NewFromStruct gj = Except.ok g) :
    WeightsOK g ∧ g.Nodes = buildNodes gj ∧ g.AdjMatrix = buildAdj gj (buildNodes gj) ∧
      (∀ e ∈ gj.Edges, MinWeight ≤ e.Weight ∧ e.Weight ≤ MaxWeight) ∧ buildNodes gj ≠ [] := by
  unfold NewFromStruct at h
  rcases hfind : gj.Edges.find? (fun e =>
      decide (e.Weight < MinWeight) || decide (MaxWeight < e.Weight)) with _ | e
  · rw [hfind] at h
    simp only at h
    rcases hemp : (buildNodes gj).isEmpty with hf | ht
    · rw [hemp] at h
      simp only [Bool.false_eq_true, if_false] at h
      have hg : g = { Nodes := buildNodes gj, AdjMatrix := buildAdj gj (buildNodes gj) } :=
        ((Except.ok.injEq _ _).mp h).symm
      have hvalid : ∀ e ∈ gj.Edges, MinWeight ≤ e.Weight ∧ e.Weight ≤ MaxWeight := by
        intro e he
        have := List.find?_eq_none.mp hfind e he
        simp at this
        exact ⟨by omega, by omega⟩
      have hnodes : g.Nodes = buildNodes gj := by rw [hg]
      have hadj : g.AdjMatrix = buildAdj gj (buildNodes gj) := by rw [hg]
      refine ⟨?_, hnodes, hadj, hvalid, by
        intro hc
        rw [hc] at hemp
        simp at hemp⟩
      intro i j
      have hgoal : getM (buildAdj gj (buildNodes gj)) i j = 0 ∨
          (MinWeight ≤ getM (buildAdj gj (buildNodes gj)) i j ∧
            getM (buildAdj gj (buildNodes gj)) i j ≤ MaxWeight) := by
        exact foldl_invariant _ (fun adj => getM adj i j = 0 ∨
            (MinWeight ≤ getM adj i j ∧ getM adj i j ≤ MaxWeight)) gj.Edges
          (zeroMat (buildNodes gj).length) (Or.inl (getM_zeroMat _ i j))
          (fun adj e he hP => by
            rcases getM_setM_or adj (idxOf (buildNodes gj) e.From)
              (idxOf (buildNodes gj) e.To) e.Weight i j with h1 | h2
            · rw [h1]
              exact hP
            · rw [h2]
              exact Or.inr (hvalid e he))
      show getM g.AdjMatrix i j = 0 ∨
        (MinWeight ≤ getM g.AdjMatrix i j ∧ getM g.AdjMatrix i j ≤ MaxWeight)
      rw [hadj]
      exact hgoal
    · rw [hemp] at h
      simp at h
  · rw [hfind] at h
    simp at h

theorem nodup_dedup_step (acc : List String) (n : String) (h : acc.Nodup) :
    (if n ∈ acc then acc else acc ++ [n]).Nodup := by
  split_ifs with hmem
  · exact h
  · rw [List.nodup_append]
    exact ⟨h, List.nodup_singleton n, by
      intro a ha hb
      rcases List.mem_singleton.mp hb with rfl
      exact hmem ha⟩

theorem buildNodes_nodup (gj : GraphJSON) : (buildNodes gj).Nodup := by
  unfold buildNodes
  refine foldl_invariant _ (fun acc : List String => acc.Nodup) gj.Edges _ ?_ ?_
  · exact foldl_invariant _ (fun acc : List String => acc.Nodup) gj.Nodes [] List.nodup_nil
      (fun acc n _ h => nodup_dedup_step acc n h)
  · intro acc e _ h
    exact nodup_dedup_step _ e.To (nodup_dedup_step acc e.From h)

theorem matWF_buildAdj (gj : GraphJSON) (nodes : List String) :
    MatWF (buildAdj gj nodes) nodes.length :=
  foldl_invariant _ (fun adj => MatWF adj nodes.length) gj.Edges _
    (matWF_zeroMat nodes.length) (fun adj e _ h => matWF_setM h _ _ _)

/-- The complete characterization of the Floyd distance matrix: the
combination of the soundness and completeness invariants at the end of
the triple loop.  `hbig` rules out the unrealizable graphs whose node
count is so large (about 9 * 10^15) that a genuine shortest distance
could collide with the `math.MaxInt` sentinel. -/
theorem floyd_dist_char (g : Graph) (hW : WeightsOK g)
    (hbig : MaxWeight * (NumNodes g : Int) < InfSentinel)
    (i j : Nat) (hi : i < NumNodes g) (hj : j < NumNodes g) :
    getM (fwAll (NumNodes g) (initDist g (NumNodes g))) i j ≤ InfSentinel ∧
      (i = j → getM (fwAll (NumNodes g) (initDist g (NumNodes g))) i j = 0) ∧
      (Reachable g i j →
        getM (fwAll (NumNodes g) (initDist g (NumNodes g))) i j < InfSentinel ∧
        (∃ P, IsPathFrom g i j P ∧
          walkWeight g P = getM (fwAll (NumNodes g) (initDist g (NumNodes g))) i j) ∧
        (∀ P, IsPathFrom g i j P →
          getM (fwAll (NumNodes g) (initDist g (NumNodes g))) i j ≤ walkWeight g P)) ∧
      (¬ Reachable g i j →
        getM (fwAll (NumNodes g) (initDist g (NumNodes g))) i j = InfSentinel) := by
  obtain ⟨hWF, hInv, hComp⟩ := fwAll_go g (NumNodes g) (le_refl _)
    (initDist g (NumNodes g)) (matWF_initDist g (NumNodes g)) (floydInv_initDist g hW)
    (compInv0_initDist g)
  have hfix : (List.range (NumNodes g)).foldl (fun M k => fwMid (NumNodes g) k M)
      (initDist g (NumNodes g)) = fwAll (NumNodes g) (initDist g (NumNodes g)) := rfl
  rw [hfix] at hWF hInv hComp
  have hMW0 : (0 : Int) ≤ MaxWeight := by norm_num [MaxWeight]
  -- any simple path has weight below the sentinel
  have hpathlt : ∀ P, IsPathFrom g i j P → walkWeight g P < InfSentinel := by
    intro P hP
    have hb := path_weight_le g hW P hP.1.2.2.2
    have hlen : P.length ≤ NumNodes g := nodup_length_le (NumNodes g) P hP.1.2.2.1 hP.2
    have hcast : ((P.length - 1 : Nat) : Int) ≤ (NumNodes g : Int) := by
      have : (P.length - 1 : Nat) ≤ NumNodes g := by omega
      exact_mod_cast this
    have := mul_le_mul_of_nonneg_left hcast hMW0
    linarith
  -- completeness applies to every simple path
  have hcompP : ∀ P, IsPathFrom g i j P →
      getM (fwAll (NumNodes g) (initDist g (NumNodes g))) i j ≤ walkWeight g P := by
    intro P hP
    refine hComp i j hi hj P hP.1 ?_ (hpathlt P hP)
    intro x hx
    exact hP.1.2.2.1 x (mem_of_mem_mids hx)
  obtain ⟨hnn, hle, hdiag, hsnd⟩ := hInv i j hi hj
  refine ⟨hle, hdiag, ?_, ?_⟩
  · intro ⟨P0, hP0⟩
    have hfin : getM (fwAll (NumNodes g) (initDist g (NumNodes g))) i j < InfSentinel :=
      lt_of_le_of_lt (hcompP P0 hP0) (hpathlt P0 hP0)
    obtain ⟨W, hWwalk, hWw⟩ := hsnd hfin
    obtain ⟨Q, hQ, _, hQw⟩ := walk_to_path g W.length W (le_refl _) hWwalk
    refine ⟨hfin, ⟨Q, hQ, ?_⟩, hcompP⟩
    have := hcompP Q hQ
    omega
  · intro hur
    by_contra hne
    have hfin : getM (fwAll (NumNodes g) (initDist g (NumNodes g))) i j < InfSentinel :=
      lt_of_le_of_ne hle hne
    obtain ⟨W, hWwalk, _⟩ := hsnd hfin
    exact hur (reachable_of_walk g hWwalk)

/-! ### Locating the per-pair records inside Results -/

theorem flatten_rows_getElem {α : Type _} (N : Nat) :
    ∀ (rows : List (List α)) (i j : Nat), (∀ r ∈ rows, r.length = N) →
      i < rows.length → j < N →
      rows.flatten[i * N + j]? = rows[i]?.bind (fun r => r[j]?)
  | [], i, _, _, hi, _ => by simp at hi
  | r :: rest, 0, j, hlen, _, hj => by
    have hr : r.length = N := hlen r (List.mem_cons_self r rest)
    rw [List.flatten_cons]
    have h1 : (0 * N + j) = j := by omega
    rw [h1, List.getElem?_append_left (by omega)]
    simp
  | r :: rest, Nat.succ i, j, hlen, hi, hj => by
    have hr : r.length = N := hlen r (List.mem_cons_self r rest)
    rw [List.flatten_cons]
    have h1 : (Nat.succ i) * N + j = r.length + (i * N + j) := by
      rw [hr, Nat.succ_mul]
      ring
    rw [h1, List.getElem?_append_right (by omega)]
    have h2 : r.length + (i * N + j) - r.length = i * N + j := by omega
    rw [h2]
    have h3 := flatten_rows_getElem N rest i j
      (fun x hx => hlen x (List.mem_cons_of_mem r hx)) (by simpa using hi) hj
    rw [h3]
    simp

theorem runFloyd_results_getElem (g : Graph) (i j : Nat)
    (hi : i < NumNodes g) (hj : j < NumNodes g) :
    (RunFloyd g).Results[i * NumNodes g + j]? =
      some (pairResult g (fwAll (NumNodes g) (initDist g (NumNodes g)))
        (buildPred g (NumNodes g) (fwAll (NumNodes g) (initDist g (NumNodes g)))) i j) := by
  show (((List.range (NumNodes g)).map fun a => (List.range (NumNodes g)).map fun b =>
    pairResult g _ _ a b).flatten)[i * NumNodes g + j]? = _
  rw [flatten_rows_getElem (NumNodes g) _ i j ?hlen (by simpa using hi) hj]
  case hlen =>
    intro r hr
    rcases List.mem_map.mp hr with ⟨a, _, hrw⟩
    rw [← hrw, List.length_map, List.length_range]
  simp [List.getElem?_range hi, List.getElem?_range hj]

/-- C1: for every graph accepted by NewFromStruct, RunFloyd reports for
each ordered pair (i,j) a Distance equal to the minimum total edge weight
over all directed paths from i to j (0 when i = j, including when a
self-loop exists), -1 exactly when j is unreachable from i, and for every
self-pair the path list is exactly the singleton path of that node's
name.  The `hbig` hypothesis excludes the unrealizable node counts
(about 9 * 10^15 and beyond) where a real distance could reach the
`math.MaxInt` sentinel. -/
theorem runFloyd_distance_correct (gj : GraphJSON) (g : Graph)
    (hok : NewFromStruct gj = Except.ok g)
    (hbig : MaxWeight * (NumNodes g : Int) < InfSentinel)
    (i j : Nat) (hi : i < NumNodes g) (hj : j < NumNodes g) :
    ∃ pr : PairResult, (RunFloyd g).Results[i * NumNodes g + j]? = some pr ∧
      pr.From = Name g i ∧ pr.To = Name g j ∧
      (i = j → pr.Distance = 0 ∧ pr.Paths = [[Name g i]]) ∧
      (Reachable g i j → (∃ P, IsPathFrom g i j P ∧ walkWeight g P = pr.Distance) ∧
        ∀ P, IsPathFrom g i j P → pr.Distance ≤ walkWeight g P) ∧
      (¬ Reachable g i j → pr.Distance = -1) := by
  obtain ⟨hW, _, _, _, _⟩ := weightsOK_of_ok hok
  obtain ⟨hle, hdiag, hreach, hunreach⟩ := floyd_dist_char g hW hbig i j hi hj
  refine ⟨_, runFloyd_results_getElem g i j hi hj, ?_, ?_, ?_, ?_, ?_⟩
  · unfold pairResult
    split_ifs <;> rfl
  · unfold pairResult
    split_ifs <;> rfl
  · intro hij
    subst hij
    have h0 : getM (fwAll (NumNodes g) (initDist g (NumNodes g))) i i = 0 := hdiag rfl
    have hni : getM (fwAll (NumNodes g) (initDist g (NumNodes g))) i i ≠ InfSentinel := by
      rw [h0]
      exact fun hc => absurd hc.symm (ne_of_gt infSentinel_pos)
    unfold pairResult
    rw [if_neg hni]
    refine ⟨h0, ?_⟩
    show enumeratePaths g _ _ i i MaxShortestPaths = [[Name g i]]
    unfold enumeratePaths
    rw [if_pos rfl]
  · intro hr
    obtain ⟨hfin, hex, hall⟩ := hreach hr
    have hni : getM (fwAll (NumNodes g) (initDist g (NumNodes g))) i j ≠ InfSentinel :=
      ne_of_lt hfin
    unfold pairResult
    rw [if_neg hni]
    exact ⟨hex, hall⟩
  · intro hur
    unfold pairResult
    rw [if_pos (hunreach hur)]

/-- Witness for C1 at Scenario A, pair (A, B). -/
theorem runFloyd_distance_correct_witness :
    NewFromStruct gjA = Except.ok gA ∧
      MaxWeight * (NumNodes gA : Int) < InfSentinel ∧ 0 < NumNodes gA ∧ 1 < NumNodes gA ∧
      (∃ pr : PairResult, (RunFloyd gA).Results[0 * NumNodes gA + 1]? = some pr ∧
        pr.From = Name gA 0 ∧ pr.To = Name gA 1 ∧
        ((0 : Nat) = 1 → pr.Distance = 0 ∧ pr.Paths = [[Name gA 0]]) ∧
        (Reachable gA 0 1 → (∃ P, IsPathFrom gA 0 1 P ∧ walkWeight gA P = pr.Distance) ∧
          ∀ P, IsPathFrom gA 0 1 P → pr.Distance ≤ walkWeight gA P) ∧
        (¬ Reachable gA 0 1 → pr.Distance = -1)) :=
  ⟨by rfl, by decide, by decide, by decide,
    runFloyd_distance_correct gjA gA (by rfl) (by decide) 0 1 (by decide) (by decide)⟩

/-! ### NewFromStruct: acceptance characterization -/

theorem dedupStep_mem {acc : List String} {n : String} (m : String) (h : n ∈ acc) :
    n ∈ (if m ∈ acc then acc else acc ++ [m]) := by
  split_ifs with hm
  · exact h
  · exact List.mem_append.mpr (Or.inl h)

theorem dedupStep_self (acc : List String) (m : String) :
    m ∈ (if m ∈ acc then acc else acc ++ [m]) := by
  split_ifs with hm
  · exact hm
  · exact List.mem_append.mpr (Or.inr (List.mem_singleton.mpr rfl))

theorem nodesFold_mem :
    ∀ (l : List String) (acc : List String) (n : String), n ∈ acc ∨ n ∈ l →
      n ∈ l.foldl (fun acc n => if n ∈ acc then acc else acc ++ [n]) acc
  | [], acc, n, h => by
    rcases h with h | h
    · exact h
    · exact absurd h (List.not_mem_nil n)
  | m :: rest, acc, n, h => by
    rw [List.foldl_cons]
    apply nodesFold_mem rest
    rcases h with h | h
    · exact Or.inl (dedupStep_mem m h)
    · rcases List.mem_cons.mp h with rfl | h2
      · exact Or.inl (dedupStep_self acc n)
      · exact Or.inr h2

theorem edgesFold_mem :
    ∀ (l : List Edge) (acc : List String) (n : String),
      n ∈ acc ∨ (∃ e ∈ l, n = e.From ∨ n = e.To) →
      n ∈ l.foldl (fun acc e =>
        let acc2 := if e.From ∈ acc then acc else acc ++ [e.From]
        if e.To ∈ acc2 then acc2 else acc2 ++ [e.To]) acc
  | [], acc, n, h => by
    rcases h with h | ⟨e, he, _⟩
    · exact h
    · exact absurd he (List.not_mem_nil e)
  | e0 :: rest, acc, n, h => by
    rw [List.foldl_cons]
    apply edgesFold_mem rest
    rcases h with h | ⟨e, he, hor⟩
    · exact Or.inl (dedupStep_mem _ (dedupStep_mem _ h))
    · rcases List.mem_cons.mp he with rfl | h2
      · rcases hor with rfl | rfl
        · exact Or.inl (dedupStep_mem _ (dedupStep_self acc e.From))
        · exact Or.inl (dedupStep_self _ e.To)
      · exact Or.inr ⟨e, h2, hor⟩

theorem mem_buildNodes_of_node {gj : GraphJSON} {n : String} (h : n ∈ gj.Nodes) :
    n ∈ buildNodes gj :=
  edgesFold_mem gj.Edges _ n (Or.inl (nodesFold_mem gj.Nodes [] n (Or.inr h)))

theorem mem_buildNodes_of_edge {gj : GraphJSON} {e : Edge} (he : e ∈ gj.Edges) :
    e.From ∈ buildNodes gj ∧ e.To ∈ buildNodes gj :=
  ⟨edgesFold_mem gj.Edges _ _ (Or.inr ⟨e, he, Or.inl rfl⟩),
    edgesFold_mem gj.Edges _ _ (Or.inr ⟨e, he, Or.inr rfl⟩)⟩

/-- C7: NewFromStruct returns an error exactly when some edge weight lies
outside [1, 1000] or the resulting node set (declared nodes plus edge
endpoints) is empty — the node set is empty precisely when both lists of
the input are empty; on every other input a graph is returned.  No
partial graph can accompany an error since the return type holds either
a graph or an error.  (The iff has no side hypotheses, so it needs no
witness.) -/
theorem newFromStruct_ok_iff (gj : GraphJSON) :
    (∃ g, NewFromStruct gj = Except.ok g) ↔
      ((∀ e ∈ gj.Edges, MinWeight ≤ e.Weight ∧ e.Weight ≤ MaxWeight) ∧
        ¬(gj.Nodes = [] ∧ gj.Edges = [])) := by
  constructor
  · rintro ⟨g, hg⟩
    obtain ⟨_, _, _, hvalid, hne⟩ := weightsOK_of_ok hg
    refine ⟨hvalid, ?_⟩
    rintro ⟨hn, he⟩
    apply hne
    unfold buildNodes
    rw [hn, he]
    rfl
  · rintro ⟨hvalid, hne⟩
    have hfind : gj.Edges.find? (fun e =>
        decide (e.Weight < MinWeight) || decide (MaxWeight < e.Weight)) = none := by
      rw [List.find?_eq_none]
      intro e he
      have := hvalid e he
      simp
      omega
    have hnonempty : buildNodes gj ≠ [] := by
      rcases hn : gj.Nodes with _ | ⟨n0, nrest⟩
      · rcases he : gj.Edges with _ | ⟨e0, erest⟩
        · exact absurd ⟨hn, he⟩ hne
        · have : e0.From ∈ buildNodes gj := (mem_buildNodes_of_edge (by rw [he]; simp)).1
          intro hc
          rw [hc] at this
          exact List.not_mem_nil _ this
      · have : n0 ∈ buildNodes gj := mem_buildNodes_of_node (by rw [hn]; simp)
        intro hc
        rw [hc] at this
        exact List.not_mem_nil _ this
    refine ⟨{ Nodes := buildNodes gj, AdjMatrix := buildAdj gj (buildNodes gj) }, ?_⟩
    unfold NewFromStruct
    rw [hfind]
    simp only
    rw [if_neg (by
      intro hc
      exact hnonempty (List.isEmpty_iff.mp hc))]

/-! ### CopyWithoutNode: closed forms -/

theorem oldIdx_ne (x a : Nat) : oldIdx x a ≠ x := by
  unfold oldIdx
  split_ifs <;> omega

theorem newIdx_oldIdx (x a : Nat) : newIdx x (oldIdx x a) = a := by
  unfold oldIdx newIdx
  split_ifs <;> omega

theorem oldIdx_newIdx {x i : Nat} (h : i ≠ x) : oldIdx x (newIdx x i) = i := by
  unfold oldIdx newIdx
  split_ifs <;> omega

theorem oldIdx_lt {x a N : Nat} (hx : x < N) (ha : a < N - 1) : oldIdx x a < N := by
  unfold oldIdx
  split_ifs <;> omega

theorem newIdx_lt {x i N : Nat} (hx : x < N) (hi : i < N) (hne : i ≠ x) :
    newIdx x i < N - 1 := by
  unfold newIdx
  split_ifs <;> omega

theorem newIdx_eq_iff {x j a : Nat} (hj : j ≠ x) : a = newIdx x j ↔ oldIdx x a = j := by
  constructor
  · rintro rfl
    exact oldIdx_newIdx hj
  · rintro rfl
    exact (newIdx_oldIdx x a).symm

theorem oldToNewList_getD (N x i : Nat) (hi : i < N) (d : Int) :
    (oldToNewList N x).getD i d = if i = x then -1 else (newIdx x i : Int) := by
  unfold oldToNewList
  rw [getD_of_getElem? d (by rw [List.getElem?_map, List.getElem?_range hi]; rfl)]
  show (if i = x then (-1 : Int) else if i < x then (i : Int) else (i : Int) - 1) = _
  unfold newIdx
  by_cases h1 : i = x
  · rw [if_pos h1, if_pos h1]
  · rw [if_neg h1, if_neg h1]
    by_cases h2 : i < x
    · rw [if_pos h2, if_pos h2]
    · rw [if_neg h2, if_neg h2, Nat.cast_sub (by omega)]
      rfl

theorem oldToNewList_length (N x : Nat) : (oldToNewList N x).length = N := by
  unfold oldToNewList
  rw [List.length_map, List.length_range]

theorem copySub_inner (g : Graph) (x N : Nat) (hx : x < N) (i : Nat) (hi : i < N)
    (hix : i ≠ x) :
    ∀ (js : List Nat) (adj : Mat), (∀ j ∈ js, j < N) → MatWF adj (N - 1) →
      MatWF (js.foldl (fun adj j =>
          if j = x ∨ getM g.AdjMatrix i j = 0 then adj
          else setM adj ((oldToNewList N x).getD i 0).toNat
            ((oldToNewList N x).getD j 0).toNat (getM g.AdjMatrix i j)) adj) (N - 1) ∧
      (∀ a b, a < N - 1 → b < N - 1 →
        getM (js.foldl (fun adj j =>
          if j = x ∨ getM g.AdjMatrix i j = 0 then adj
          else setM adj ((oldToNewList N x).getD i 0).toNat
            ((oldToNewList N x).getD j 0).toNat (getM g.AdjMatrix i j)) adj) a b =
          if a = newIdx x i ∧ oldIdx x b ∈ js ∧ getM g.AdjMatrix i (oldIdx x b) ≠ 0
          then getM g.AdjMatrix i (oldIdx x b) else getM adj a b)
  | [], adj, _, hWF => by
    refine ⟨hWF, ?_⟩
    intro a b _ _
    rw [if_neg (by
      rintro ⟨_, hmem, _⟩
      exact List.not_mem_nil _ hmem)]
    rfl
  | j :: rest, adj, hjs, hWF => by
    have hj : j < N := hjs j (List.mem_cons_self j rest)
    have hrest : ∀ y ∈ rest, y < N := fun y hy => hjs y (List.mem_cons_of_mem j hy)
    rw [List.foldl_cons]
    by_cases hskip : j = x ∨ getM g.AdjMatrix i j = 0
    · rw [if_pos hskip]
      obtain ⟨hWF2, hformula⟩ := copySub_inner g x N hx i hi hix rest adj hrest hWF
      refine ⟨hWF2, ?_⟩
      intro a b ha hb
      rw [hformula a b ha hb]
      have hcond : (a = newIdx x i ∧ oldIdx x b ∈ j :: rest ∧
          getM g.AdjMatrix i (oldIdx x b) ≠ 0) ↔
          (a = newIdx x i ∧ oldIdx x b ∈ rest ∧ getM g.AdjMatrix i (oldIdx x b) ≠ 0) := by
        constructor
        · rintro ⟨h1, h2, h3⟩
          rcases List.mem_cons.mp h2 with heq | h2r
          · exfalso
            rcases hskip with hskip | hskip
            · exact oldIdx_ne x b (heq.trans hskip)
            · rw [heq] at h3
              exact h3 hskip
          · exact ⟨h1, h2r, h3⟩
        · rintro ⟨h1, h2, h3⟩
          exact ⟨h1, List.mem_cons_of_mem j h2, h3⟩
      rw [if_congr hcond rfl rfl]
    · rw [if_neg hskip]
      push_neg at hskip
      obtain ⟨hjx, hw0⟩ := hskip
      have hgetDi : ((oldToNewList N x).getD i 0).toNat = newIdx x i := by
        rw [oldToNewList_getD N x i hi 0, if_neg hix]
        exact Int.toNat_natCast _
      have hgetDj : ((oldToNewList N x).getD j 0).toNat = newIdx x j := by
        rw [oldToNewList_getD N x j hj 0, if_neg hjx]
        exact Int.toNat_natCast _
      have hinit : setM adj ((oldToNewList N x).getD i 0).toNat
          ((oldToNewList N x).getD j 0).toNat (getM g.AdjMatrix i j) =
          setM adj (newIdx x i) (newIdx x j) (getM g.AdjMatrix i j) := by
        rw [hgetDi, hgetDj]
      rw [hinit]
      have hWF1 : MatWF (setM adj (newIdx x i) (newIdx x j) (getM g.AdjMatrix i j)) (N - 1) :=
        matWF_setM hWF _ _ _
      obtain ⟨hWF2, hformula⟩ := copySub_inner g x N hx i hi hix rest _ hrest hWF1
      refine ⟨hWF2, ?_⟩
      intro a b ha hb
      rw [hformula a b ha hb]
      by_cases hcr : a = newIdx x i ∧ oldIdx x b ∈ rest ∧ getM g.AdjMatrix i (oldIdx x b) ≠ 0
      · rw [if_pos hcr, if_pos ⟨hcr.1, List.mem_cons_of_mem j hcr.2.1, hcr.2.2⟩]
      · rw [if_neg hcr]
        by_cases hhit : a = newIdx x i ∧ oldIdx x b = j
        · have hbeq : b = newIdx x j := (newIdx_eq_iff hjx).mpr hhit.2
          have hself : getM (setM adj (newIdx x i) (newIdx x j) (getM g.AdjMatrix i j))
              a b = getM g.AdjMatrix i j := by
            rw [hhit.1, hbeq]
            exact getM_setM_self hWF (newIdx_lt hx hi hix) (newIdx_lt hx hj hjx) _
          rw [hself, if_pos ⟨hhit.1, by
            rw [hhit.2]
            exact List.mem_cons_self j rest, by
            rw [hhit.2]
            exact hw0⟩, hhit.2]
        · have hne2 : ¬(a = newIdx x i ∧ b = newIdx x j) := by
            rintro ⟨h1, h2⟩
            exact hhit ⟨h1, (newIdx_eq_iff hjx).mp h2⟩
          rw [getM_setM_ne _ hne2, if_neg (by
            rintro ⟨h1, h2, h3⟩
            rcases List.mem_cons.mp h2 with heq | h2r
            · exact hhit ⟨h1, heq⟩
            · exact hcr ⟨h1, h2r, h3⟩)]

theorem copySub_outer (g : Graph) (x N : Nat) (hx : x < N) :
    ∀ (is : List Nat) (adj : Mat), (∀ i ∈ is, i < N) → MatWF adj (N - 1) →
      MatWF (is.foldl (fun adj i =>
          if i = x then adj else
          (List.range N).foldl (fun adj j =>
            if j = x ∨ getM g.AdjMatrix i j = 0 then adj
            else setM adj ((oldToNewList N x).getD i 0).toNat
              ((oldToNewList N x).getD j 0).toNat (getM g.AdjMatrix i j)) adj) adj) (N - 1) ∧
      (∀ a b, a < N - 1 → b < N - 1 →
        getM (is.foldl (fun adj i =>
          if i = x then adj else
          (List.range N).foldl (fun adj j =>
            if j = x ∨ getM g.AdjMatrix i j = 0 then adj
            else setM adj ((oldToNewList N x).getD i 0).toNat
              ((oldToNewList N x).getD j 0).toNat (getM g.AdjMatrix i j)) adj) adj) a b =
          if oldIdx x a ∈ is ∧ getM g.AdjMatrix (oldIdx x a) (oldIdx x b) ≠ 0
          then getM g.AdjMatrix (oldIdx x a) (oldIdx x b) else getM adj a b)
  | [], adj, _, hWF => by
    refine ⟨hWF, ?_⟩
    intro a b _ _
    rw [if_neg (by
      rintro ⟨hmem, _⟩
      exact List.not_mem_nil _ hmem)]
    rfl
  | i :: rest, adj, his, hWF => by
    have hi : i < N := his i (List.mem_cons_self i rest)
    have hrest : ∀ y ∈ rest, y < N := fun y hy => his y (List.mem_cons_of_mem i hy)
    rw [List.foldl_cons]
    by_cases hix : i = x
    · rw [if_pos hix]
      obtain ⟨hWF2, hformula⟩ := copySub_outer g x N hx rest adj hrest hWF
      refine ⟨hWF2, ?_⟩
      intro a b ha hb
      rw [hformula a b ha hb]
      have hcond : (oldIdx x a ∈ i :: rest ∧
          getM g.AdjMatrix (oldIdx x a) (oldIdx x b) ≠ 0) ↔
          (oldIdx x a ∈ rest ∧ getM g.AdjMatrix (oldIdx x a) (oldIdx x b) ≠ 0) := by
        constructor
        · rintro ⟨h1, h2⟩
          rcases List.mem_cons.mp h1 with heq | h1r
          · exact absurd (heq.trans hix) (oldIdx_ne x a)
          · exact ⟨h1r, h2⟩
        · rintro ⟨h1, h2⟩
          exact ⟨List.mem_cons_of_mem i h1, h2⟩
      rw [if_congr hcond rfl rfl]
    · rw [if_neg hix]
      obtain ⟨hWF1, hinner⟩ := copySub_inner g x N hx i hi hix (List.range N) adj
        (fun y hy => List.mem_range.mp hy) hWF
      obtain ⟨hWF2, hformula⟩ := copySub_outer g x N hx rest _ hrest hWF1
      refine ⟨hWF2, ?_⟩
      intro a b ha hb
      rw [hformula a b ha hb]
      have hmemrange : oldIdx x b ∈ List.range N := List.mem_range.mpr (oldIdx_lt hx hb)
      by_cases hcr : oldIdx x a ∈ rest ∧ getM g.AdjMatrix (oldIdx x a) (oldIdx x b) ≠ 0
      · rw [if_pos hcr, if_pos ⟨List.mem_cons_of_mem i hcr.1, hcr.2⟩]
      · rw [if_neg hcr, hinner a b ha hb]
        by_cases hhit : oldIdx x a = i ∧ getM g.AdjMatrix i (oldIdx x b) ≠ 0
        · have haeq : a = newIdx x i := (newIdx_eq_iff hix).mpr hhit.1
          rw [if_pos ⟨haeq, hmemrange, hhit.2⟩, if_pos (by
            refine ⟨?_, ?_⟩
            · rw [hhit.1]
              exact List.mem_cons_self i rest
            · rw [hhit.1]
              exact hhit.2), hhit.1]
        · rw [if_neg (by
            rintro ⟨h1, _, h3⟩
            exact hhit ⟨(newIdx_eq_iff hix).mp h1, h3⟩), if_neg (by
            rintro ⟨h1, h2⟩
            rcases List.mem_cons.mp h1 with heq | h1r
            · exact hhit ⟨heq, by
                rw [← heq]
                exact h2⟩
            · exact hcr ⟨h1r, h2⟩)]

theorem copyWithoutNode_adj (g : Graph) (x : Nat) (hx : x < NumNodes g) :
    MatWF (CopyWithoutNode g x).1.AdjMatrix (NumNodes g - 1) ∧
      ∀ a b, a < NumNodes g - 1 → b < NumNodes g - 1 →
        Weight (CopyWithoutNode g x).1 a b = Weight g (oldIdx x a) (oldIdx x b) := by
  have hlen : (g.Nodes.eraseIdx x).length = NumNodes g - 1 :=
    List.length_eraseIdx_of_lt hx
  have hadj : (CopyWithoutNode g x).1.AdjMatrix =
      (List.range (NumNodes g)).foldl (fun adj i =>
        if i = x then adj else
        (List.range (NumNodes g)).foldl (fun adj j =>
          if j = x ∨ getM g.AdjMatrix i j = 0 then adj
          else setM adj ((oldToNewList (NumNodes g) x).getD i 0).toNat
            ((oldToNewList (NumNodes g) x).getD j 0).toNat (getM g.AdjMatrix i j)) adj)
        (zeroMat (g.Nodes.eraseIdx x).length) := rfl
  obtain ⟨hWF, hformula⟩ := copySub_outer g x (NumNodes g) hx (List.range (NumNodes g))
    (zeroMat (g.Nodes.eraseIdx x).length) (fun y hy => List.mem_range.mp hy)
    (by rw [hlen]; exact matWF_zeroMat _)
  constructor
  · rw [hadj]
    exact hWF
  · intro a b ha hb
    show getM (CopyWithoutNode g x).1.AdjMatrix a b = _
    rw [hadj, hformula a b ha hb]
    by_cases hc : getM g.AdjMatrix (oldIdx x a) (oldIdx x b) ≠ 0
    · rw [if_pos ⟨List.mem_range.mpr (oldIdx_lt hx ha), hc⟩]
      rfl
    · rw [if_neg (by
        rintro ⟨_, h2⟩
        exact hc h2), getM_zeroMat]
      push_neg at hc
      exact hc.symm

theorem name_copyWithoutNode (g : Graph) (x : Nat) (a : Nat) :
    Name (CopyWithoutNode g x).1 a = Name g (oldIdx x a) := by
  show (g.Nodes.eraseIdx x).getD a "" = g.Nodes.getD (oldIdx x a) ""
  apply getD_ext
  rw [List.getElem?_eraseIdx]
  unfold oldIdx
  split_ifs <;> rfl

/-- C8: for every graph and valid index x, CopyWithoutNode(x) returns the
subgraph whose node list is the original minus position x (hence
reindexed contiguously in ascending original-index order), whose
adjacency carries over exactly the weights between retained nodes
(stated in both directions through the index bijection oldIdx/newIdx),
and the mapping sends x to -1 and every other index i to its new index
(i below x, i - 1 above).  The embedding is purely functional, so the
original graph value is unchanged by construction — `CopyWithoutNode`
reads `g` and returns a new `Graph`. -/
theorem copyWithoutNode_spec (g : Graph) (x : Nat) (hx : x < NumNodes g) :
    (CopyWithoutNode g x).1.Nodes = g.Nodes.eraseIdx x ∧
      NumNodes (CopyWithoutNode g x).1 = NumNodes g - 1 ∧
      (∀ a, Name (CopyWithoutNode g x).1 a = Name g (oldIdx x a)) ∧
      (CopyWithoutNode g x).2.length = NumNodes g ∧
      (CopyWithoutNode g x).2.getD x 0 = -1 ∧
      (∀ i, i < NumNodes g → i ≠ x → (CopyWithoutNode g x).2.getD i 0 = (newIdx x i : Int)) ∧
      (∀ a b, a < NumNodes g - 1 → b < NumNodes g - 1 →
        Weight (CopyWithoutNode g x).1 a b = Weight g (oldIdx x a) (oldIdx x b)) ∧
      (∀ i j, i < NumNodes g → j < NumNodes g → i ≠ x → j ≠ x →
        Weight (CopyWithoutNode g x).1 (newIdx x i) (newIdx x j) = Weight g i j) := by
  obtain ⟨hWF, hweight⟩ := copyWithoutNode_adj g x hx
  refine ⟨rfl, ?_, fun a => name_copyWithoutNode g x a, ?_, ?_, ?_, hweight, ?_⟩
  · show (g.Nodes.eraseIdx x).length = NumNodes g - 1
    exact List.length_eraseIdx_of_lt hx
  · show (oldToNewList (NumNodes g) x).length = NumNodes g
    exact oldToNewList_length _ _
  · show (oldToNewList (NumNodes g) x).getD x 0 = -1
    rw [oldToNewList_getD _ _ x hx 0, if_pos rfl]
  · intro i hi hix
    show (oldToNewList (NumNodes g) x).getD i 0 = _
    rw [oldToNewList_getD _ _ i hi 0, if_neg hix]
  · intro i j hi hj hix hjx
    rw [hweight (newIdx x i) (newIdx x j) (newIdx_lt hx hi hix) (newIdx_lt hx hj hjx),
      oldIdx_newIdx hix, oldIdx_newIdx hjx]

/-- Witness for C8 on the Scenario A graph with x = 1. -/
theorem copyWithoutNode_spec_witness :
    1 < NumNodes gA ∧
      ((CopyWithoutNode gA 1).1.Nodes = gA.Nodes.eraseIdx 1 ∧
        NumNodes (CopyWithoutNode gA 1).1 = NumNodes gA - 1 ∧
        (∀ a, Name (CopyWithoutNode gA 1).1 a = Name gA (oldIdx 1 a)) ∧
        (CopyWithoutNode gA 1).2.length = NumNodes gA ∧
        (CopyWithoutNode gA 1).2.getD 1 0 = -1 ∧
        (∀ i, i < NumNodes gA → i ≠ 1 →
          (CopyWithoutNode gA 1).2.getD i 0 = (newIdx 1 i : Int)) ∧
        (∀ a b, a < NumNodes gA - 1 → b < NumNodes gA - 1 →
          Weight (CopyWithoutNode gA 1).1 a b = Weight gA (oldIdx 1 a) (oldIdx 1 b)) ∧
        (∀ i j, i < NumNodes gA → j < NumNodes gA → i ≠ 1 → j ≠ 1 →
          Weight (CopyWithoutNode gA 1).1 (newIdx 1 i) (newIdx 1 j) = Weight gA i j)) :=
  ⟨by decide, copyWithoutNode_spec gA 1 (by decide)⟩

/-! ### FillViaNeighborPaths: frame property -/

theorem assignVia_stripVia : ∀ (rs : List PairResult) (f t : String) (v : List PathDist),
    (assignVia rs f t v).map stripVia = rs.map stripVia
  | [], _, _, _ => rfl
  | pr :: rest, f, t, v => by
    unfold assignVia
    split_ifs with h
    · rfl
    · rw [List.map_cons, List.map_cons, assignVia_stripVia rest f t v]

/-- C9: FillViaNeighborPaths modifies only the ViaNeighborPaths field:
mapping every entry to its (From, To, Distance, Paths) quadruple gives
the same list before and after the call (hence the number and order of
entries is also unchanged), and the graph, distance and predecessor
fields of the result are untouched.  This holds for every
`AllPairsResult` value, with no side condition. -/
theorem fillViaNeighborPaths_frame (r : AllPairsResult) :
    ((FillViaNeighborPaths r).Results).map stripVia = r.Results.map stripVia ∧
      (FillViaNeighborPaths r).Results.length = r.Results.length ∧
      (FillViaNeighborPaths r).g = r.g ∧ (FillViaNeighborPaths r).dist = r.dist ∧
      (FillViaNeighborPaths r).pred = r.pred := by
  have hmap : ((FillViaNeighborPaths r).Results).map stripVia = r.Results.map stripVia := by
    show (((List.range (NumNodes r.g)).foldl _ r.Results).map stripVia) = _
    refine foldl_invariant _
      (fun rs : List PairResult => rs.map stripVia = r.Results.map stripVia)
      (List.range (NumNodes r.g)) r.Results rfl ?_
    intro rs fromIdx _ hrs
    by_cases hnb : (Neighbors r.g fromIdx).isEmpty = true
    · simp only [if_pos hnb]
      exact hrs
    · simp only [if_neg hnb]
      refine foldl_invariant _
        (fun rs : List PairResult => rs.map stripVia = r.Results.map stripVia)
        (List.range (NumNodes r.g)) rs hrs ?_
      intro rs2 toIdx _ hrs2
      split_ifs with hft hneg
      · exact hrs2
      · exact hrs2
      · rw [assignVia_stripVia]
        exact hrs2
  refine ⟨hmap, ?_, rfl, rfl, rfl⟩
  have := congrArg List.length hmap
  simpa using this

/-! ### Scenario A: concrete results -/

set_option maxRecDepth 40000 in
/-- C3 counterexample: on the Scenario A input the (A,C) entry (position
0 * 3 + 2 of Results) has distance 70 but its path list is exactly
[[A, B, C]] — a single entry.  The claimed second path [A, C] of weight
100 is not produced: the enumerator only emits paths whose total weight
equals the shortest distance 70, so the claim is false as stated. -/
theorem scenarioA_counterexample :
    NewFromStruct gjA = Except.ok gA ∧
      ((RunFloyd gA).Results[2]?).map PairResult.From = some "A" ∧
      ((RunFloyd gA).Results[2]?).map PairResult.To = some "C" ∧
      ((RunFloyd gA).Results[2]?).map PairResult.Distance = some 70 ∧
      ((RunFloyd gA).Results[2]?).map PairResult.Paths = some [["A", "B", "C"]] :=
  ⟨by rfl, by decide, by decide, by decide, by decide⟩

set_option maxRecDepth 40000 in
/-- C3 amended: on the Scenario A input, distance(A,B) = 50,
distance(B,A) = 80, distance(A,C) = 70, and the (A,C) path list is
exactly [[A, B, C]] (weight 70 path first and only — the non-shortest
direct path [A, C] of weight 100 is not enumerated, since the
implementation enumerates equal-cost shortest paths only). -/
theorem scenarioA_results :
    NewFromStruct gjA = Except.ok gA ∧
      ((RunFloyd gA).Results[1]?).map PairResult.From = some "A" ∧
      ((RunFloyd gA).Results[1]?).map PairResult.To = some "B" ∧
      ((RunFloyd gA).Results[1]?).map PairResult.Distance = some 50 ∧
      ((RunFloyd gA).Results[3]?).map PairResult.From = some "B" ∧
      ((RunFloyd gA).Results[3]?).map PairResult.To = some "A" ∧
      ((RunFloyd gA).Results[3]?).map PairResult.Distance = some 80 ∧
      ((RunFloyd gA).Results[2]?).map PairResult.Distance = some 70 ∧
      ((RunFloyd gA).Results[2]?).map PairResult.Paths = some [["A", "B", "C"]] :=
  ⟨by rfl, by decide, by decide, by decide, by decide, by decide, by decide, by decide,
    by decide⟩

/-! ### The via-neighbor sort: sortedness (and instability) -/

theorem swapIf_length (l : List PathDist) (i j : Nat) : (swapIf l i j).length = l.length := by
  unfold swapIf
  split_ifs
  · rw [List.length_set, List.length_set]
  · rfl

theorem getD_set_self {α : Type _} {l : List α} {n : Nat} (hn : n < l.length) (a d : α) :
    (l.set n a).getD n d = a :=
  getD_of_getElem? d (List.getElem?_set_self (by simpa using hn))

theorem getD_set_other {α : Type _} (l : List α) {n t : Nat} (hnt : n ≠ t) (a d : α) :
    (l.set n a).getD t d = l.getD t d :=
  getD_ext d (List.getElem?_set_ne hnt)

theorem swapIf_getD_other (l : List PathDist) (i j t : Nat) (hti : t ≠ i) (htj : t ≠ j) :
    (swapIf l i j).getD t dpad = l.getD t dpad := by
  unfold swapIf
  split_ifs
  · rw [getD_set_other _ (fun hc => htj hc.symm), getD_set_other _ (fun hc => hti hc.symm)]
  · rfl

theorem swapIf_swap_or_not (l : List PathDist) (i j : Nat) (hij : i ≠ j)
    (hi : i < l.length) (hj : j < l.length) :
    (swapIf l i j = l ∧
      (l.getD i dpad).Distance ≤ (l.getD j dpad).Distance) ∨
    ((swapIf l i j).getD i dpad = l.getD j dpad ∧
      (swapIf l i j).getD j dpad = l.getD i dpad ∧
      (l.getD j dpad).Distance < (l.getD i dpad).Distance) := by
  unfold swapIf
  split_ifs with h
  · right
    refine ⟨?_, ?_, h⟩
    · rw [getD_set_other (l.set i (l.getD j dpad)) (Ne.symm hij) (l.getD i dpad) dpad,
        getD_set_self hi]
    · rw [getD_set_self (by rw [List.length_set]; exact hj)]
  · left
    exact ⟨rfl, by omega⟩

theorem sortInner_go :
    ∀ (js : List Nat) (l : List PathDist) (i : Nat), js.Nodup →
      (∀ j ∈ js, i < j ∧ j < l.length) → i < l.length →
      (js.foldl (fun acc j => swapIf acc i j) l).length = l.length ∧
      ((js.foldl (fun acc j => swapIf acc i j) l).getD i dpad).Distance ≤
        (l.getD i dpad).Distance ∧
      (∀ j ∈ js, ((js.foldl (fun acc j => swapIf acc i j) l).getD i dpad).Distance ≤
        ((js.foldl (fun acc j => swapIf acc i j) l).getD j dpad).Distance) ∧
      (∀ t, t ≠ i → t ∉ js →
        (js.foldl (fun acc j => swapIf acc i j) l).getD t dpad = l.getD t dpad) ∧
      (∀ b, ∃ b', (b' = b ∨ b' = i ∨ b' ∈ js) ∧
        (js.foldl (fun acc j => swapIf acc i j) l).getD b dpad = l.getD b' dpad)
  | [], l, i, _, _, _ => by
    refine ⟨rfl, le_refl _, ?_, fun t _ _ => rfl, fun b => ⟨b, Or.inl rfl, rfl⟩⟩
    intro j hj
    exact absurd hj (List.not_mem_nil j)
  | j :: rest, l, i, hnd, hbounds, hi => by
    obtain ⟨hij, hjlen⟩ := hbounds j (List.mem_cons_self j rest)
    have hndr : rest.Nodup := (List.nodup_cons.mp hnd).2
    have hjr : j ∉ rest := (List.nodup_cons.mp hnd).1
    have hlen1 : (swapIf l i j).length = l.length := swapIf_length l i j
    have hboundsup : ∀ y ∈ rest, i < y ∧ y < (swapIf l i j).length := by
      intro y hy
      rw [hlen1]
      exact hbounds y (List.mem_cons_of_mem j hy)
    have hi1 : i < (swapIf l i j).length := by omega
    obtain ⟨hL, h2, h3, h4, h5⟩ := sortInner_go rest (swapIf l i j) i hndr hboundsup hi1
    rw [List.foldl_cons]
    rcases swapIf_swap_or_not l i j (by omega) hi hjlen with ⟨heq, hle⟩ | ⟨hii, hjj, hlt⟩
    · -- no swap: the head value at i was already the smaller one
      rw [heq] at hL h2 h3 h4 h5 ⊢
      refine ⟨hL, h2, ?_, ?_, ?_⟩
      · intro j' hj'
        rcases List.mem_cons.mp hj' with rfl | hj'r
        · rw [h4 j' (by omega) hjr]
          exact le_trans h2 hle
        · exact h3 j' hj'r
      · intro t hti htj
        exact h4 t hti (fun hc => htj (List.mem_cons_of_mem j hc))
      · intro b
        obtain ⟨b', hb', hvb⟩ := h5 b
        refine ⟨b', ?_, hvb⟩
        rcases hb' with h | h | h
        · exact Or.inl h
        · exact Or.inr (Or.inl h)
        · exact Or.inr (Or.inr (List.mem_cons_of_mem j h))
    · -- swap: position i now holds the strictly smaller value from j
      refine ⟨by omega, ?_, ?_, ?_, ?_⟩
      · refine le_trans h2 ?_
        rw [hii]
        omega
      · intro j' hj'
        rcases List.mem_cons.mp hj' with rfl | hj'r
        · rw [h4 j' (by omega) hjr, hjj]
          refine le_trans h2 ?_
          rw [hii]
          omega
        · exact h3 j' hj'r
      · intro t hti htj
        rw [h4 t hti (fun hc => htj (List.mem_cons_of_mem j hc)),
          swapIf_getD_other l i j t hti (fun hc => htj (hc ▸ List.mem_cons_self j rest))]
      · intro b
        obtain ⟨b', hb', hvb⟩ := h5 b
        by_cases hbi : b' = i
        · subst hbi
          rw [hii] at hvb
          exact ⟨j, Or.inr (Or.inr (List.mem_cons_self j rest)), hvb⟩
        · by_cases hbj : b' = j
          · subst hbj
            rw [hjj] at hvb
            exact ⟨i, Or.inr (Or.inl rfl), hvb⟩
          · rw [swapIf_getD_other l i j b' hbi hbj] at hvb
            refine ⟨b', ?_, hvb⟩
            rcases hb' with h | h | h
            · exact Or.inl h
            · exact absurd h hbi
            · exact Or.inr (Or.inr (List.mem_cons_of_mem j h))

theorem sortOuter_step (l : List PathDist) (i : Nat) (hi : i < l.length)
    (hdom : ∀ a, a < i → ∀ b, a < b → b < l.length →
      (l.getD a dpad).Distance ≤ (l.getD b dpad).Distance) :
    ((List.range' (i + 1) (l.length - (i + 1))).foldl
      (fun acc j => swapIf acc i j) l).length = l.length ∧
    (∀ a, a < i + 1 → ∀ b, a < b → b < l.length →
      (((List.range' (i + 1) (l.length - (i + 1))).foldl
        (fun acc j => swapIf acc i j) l).getD a dpad).Distance ≤
      (((List.range' (i + 1) (l.length - (i + 1))).foldl
        (fun acc j => swapIf acc i j) l).getD b dpad).Distance) := by
  have hbounds : ∀ j ∈ List.range' (i + 1) (l.length - (i + 1)), i < j ∧ j < l.length := by
    intro j hj
    rw [List.mem_range'_1] at hj
    omega
  obtain ⟨hL, h2, h3, h4, h5⟩ := sortInner_go (List.range' (i + 1) (l.length - (i + 1)))
    l i (List.nodup_range' _ _) hbounds hi
  refine ⟨hL, ?_⟩
  intro a ha b hab hb
  by_cases hai : a = i
  · subst hai
    exact h3 b (by
      rw [List.mem_range'_1]
      omega)
  · have hailt : a < i := by omega
    have hva : ((List.range' (i + 1) (l.length - (i + 1))).foldl
        (fun acc j => swapIf acc i j) l).getD a dpad = l.getD a dpad := by
      refine h4 a hai ?_
      rw [List.mem_range'_1]
      omega
    obtain ⟨b', hb', hvb⟩ := h5 b
    rw [hva, hvb]
    have hblt : a < b' ∧ b' < l.length := by
      rcases hb' with rfl | rfl | h
      · omega
      · omega
      · rw [List.mem_range'_1] at h
        omega
    exact hdom a hailt b' hblt.1 hblt.2

theorem exchangeSort_go (l : List PathDist) :
    ∀ n : Nat, n ≤ l.length →
      ((List.range n).foldl (fun acc i =>
        (List.range' (i + 1) (l.length - (i + 1))).foldl
          (fun acc j => swapIf acc i j) acc) l).length = l.length ∧
      (∀ a, a < n → ∀ b, a < b → b < l.length →
        (((List.range n).foldl (fun acc i =>
          (List.range' (i + 1) (l.length - (i + 1))).foldl
            (fun acc j => swapIf acc i j) acc) l).getD a dpad).Distance ≤
        (((List.range n).foldl (fun acc i =>
          (List.range' (i + 1) (l.length - (i + 1))).foldl
            (fun acc j => swapIf acc i j) acc) l).getD b dpad).Distance)
  | 0, _ => ⟨rfl, fun a ha => by omega⟩
  | Nat.succ n, hn => by
    obtain ⟨hL, hdom⟩ := exchangeSort_go l n (by omega)
    rw [List.range_succ, List.foldl_append, List.foldl_cons, List.foldl_nil]
    have hstep := sortOuter_step ((List.range n).foldl (fun acc i =>
      (List.range' (i + 1) (l.length - (i + 1))).foldl
        (fun acc j => swapIf acc i j) acc) l) n (by omega)
      (by
        rw [hL]
        exact hdom)
    rw [hL] at hstep
    exact ⟨hstep.1, hstep.2⟩

theorem exchangeSort_sorted (l : List PathDist) :
    List.Pairwise (fun a b : PathDist => a.Distance ≤ b.Distance) (exchangeSort l) := by
  obtain ⟨hL, hdom⟩ := exchangeSort_go l l.length (le_refl _)
  rw [List.pairwise_iff_getElem]
  intro a b ha hb hab
  have hL2 : (exchangeSort l).length = l.length := hL
  have h1 := hdom a (by omega) b hab (by omega)
  rw [getD_eq_elem dpad (by omega), getD_eq_elem dpad (by omega)] at h1
  exact h1

theorem dedupTake_pairwise (R : PathDist → PathDist → Prop) :
    ∀ (cands res : List PathDist) (maxN : Nat),
      List.Pairwise R (res ++ cands) → List.Pairwise R (dedupTake cands res maxN)
  | [], res, _, h => by
    unfold dedupTake
    exact (List.pairwise_append.mp h).1
  | c :: rest, res, maxN, h => by
    unfold dedupTake
    split_ifs with h1 h2
    · exact (List.pairwise_append.mp h).1
    · refine dedupTake_pairwise R rest res maxN ?_
      have hsub : List.Sublist (res ++ rest) (res ++ c :: rest) :=
        List.Sublist.append_left (List.sublist_cons_self c rest) res
      exact List.Pairwise.sublist hsub h
    · refine dedupTake_pairwise R rest (res ++ [c]) maxN ?_
      rw [List.append_assoc]
      exact h

theorem dedupPathsByKey_sorted (cands : List PathDist) (maxN : Nat) :
    List.Pairwise (fun a b : PathDist => a.Distance ≤ b.Distance)
      (dedupPathsByKey cands maxN) := by
  unfold dedupPathsByKey
  split_ifs with h
  · exact List.Pairwise.nil
  · refine dedupTake_pairwise _ (exchangeSort cands) [] maxN ?_
    rw [List.nil_append]
    exact exchangeSort_sorted cands

theorem assignVia_mem :
    ∀ {rs : List PairResult} {f t : String} {v : List PathDist} {pr : PairResult},
      pr ∈ assignVia rs f t v →
      pr ∈ rs ∨ ∃ pr0 ∈ rs, pr0.From = f ∧ pr0.To = t ∧
        pr = { pr0 with ViaNeighborPaths := v }
  | [], _, _, _, _, h => absurd h (List.not_mem_nil _)
  | pr0 :: rest, f, t, v, pr, h => by
    unfold assignVia at h
    split_ifs at h with hmatch
    · rcases List.mem_cons.mp h with rfl | hrest
      · exact Or.inr ⟨pr0, List.mem_cons_self pr0 rest, hmatch.1, hmatch.2, rfl⟩
      · exact Or.inl (List.mem_cons_of_mem pr0 hrest)
    · rcases List.mem_cons.mp h with rfl | hrest
      · exact Or.inl (List.mem_cons_self pr rest)
      · rcases assignVia_mem hrest with h1 | ⟨pr1, hpr1, hf, ht, heq⟩
        · exact Or.inl (List.mem_cons_of_mem pr0 h1)
        · exact Or.inr ⟨pr1, List.mem_cons_of_mem pr0 hpr1, hf, ht, heq⟩

theorem pairResult_via_nil (g : Graph) (dist : Mat) (pred : List (List (List Nat)))
    (i j : Nat) : (pairResult g dist pred i j).ViaNeighborPaths = [] := by
  unfold pairResult
  split_ifs <;> rfl

theorem runFloyd_mem (g : Graph) {pr : PairResult} (h : pr ∈ (RunFloyd g).Results) :
    ∃ i j, i < NumNodes g ∧ j < NumNodes g ∧
      pr = pairResult g (fwAll (NumNodes g) (initDist g (NumNodes g)))
        (buildPred g (NumNodes g) (fwAll (NumNodes g) (initDist g (NumNodes g)))) i j := by
  have h2 : pr ∈ ((List.range (NumNodes g)).map fun i => (List.range (NumNodes g)).map
      fun j => pairResult g (fwAll (NumNodes g) (initDist g (NumNodes g)))
        (buildPred g (NumNodes g) (fwAll (NumNodes g) (initDist g (NumNodes g)))) i j).flatten :=
    h
  rw [List.mem_flatten] at h2
  obtain ⟨row, hrow, hpr⟩ := h2
  rcases List.mem_map.mp hrow with ⟨i, hi, hrw⟩
  rw [← hrw] at hpr
  rcases List.mem_map.mp hpr with ⟨j, hj, hprw⟩
  exact ⟨i, j, List.mem_range.mp hi, List.mem_range.mp hj, hprw.symm⟩

/-- C4 amended: after FillViaNeighborPaths, every entry's
via_neighbor_paths list is sorted ascending (nondecreasing) by total
distance.  The comparison is NOT stable, contrary to the claim:
candidates of equal total distance can end up in the reverse of their
generation order (see the counterexample theorem), because the simple
exchange sort swaps a later smaller element past equal ones. -/
theorem fillVia_sorted (g : Graph) (pr : PairResult)
    (hpr : pr ∈ (FillViaNeighborPaths (RunFloyd g)).Results) :
    List.Pairwise (fun a b : PathDist => a.Distance ≤ b.Distance) pr.ViaNeighborPaths := by
  have hmain : ∀ q ∈ (FillViaNeighborPaths (RunFloyd g)).Results,
      List.Pairwise (fun a b : PathDist => a.Distance ≤ b.Distance) q.ViaNeighborPaths := by
    show ∀ q ∈ (List.range (NumNodes (RunFloyd g).g)).foldl _ (RunFloyd g).Results, _
    refine foldl_invariant _ (fun rs : List PairResult => ∀ q ∈ rs,
      List.Pairwise (fun a b : PathDist => a.Distance ≤ b.Distance) q.ViaNeighborPaths)
      _ _ ?_ ?_
    · intro q hq
      obtain ⟨i, j, _, _, rfl⟩ := runFloyd_mem _ hq
      rw [pairResult_via_nil]
      exact List.Pairwise.nil
    · intro rs fromIdx _ hrs
      dsimp only
      split_ifs with hnb
      · exact hrs
      · refine foldl_invariant _ (fun rs : List PairResult => ∀ q ∈ rs,
          List.Pairwise (fun a b : PathDist => a.Distance ≤ b.Distance) q.ViaNeighborPaths)
          _ _ hrs ?_
        intro rs2 toIdx _ hrs2
        dsimp only
        split_ifs with hft hneg
        · exact hrs2
        · exact hrs2
        · intro q hq
          rcases assignVia_mem hq with h1 | ⟨q0, _, _, _, rfl⟩
          · exact hrs2 q h1
          · exact dedupPathsByKey_sorted _ _
  exact hmain pr hpr

set_option maxRecDepth 100000 in
/-- Witness for the amended C4 on the tie-break graph: some entry of the
filled result, with the theorem discharging its membership hypothesis. -/
theorem fillVia_sorted_witness :
    (∃ pr, pr ∈ (FillViaNeighborPaths (RunFloyd g4)).Results ∧
      List.Pairwise (fun a b : PathDist => a.Distance ≤ b.Distance) pr.ViaNeighborPaths) :=
  match hfind : (FillViaNeighborPaths (RunFloyd g4)).Results with
  | [] => by
    exfalso
    revert hfind
    decide
  | pr :: rest => ⟨pr, List.mem_cons_self pr rest,
      fillVia_sorted g4 pr (by rw [hfind]; exact List.mem_cons_self pr rest)⟩

set_option maxRecDepth 100000 in
/-- C4 counterexample: on the tie-break graph, the candidate pool for
(S, D) is generated in neighbor-then-path order as
[S,N1,D](20), [S,N1,X,D](20), [S,N2,D](10); after the sort the final
via_neighbor_paths list is [S,N2,D](10), [S,N1,X,D](20), [S,N1,D](20) —
the two equal-distance candidates appear in the REVERSE of their
generation order, so the claimed stability does not hold. -/
theorem viaSort_counterexample :
    NewFromStruct gj4 = Except.ok g4 ∧
      (CopyWithoutNode g4 0).2.getD 4 (-1) = 3 ∧
      viaCandidates g4 g4sub g4subDist g4subPred (CopyWithoutNode g4 0).2 0 3 =
        [{ Path := ["S", "N1", "D"], Distance := 20 },
         { Path := ["S", "N1", "X", "D"], Distance := 20 },
         { Path := ["S", "N2", "D"], Distance := 10 }] ∧
      ((FillViaNeighborPaths (RunFloyd g4)).Results[4]?).map PairResult.From = some "S" ∧
      ((FillViaNeighborPaths (RunFloyd g4)).Results[4]?).map PairResult.To = some "D" ∧
      ((FillViaNeighborPaths (RunFloyd g4)).Results[4]?).map PairResult.ViaNeighborPaths =
        some [{ Path := ["S", "N2", "D"], Distance := 10 },
              { Path := ["S", "N1", "X", "D"], Distance := 20 },
              { Path := ["S", "N1", "D"], Distance := 20 }] :=
  ⟨by rfl, by decide, by decide, by decide, by decide, by decide⟩

/-! ### collectPaths: every emitted path is a shortest path -/

theorem getD_map_range {α : Type _} (f : Nat → α) (N n : Nat) (hn : n < N) (d : α) :
    ((List.range N).map f).getD n d = f n := by
  have h : ((List.range N).map f)[n]? = some (f n) := by
    rw [List.getElem?_map, List.getElem?_range hn]
    rfl
  exact getD_of_getElem? d h

theorem getD_map_range_default {α : Type _} (f : Nat → α) (N n : Nat) (hn : N ≤ n) (d : α) :
    ((List.range N).map f).getD n d = d := by
  apply getD_default
  rw [List.length_map, List.length_range]
  exact hn

theorem predOK_buildPred (g : Graph) (dist : Mat) :
    PredOK g dist (buildPred g (NumNodes g) dist) := by
  intro i j m hm
  unfold getPred buildPred at hm
  rcases Nat.lt_or_ge i (NumNodes g) with hi | hi
  · rw [getD_map_range _ _ _ hi] at hm
    rcases Nat.lt_or_ge j (NumNodes g) with hj | hj
    · rw [getD_map_range _ _ _ hj] at hm
      split_ifs at hm with hcase
      · exact absurd hm (List.not_mem_nil m)
      · rw [List.mem_filter] at hm
        have hprops := of_decide_eq_true hm.2
        have hmN := List.mem_range.mp hm.1
        exact ⟨hprops.1, hmN, hprops.2.1, hprops.2.2.1, hprops.2.2.2⟩
    · rw [getD_map_range_default _ _ _ hj] at hm
      exact absurd hm (List.not_mem_nil m)
  · rw [getD_map_range_default _ _ _ hi, getD_default [] (Nat.zero_le j)] at hm
    exact absurd hm (List.not_mem_nil m)

theorem emitPath_mem {out : List (List String)} {p q : List String}
    (h : p ∈ emitPath out q) : p ∈ out ∨ p = q := by
  unfold emitPath at h
  split_ifs at h
  · exact Or.inl h
  · rcases List.mem_append.mp h with h1 | h2
    · exact Or.inl h1
    · exact Or.inr (List.mem_singleton.mp h2)

theorem emitPath_length (out : List (List String)) (q : List String) :
    (emitPath out q).length ≤ out.length + 1 := by
  unfold emitPath
  split_ifs
  · omega
  · rw [List.length_append]
    simp

theorem emitPath_keys {out : List (List String)} (q : List String)
    (h : List.Pairwise (fun a b => pathKey a ≠ pathKey b) out) :
    List.Pairwise (fun a b => pathKey a ≠ pathKey b) (emitPath out q) := by
  unfold emitPath
  split_ifs with hseen
  · exact h
  · rw [List.pairwise_append]
    refine ⟨h, List.pairwise_singleton _ _, ?_⟩
    intro a ha b hb
    rcases List.mem_singleton.mp hb with rfl
    intro hc
    rw [List.any_eq_true] at hseen
    push_neg at hseen
    exact hseen a ha (decide_eq_true hc)

theorem chain_lt_all (f : Nat → Int) :
    ∀ (u : Nat) (rest : List Nat), List.Chain' (fun a b => f a < f b) (u :: rest) →
      ∀ x ∈ rest, f u < f x
  | _, [], _, x, hx => absurd hx (List.not_mem_nil x)
  | u, v :: rest, h, x, hx => by
    rcases List.chain'_cons.mp h with ⟨huv, hrest⟩
    rcases List.mem_cons.mp hx with rfl | hx2
    · exact huv
    · exact lt_trans huv (chain_lt_all f v rest hrest x hx2)

theorem chain_lt_nodup (f : Nat → Int) :
    ∀ (S : List Nat), List.Chain' (fun a b => f a < f b) S → S.Nodup
  | [], _ => List.nodup_nil
  | u :: rest, h => by
    have hrest : List.Chain' (fun a b => f a < f b) rest := List.Chain'.tail h
    refine List.nodup_cons.mpr ⟨?_, chain_lt_nodup f rest hrest⟩
    intro hmem
    exact absurd (chain_lt_all f u rest h u hmem) (lt_irrefl _)

theorem suffix_weight (g : Graph) (dist : Mat) (i jfin : Nat) :
    ∀ (S : List Nat) (t : Nat), S.head? = some t →
      List.Chain' (fun u v => 0 < Weight g u v ∧
        getM dist i u + Weight g u v = getM dist i v) S →
      S.getLast? = some jfin →
      walkWeight g S + getM dist i t = getM dist i jfin
  | [], t, hh, _, _ => by cases hh
  | [u], t, hh, _, hl => by
    have h1 : u = t := by simpa using hh
    have h2 : u = jfin := by simpa using hl
    rw [← h1, ← h2]
    show 0 + getM dist i u = getM dist i u
    omega
  | u :: v :: rest, t, hh, hc, hl => by
    have h1 : u = t := by simpa using hh
    rcases List.chain'_cons.mp hc with ⟨⟨hw, heq⟩, hrest⟩
    have hIH := suffix_weight g dist i jfin (v :: rest) v rfl hrest
      (by rwa [List.getLast?_cons_cons] at hl)
    rw [← h1, walkWeight_cons_cons]
    omega

theorem suffix_good (g : Graph) (dist : Mat) (i jfin : Nat) (hW : WeightsOK g)
    (hi : i < NumNodes g) {S : List Nat} {t : Nat} (hh : S.head? = some t)
    (hinv : SuffixInv g dist i jfin S)
    (hedge : 0 < Weight g i t) (heq : Weight g i t = getM dist i t) :
    IsPathFrom g i jfin (i :: S) ∧ walkWeight g (i :: S) = getM dist i jfin := by
  obtain ⟨hne, hlast, hmem, hchain⟩ := hinv
  rcases S with _ | ⟨t0, S'⟩
  · exact absurd rfl hne
  have ht0 : t0 = t := by simpa using hh
  subst ht0
  have hchainlt : List.Chain' (fun u v => getM dist i u < getM dist i v) (t0 :: S') := by
    refine List.Chain'.imp ?_ hchain
    intro u v huv
    have hmin : MinWeight ≤ Weight g u v := by
      rcases hW u v with h0 | h1
      · omega
      · exact h1.1
    have := huv.2
    show getM dist i u < getM dist i v
    unfold MinWeight at hmin
    omega
  refine ⟨⟨⟨rfl, ?_, ?_, ?_⟩, ?_⟩, ?_⟩
  · rw [show (i :: t0 :: S').getLast? = (t0 :: S').getLast? from List.getLast?_cons_cons]
    exact hlast
  · intro x hx
    rcases List.mem_cons.mp hx with rfl | hx2
    · exact hi
    · exact (hmem x hx2).2
  · refine List.chain'_cons.mpr ⟨hedge, ?_⟩
    exact List.Chain'.imp (fun u v huv => huv.1) hchain
  · refine List.nodup_cons.mpr ⟨?_, chain_lt_nodup _ _ hchainlt⟩
    intro hmemi
    exact (hmem i hmemi).1 rfl
  · have hsw := suffix_weight g dist i jfin (t0 :: S') t0 rfl hchain hlast
    rw [walkWeight_cons_cons]
    omega

theorem collectPaths_mem (g : Graph) (dist : Mat) (pred : List (List (List Nat)))
    (maxPaths : Nat) (i jfin : Nat) (hW : WeightsOK g) (hPred : PredOK g dist pred)
    (hi : i < NumNodes g) :
    ∀ (fuel : Nat) (t : Nat) (S : List Nat) (out : List (List String)),
      S.head? = some t → SuffixInv g dist i jfin S →
      ∀ p ∈ collectPaths g dist pred maxPaths fuel i t (S.map (Name g)) out,
        p ∈ out ∨ ∃ P, IsPathFrom g i jfin P ∧ p = P.map (Name g) ∧
          walkWeight g P = getM dist i jfin
  | 0, t, S, out, _, _, p, hp => Or.inl hp
  | Nat.succ fuel, t, S, out, hh, hinv, p, hp => by
    rw [show collectPaths g dist pred maxPaths (Nat.succ fuel) i t (S.map (Name g)) out =
      (if maxPaths ≤ out.length then out
       else if i = t then emitPath out (Name g i :: S.map (Name g))
       else
         (getPred pred i t).foldl
           (fun acc m => collectPaths g dist pred maxPaths fuel i m
             (Name g m :: S.map (Name g)) acc)
           (if 0 < Weight g i t ∧ Weight g i t = getM dist i t then
             emitPath out (Name g i :: S.map (Name g))
           else out)) from rfl] at hp
    have htS : t ∈ S := by
      rcases S with _ | ⟨t0, S'⟩
      · cases hh
      · have : t0 = t := by simpa using hh
        rw [← this]
        exact List.mem_cons_self t0 S'
    have htne : t ≠ i := (hinv.2.2.1 t htS).1
    by_cases hcap : maxPaths ≤ out.length
    · rw [if_pos hcap] at hp
      exact Or.inl hp
    rw [if_neg hcap] at hp
    by_cases hit : i = t
    · exact absurd hit.symm htne
    rw [if_neg hit] at hp
    · -- fold over the predecessor list
      have hout2 : ∀ q ∈ (if 0 < Weight g i t ∧ Weight g i t = getM dist i t then
          emitPath out (Name g i :: S.map (Name g)) else out),
          q ∈ out ∨ ∃ P, IsPathFrom g i jfin P ∧ q = P.map (Name g) ∧
            walkWeight g P = getM dist i jfin := by
        intro q hq
        by_cases hdir : 0 < Weight g i t ∧ Weight g i t = getM dist i t
        · rw [if_pos hdir] at hq
          rcases emitPath_mem hq with h1 | h2
          · exact Or.inl h1
          · right
            obtain ⟨hpath, hwt⟩ := suffix_good g dist i jfin hW hi hh hinv hdir.1 hdir.2
            exact ⟨i :: S, hpath, by rw [h2]; rfl, hwt⟩
        · rw [if_neg hdir] at hq
          exact Or.inl hq
      refine foldl_invariant _ (fun acc : List (List String) => ∀ q ∈ acc,
        q ∈ out ∨ ∃ P, IsPathFrom g i jfin P ∧ q = P.map (Name g) ∧
          walkWeight g P = getM dist i jfin) _ _ hout2 ?_ p hp
      intro acc m hm hacc q hq
      obtain ⟨hmne, hmN, hmw, hmfin, hmeq⟩ := hPred i t m hm
      have hinv2 : SuffixInv g dist i jfin (m :: S) := by
        obtain ⟨hne, hlast, hmem, hchain⟩ := hinv
        refine ⟨by simp, ?_, ?_, ?_⟩
        · rcases S with _ | ⟨t0, S'⟩
          · exact absurd rfl hne
          · rw [show (m :: t0 :: S').getLast? = (t0 :: S').getLast? from
              List.getLast?_cons_cons]
            exact hlast
        · intro x hx
          rcases List.mem_cons.mp hx with rfl | hx2
          · exact ⟨hmne, hmN⟩
          · exact hmem x hx2
        · refine List.chain'_cons'.mpr ⟨?_, hchain⟩
          intro y hy
          have hyt : y = t := by
            rw [hh] at hy
            exact (by simpa using hy : t = y).symm
          rw [hyt]
          exact ⟨hmw, hmeq⟩
      have hres := collectPaths_mem g dist pred maxPaths i jfin hW hPred hi fuel m
        (m :: S) acc rfl hinv2 q (by
          show q ∈ collectPaths g dist pred maxPaths fuel i m ((m :: S).map (Name g)) acc
          exact hq)
      rcases hres with h1 | h2
      · exact hacc q h1
      · exact Or.inr h2

theorem collectPaths_keys (g : Graph) (dist : Mat) (pred : List (List (List Nat)))
    (maxPaths : Nat) (i : Nat) :
    ∀ (fuel t : Nat) (sfx : List String) (out : List (List String)),
      List.Pairwise (fun a b => pathKey a ≠ pathKey b) out →
      List.Pairwise (fun a b => pathKey a ≠ pathKey b)
        (collectPaths g dist pred maxPaths fuel i t sfx out)
  | 0, _, _, out, h => h
  | Nat.succ fuel, t, sfx, out, h => by
    rw [show collectPaths g dist pred maxPaths (Nat.succ fuel) i t sfx out =
      (if maxPaths ≤ out.length then out
       else if i = t then emitPath out (Name g i :: sfx)
       else
         (getPred pred i t).foldl
           (fun acc m => collectPaths g dist pred maxPaths fuel i m (Name g m :: sfx) acc)
           (if 0 < Weight g i t ∧ Weight g i t = getM dist i t then
             emitPath out (Name g i :: sfx)
           else out)) from rfl]
    by_cases hcap : maxPaths ≤ out.length
    · rw [if_pos hcap]
      exact h
    rw [if_neg hcap]
    by_cases hit : i = t
    · rw [if_pos hit]
      exact emitPath_keys _ h
    rw [if_neg hit]
    refine foldl_invariant _
      (fun acc => List.Pairwise (fun a b => pathKey a ≠ pathKey b) acc) _ _ ?_ ?_
    · by_cases hdir : 0 < Weight g i t ∧ Weight g i t = getM dist i t
      · rw [if_pos hdir]
        exact emitPath_keys _ h
      · rw [if_neg hdir]
        exact h
    · intro acc m _ hacc
      exact collectPaths_keys g dist pred maxPaths i fuel m (Name g m :: sfx) acc hacc

theorem pairwise_ne_of_keys {l : List (List String)}
    (h : List.Pairwise (fun a b => pathKey a ≠ pathKey b) l) :
    List.Pairwise (fun a b : List String => a ≠ b) l :=
  h.imp fun hab he => hab (by rw [he])

/-- C2: for every graph accepted by NewFromStruct and every ordered pair
(i,j) whose result has a finite reported distance, every entry of the
Paths list is the name sequence of a simple directed path from i to j
whose total edge weight equals the reported Distance (hence equals
dist[i][j]), and no two entries of the list are identical sequences. -/
theorem runFloyd_paths_correct (gj : GraphJSON) (g : Graph)
    (hok : NewFromStruct gj = Except.ok g)
    (i j : Nat) (hi : i < NumNodes g) (hj : j < NumNodes g) (pr : PairResult)
    (hpr : (RunFloyd g).Results[i * NumNodes g + j]? = some pr)
    (hfin : pr.Distance ≠ -1) :
    (∀ p ∈ pr.Paths, ∃ P, IsPathFrom g i j P ∧ p = P.map (Name g) ∧
      walkWeight g P = pr.Distance) ∧
    List.Pairwise (fun a b : List String => a ≠ b) pr.Paths := by
  obtain ⟨hW, -, -, -, -⟩ := weightsOK_of_ok hok
  rw [runFloyd_results_getElem g i j hi hj] at hpr
  have hpr2 : pairResult g (fwAll (NumNodes g) (initDist g (NumNodes g)))
      (buildPred g (NumNodes g) (fwAll (NumNodes g) (initDist g (NumNodes g)))) i j = pr :=
    Option.some.inj hpr
  obtain ⟨hWF, hInv, hComp⟩ := fwAll_go g (NumNodes g) (le_refl _)
    (initDist g (NumNodes g)) (matWF_initDist g (NumNodes g)) (floydInv_initDist g hW)
    (compInv0_initDist g)
  have hfix : (List.range (NumNodes g)).foldl (fun M k => fwMid (NumNodes g) k M)
      (initDist g (NumNodes g)) = fwAll (NumNodes g) (initDist g (NumNodes g)) := rfl
  rw [hfix] at hInv
  by_cases hInf : getM (fwAll (NumNodes g) (initDist g (NumNodes g))) i j = InfSentinel
  · exfalso
    apply hfin
    rw [← hpr2]
    unfold pairResult
    rw [if_pos hInf]
  · have hprEq : pr =
        { From := Name g i, To := Name g j,
          Distance := getM (fwAll (NumNodes g) (initDist g (NumNodes g))) i j,
          Paths := enumeratePaths g (fwAll (NumNodes g) (initDist g (NumNodes g)))
            (buildPred g (NumNodes g) (fwAll (NumNodes g) (initDist g (NumNodes g))))
            i j MaxShortestPaths,
          ViaNeighborPaths := [] } := by
      rw [← hpr2]
      unfold pairResult
      rw [if_neg hInf]
    by_cases hij : i = j
    · subst hij
      rw [hprEq]
      have hPaths : enumeratePaths g (fwAll (NumNodes g) (initDist g (NumNodes g)))
          (buildPred g (NumNodes g) (fwAll (NumNodes g) (initDist g (NumNodes g))))
          i i MaxShortestPaths = [[Name g i]] := by
        unfold enumeratePaths
        rw [if_pos rfl]
      rw [hPaths]
      constructor
      · intro p hp
        have hpe : p = [Name g i] := by simpa using hp
        refine ⟨[i], ⟨walk_single g hi, List.nodup_singleton i⟩, by rw [hpe]; rfl, ?_⟩
        have hdiag := ((hInv i i hi hi).2.2.1) rfl
        rw [hdiag]
        rfl
      · exact List.pairwise_singleton _ _
    · rw [hprEq]
      have hPaths : enumeratePaths g (fwAll (NumNodes g) (initDist g (NumNodes g)))
          (buildPred g (NumNodes g) (fwAll (NumNodes g) (initDist g (NumNodes g))))
          i j MaxShortestPaths =
          collectPaths g (fwAll (NumNodes g) (initDist g (NumNodes g)))
            (buildPred g (NumNodes g) (fwAll (NumNodes g) (initDist g (NumNodes g))))
            MaxShortestPaths
            ((getM (fwAll (NumNodes g) (initDist g (NumNodes g))) i j).toNat + 1)
            i j [Name g j] [] := by
        unfold enumeratePaths
        rw [if_neg hij, if_neg hInf]
      rw [hPaths]
      constructor
      · intro p hp
        have hinv0 : SuffixInv g (fwAll (NumNodes g) (initDist g (NumNodes g))) i j [j] := by
          refine ⟨by simp, rfl, ?_, List.chain'_singleton j⟩
          intro x hx
          have hxj : x = j := by simpa using hx
          rw [hxj]
          exact ⟨fun he => hij he.symm, hj⟩
        have hres := collectPaths_mem g (fwAll (NumNodes g) (initDist g (NumNodes g)))
          (buildPred g (NumNodes g) (fwAll (NumNodes g) (initDist g (NumNodes g))))
          MaxShortestPaths i j hW (predOK_buildPred g _) hi
          ((getM (fwAll (NumNodes g) (initDist g (NumNodes g))) i j).toNat + 1)
          j [j] [] rfl hinv0 p (by
            show p ∈ collectPaths g _ _ MaxShortestPaths _ i j (([j]).map (Name g)) []
            exact hp)
        rcases hres with h1 | h2
        · exact absurd h1 (List.not_mem_nil p)
        · exact h2
      · exact pairwise_ne_of_keys (collectPaths_keys g _ _ MaxShortestPaths i _ j _ []
          List.Pairwise.nil)

set_option maxRecDepth 40000 in
theorem runFloyd_paths_correct_witness :
    (∀ p ∈ (⟨"A", "C", 70, [["A", "B", "C"]], []⟩ : PairResult).Paths,
      ∃ P, IsPathFrom gA 0 2 P ∧ p = P.map (Name gA) ∧
        walkWeight gA P = (⟨"A", "C", 70, [["A", "B", "C"]], []⟩ : PairResult).Distance) ∧
    List.Pairwise (fun a b : List String => a ≠ b)
      (⟨"A", "C", 70, [["A", "B", "C"]], []⟩ : PairResult).Paths :=
  runFloyd_paths_correct gjA gA (by rfl) 0 2 (by decide) (by decide)
    ⟨"A", "C", 70, [["A", "B", "C"]], []⟩ (by decide) (by decide)

theorem getM_oob {M : Mat} {N : Nat} (h : MatWF M N) {i j : Nat}
    (hij : N ≤ i ∨ N ≤ j) : getM M i j = 0 := by
  show (M.getD i []).getD j 0 = 0
  rcases hij with hi | hj
  · rw [getD_default [] (by rw [h.1]; exact hi)]
    exact getD_default 0 (Nat.zero_le j)
  · rcases Nat.lt_or_ge i N with hi2 | hi2
    · exact getD_default 0 (by rw [matWF_rowLen h hi2]; exact hj)
    · rw [getD_default [] (by rw [h.1]; exact hi2)]
      exact getD_default 0 (Nat.zero_le j)

theorem numNodes_copy (g : Graph) (x : Nat) (hx : x < NumNodes g) :
    NumNodes (CopyWithoutNode g x).1 = NumNodes g - 1 := by
  show (g.Nodes.eraseIdx x).length = NumNodes g - 1
  exact List.length_eraseIdx_of_lt hx

theorem weightsOK_copy (g : Graph) (x : Nat) (hx : x < NumNodes g) (hW : WeightsOK g) :
    WeightsOK (CopyWithoutNode g x).1 := by
  obtain ⟨hWF, hform⟩ := copyWithoutNode_adj g x hx
  intro a b
  rcases Nat.lt_or_ge a (NumNodes g - 1) with ha | ha
  · rcases Nat.lt_or_ge b (NumNodes g - 1) with hb | hb
    · rw [hform a b ha hb]
      exact hW _ _
    · left
      exact getM_oob hWF (Or.inr hb)
  · left
    exact getM_oob hWF (Or.inl ha)

theorem name_inj (g : Graph) (hnd : g.Nodes.Nodup) {a b : Nat}
    (ha : a < NumNodes g) (hb : b < NumNodes g) (hne : a ≠ b) : Name g a ≠ Name g b := by
  show g.Nodes.getD a "" ≠ g.Nodes.getD b ""
  rw [getD_eq_elem "" ha, getD_eq_elem "" hb]
  rcases Nat.lt_or_ge a b with h | h
  · exact List.pairwise_iff_getElem.mp hnd a b ha hb h
  · have hba : b < a := by omega
    intro he
    exact List.pairwise_iff_getElem.mp hnd b a hb ha hba he.symm

theorem collectPaths_length (g : Graph) (dist : Mat) (pred : List (List (List Nat)))
    (maxPaths : Nat) (i : Nat) :
    ∀ (fuel t : Nat) (sfx : List String) (out : List (List String)),
      out.length ≤ maxPaths →
      (collectPaths g dist pred maxPaths fuel i t sfx out).length ≤ maxPaths
  | 0, _, _, out, h => h
  | Nat.succ fuel, t, sfx, out, h => by
    rw [show collectPaths g dist pred maxPaths (Nat.succ fuel) i t sfx out =
      (if maxPaths ≤ out.length then out
       else if i = t then emitPath out (Name g i :: sfx)
       else
         (getPred pred i t).foldl
           (fun acc m => collectPaths g dist pred maxPaths fuel i m (Name g m :: sfx) acc)
           (if 0 < Weight g i t ∧ Weight g i t = getM dist i t then
             emitPath out (Name g i :: sfx)
           else out)) from rfl]
    by_cases hcap : maxPaths ≤ out.length
    · rw [if_pos hcap]
      exact h
    rw [if_neg hcap]
    by_cases hit : i = t
    · rw [if_pos hit]
      have := emitPath_length out (Name g i :: sfx)
      omega
    rw [if_neg hit]
    refine foldl_invariant _ (fun acc : List (List String) => acc.length ≤ maxPaths)
      _ _ ?_ ?_
    · by_cases hdir : 0 < Weight g i t ∧ Weight g i t = getM dist i t
      · rw [if_pos hdir]
        have := emitPath_length out (Name g i :: sfx)
        omega
      · rw [if_neg hdir]
        exact h
    · intro acc m _ hacc
      exact collectPaths_length g dist pred maxPaths i fuel m (Name g m :: sfx) acc hacc

theorem enumeratePaths_length (g : Graph) (dist : Mat) (pred : List (List (List Nat)))
    (i j maxPaths : Nat) (hmax : 1 ≤ maxPaths) :
    (enumeratePaths g dist pred i j maxPaths).length ≤ maxPaths := by
  unfold enumeratePaths
  split_ifs
  · simpa using hmax
  · simp
  · exact collectPaths_length g dist pred maxPaths i _ j [Name g j] [] (Nat.zero_le _)

theorem dedupTake_length :
    ∀ (cands res : List PathDist) (maxN : Nat), res.length ≤ maxN →
      (dedupTake cands res maxN).length ≤ maxN
  | [], _, _, h => h
  | c :: rest, res, maxN, h => by
    unfold dedupTake
    split_ifs with h1 h2
    · exact h
    · exact dedupTake_length rest res maxN h
    · refine dedupTake_length rest (res ++ [c]) maxN ?_
      rw [List.length_append]
      simp only [List.length_singleton]
      omega

theorem dedupPathsByKey_length (cands : List PathDist) (maxN : Nat) :
    (dedupPathsByKey cands maxN).length ≤ maxN := by
  unfold dedupPathsByKey
  split_ifs
  · exact Nat.zero_le maxN
  · exact dedupTake_length _ [] maxN (Nat.zero_le maxN)

theorem dedupTake_subset :
    ∀ (cands res : List PathDist) (maxN : Nat) (pd : PathDist),
      pd ∈ dedupTake cands res maxN → pd ∈ res ∨ pd ∈ cands
  | [], _, _, _, h => Or.inl h
  | c :: rest, res, maxN, pd, h => by
    unfold dedupTake at h
    split_ifs at h with h1 h2
    · exact Or.inl h
    · rcases dedupTake_subset rest res maxN pd h with h3 | h4
      · exact Or.inl h3
      · exact Or.inr (List.mem_cons_of_mem c h4)
    · rcases dedupTake_subset rest (res ++ [c]) maxN pd h with h3 | h4
      · rcases List.mem_append.mp h3 with h5 | h6
        · exact Or.inl h5
        · exact Or.inr (List.mem_cons.mpr (Or.inl (List.mem_singleton.mp h6)))
      · exact Or.inr (List.mem_cons_of_mem c h4)

theorem swapIf_subset {l : List PathDist} {i j : Nat} (hi : i < l.length)
    (hj : j < l.length) {a : PathDist} (ha : a ∈ swapIf l i j) : a ∈ l := by
  unfold swapIf at ha
  split_ifs at ha
  · rcases List.mem_or_eq_of_mem_set ha with h1 | h2
    · rcases List.mem_or_eq_of_mem_set h1 with h3 | h4
      · exact h3
      · rw [h4, getD_eq_elem dpad hj]
        exact List.getElem_mem hj
    · rw [h2, getD_eq_elem dpad hi]
      exact List.getElem_mem hi
  · exact ha

theorem exchangeSort_subset {l : List PathDist} {a : PathDist}
    (ha : a ∈ exchangeSort l) : a ∈ l := by
  have h := foldl_invariant (fun acc i =>
      (List.range' (i + 1) (l.length - (i + 1))).foldl (fun acc j => swapIf acc i j) acc)
    (fun acc : List PathDist => acc.length = l.length ∧ ∀ x ∈ acc, x ∈ l)
    (List.range l.length) l ⟨rfl, fun x hx => hx⟩ ?_
  · exact h.2 a ha
  · intro acc i hi hacc
    refine foldl_invariant _ (fun acc2 : List PathDist =>
      acc2.length = l.length ∧ ∀ x ∈ acc2, x ∈ l) _ acc hacc ?_
    intro acc2 j hj hacc2
    have hiN : i < l.length := List.mem_range.mp hi
    have hjr := List.mem_range'_1.mp hj
    have hiL : i < acc2.length := by
      rw [hacc2.1]
      exact hiN
    have hjL : j < acc2.length := by
      rw [hacc2.1]
      omega
    exact ⟨by rw [swapIf_length]; exact hacc2.1,
      fun x hx => hacc2.2 x (swapIf_subset hiL hjL hx)⟩

theorem dedupPathsByKey_subset {cands : List PathDist} {maxN : Nat} {pd : PathDist}
    (h : pd ∈ dedupPathsByKey cands maxN) : pd ∈ cands := by
  unfold dedupPathsByKey at h
  split_ifs at h
  · exact absurd h (List.not_mem_nil pd)
  · rcases dedupTake_subset (exchangeSort cands) [] maxN pd h with h1 | h2
    · exact absurd h1 (List.not_mem_nil pd)
    · exact exchangeSort_subset h2

theorem enumeratePaths_elems (g : Graph) (dist : Mat) (pred : List (List (List Nat)))
    (i j maxPaths : Nat) (hW : WeightsOK g) (hP : PredOK g dist pred)
    (hi : i < NumNodes g) (hj : j < NumNodes g) :
    ∀ p ∈ enumeratePaths g dist pred i j maxPaths, ∀ x ∈ p,
      ∃ a, a < NumNodes g ∧ x = Name g a := by
  unfold enumeratePaths
  split_ifs with hij hinf
  · intro p hp x hx
    have hpe : p = [Name g i] := by simpa using hp
    rw [hpe] at hx
    have hxe : x = Name g i := by simpa using hx
    exact ⟨i, hi, hxe⟩
  · intro p hp
    exact absurd hp (List.not_mem_nil p)
  · intro p hp x hx
    have hinv0 : SuffixInv g dist i j [j] := by
      refine ⟨by simp, rfl, ?_, List.chain'_singleton j⟩
      intro y hy
      have hyj : y = j := by simpa using hy
      rw [hyj]
      exact ⟨fun he => hij he.symm, hj⟩
    have hres := collectPaths_mem g dist pred maxPaths i j hW hP hi
      ((getM dist i j).toNat + 1) j [j] [] rfl hinv0 p (by
        show p ∈ collectPaths g dist pred maxPaths ((getM dist i j).toNat + 1) i j
          (([j]).map (Name g)) []
        exact hp)
    rcases hres with h1 | ⟨P, hPath, hpe, -⟩
    · exact absurd h1 (List.not_mem_nil p)
    · rw [hpe] at hx
      rcases List.mem_map.mp hx with ⟨a, haP, hax⟩
      exact ⟨a, hPath.1.2.2.1 a haP, hax.symm⟩

theorem viaCandidates_shape (g : Graph) (subDist : Mat) (fromIdx newTo : Nat)
    (hW : WeightsOK g) (hnd : g.Nodes.Nodup) (hAdjWF : MatWF g.AdjMatrix (NumNodes g))
    (hfrom : fromIdx < NumNodes g) (hto : newTo < NumNodes g - 1) :
    ∀ pd ∈ viaCandidates g (CopyWithoutNode g fromIdx).1 subDist
        (buildPred (CopyWithoutNode g fromIdx).1
          (NumNodes (CopyWithoutNode g fromIdx).1) subDist)
        (CopyWithoutNode g fromIdx).2 fromIdx newTo,
      pd.Path.head? = some (Name g fromIdx) ∧ ∀ x ∈ pd.Path.tail, x ≠ Name g fromIdx := by
  unfold viaCandidates
  refine foldl_invariant _ (fun cs : List PathDist => ∀ pd ∈ cs,
    pd.Path.head? = some (Name g fromIdx) ∧ ∀ x ∈ pd.Path.tail, x ≠ Name g fromIdx)
    _ [] (fun pd hpd => absurd hpd (List.not_mem_nil pd)) ?_
  intro cs nb hnb hcs
  dsimp only
  by_cases h1 : (CopyWithoutNode g fromIdx).2.getD nb (-1) < 0
  · rw [if_pos h1]
    exact hcs
  rw [if_neg h1]
  by_cases h2 : getM subDist ((CopyWithoutNode g fromIdx).2.getD nb (-1)).toNat newTo =
      InfSentinel
  · rw [if_pos h2]
    exact hcs
  rw [if_neg h2]
  intro pd hpd
  rcases List.mem_append.mp hpd with hold | hnew
  · exact hcs pd hold
  rcases List.mem_map.mp hnew with ⟨p, hp, hpd2⟩
  have hnbN : nb < NumNodes g := by
    have hmemf := (List.mem_filter.mp hnb).1
    have h3 := List.mem_range.mp hmemf
    rw [matWF_rowLen hAdjWF hfrom] at h3
    exact h3
  have hmap : (CopyWithoutNode g fromIdx).2.getD nb (-1) =
      if nb = fromIdx then -1 else (newIdx fromIdx nb : Int) :=
    oldToNewList_getD (NumNodes g) fromIdx nb hnbN (-1)
  by_cases hnbf : nb = fromIdx
  · rw [hmap, if_pos hnbf] at h1
    exact absurd (by norm_num) h1
  have hnewNb : ((CopyWithoutNode g fromIdx).2.getD nb (-1)).toNat = newIdx fromIdx nb := by
    rw [hmap, if_neg hnbf]
    simp
  have hsubN : NumNodes (CopyWithoutNode g fromIdx).1 = NumNodes g - 1 :=
    numNodes_copy g fromIdx hfrom
  have helems := enumeratePaths_elems (CopyWithoutNode g fromIdx).1 subDist
    (buildPred (CopyWithoutNode g fromIdx).1 (NumNodes (CopyWithoutNode g fromIdx).1)
      subDist)
    ((CopyWithoutNode g fromIdx).2.getD nb (-1)).toNat newTo MaxViaNeighborPaths
    (weightsOK_copy g fromIdx hfrom hW) (predOK_buildPred _ subDist)
    (by rw [hsubN, hnewNb]; exact newIdx_lt hfrom hnbN hnbf)
    (by rw [hsubN]; exact hto) p hp
  rw [← hpd2]
  refine ⟨rfl, ?_⟩
  show ∀ x ∈ (Name g fromIdx :: p).tail, x ≠ Name g fromIdx
  intro x hx
  obtain ⟨a, haN, hax⟩ := helems x hx
  rw [hax, name_copyWithoutNode]
  refine name_inj g hnd (oldIdx_lt hfrom ?_) hfrom (oldIdx_ne fromIdx a)
  rw [← hsubN]
  exact haN

theorem fillVia_invariant (r : AllPairsResult)
    (hW : WeightsOK r.g) (hnd : r.g.Nodes.Nodup)
    (hAdjWF : MatWF r.g.AdjMatrix (NumNodes r.g))
    (hinit : ∀ q ∈ r.Results, q.Paths.length ≤ MaxShortestPaths ∧
      q.ViaNeighborPaths.length ≤ MaxViaNeighborPaths ∧
      ∀ pd ∈ q.ViaNeighborPaths, pd.Path.head? = some q.From ∧
        ∀ x ∈ pd.Path.tail, x ≠ q.From) :
    ∀ q ∈ (FillViaNeighborPaths r).Results, q.Paths.length ≤ MaxShortestPaths ∧
      q.ViaNeighborPaths.length ≤ MaxViaNeighborPaths ∧
      ∀ pd ∈ q.ViaNeighborPaths, pd.Path.head? = some q.From ∧
        ∀ x ∈ pd.Path.tail, x ≠ q.From := by
  show ∀ q ∈ (List.range (NumNodes r.g)).foldl _ r.Results, _
  refine foldl_invariant _ (fun rs : List PairResult => ∀ q ∈ rs,
    q.Paths.length ≤ MaxShortestPaths ∧
    q.ViaNeighborPaths.length ≤ MaxViaNeighborPaths ∧
    ∀ pd ∈ q.ViaNeighborPaths, pd.Path.head? = some q.From ∧
      ∀ x ∈ pd.Path.tail, x ≠ q.From) _ _ hinit ?_
  intro rs fromIdx hfi hrs
  dsimp only
  split_ifs with hnbs
  · exact hrs
  refine foldl_invariant _ (fun rs : List PairResult => ∀ q ∈ rs,
    q.Paths.length ≤ MaxShortestPaths ∧
    q.ViaNeighborPaths.length ≤ MaxViaNeighborPaths ∧
    ∀ pd ∈ q.ViaNeighborPaths, pd.Path.head? = some q.From ∧
      ∀ x ∈ pd.Path.tail, x ≠ q.From) _ _ hrs ?_
  intro rs2 toIdx hti hrs2
  dsimp only
  split_ifs with hft hneg
  · exact hrs2
  · exact hrs2
  intro q hq
  rcases assignVia_mem hq with h1 | ⟨q0, hq0, hfrom0, hto0, rfl⟩
  · exact hrs2 q h1
  have hfromN : fromIdx < NumNodes r.g := List.mem_range.mp hfi
  have htoN : toIdx < NumNodes r.g := List.mem_range.mp hti
  refine ⟨(hrs2 q0 hq0).1, dedupPathsByKey_length _ _, ?_⟩
  intro pd hpd
  have hcand := dedupPathsByKey_subset hpd
  have htoB : ((CopyWithoutNode r.g fromIdx).2.getD toIdx (-1)).toNat <
      NumNodes r.g - 1 := by
    rw [show (CopyWithoutNode r.g fromIdx).2.getD toIdx (-1) =
      if toIdx = fromIdx then -1 else (newIdx fromIdx toIdx : Int) from
      oldToNewList_getD (NumNodes r.g) fromIdx toIdx htoN (-1), if_neg hft]
    rw [Int.toNat_natCast]
    exact newIdx_lt hfromN htoN hft
  have hshape := viaCandidates_shape r.g _ fromIdx _ hW hnd hAdjWF hfromN htoB pd hcand
  constructor
  · show pd.Path.head? = some q0.From
    rw [hfrom0]
    exact hshape.1
  · intro x hx
    show x ≠ q0.From
    rw [hfrom0]
    exact hshape.2 x hx

/-- C5: for every graph accepted by NewFromStruct and every entry of the
results after RunFloyd and FillViaNeighborPaths, the Paths list has at
most MaxShortestPaths (4) entries, the ViaNeighborPaths list has at most
MaxViaNeighborPaths (3) entries, and every via-neighbor path starts with
the entry's source name while no element after the first equals it. -/
theorem caps_and_via_shape (gj : GraphJSON) (g : Graph)
    (hok : NewFromStruct gj = Except.ok g) (pr : PairResult)
    (hpr : pr ∈ (FillViaNeighborPaths (RunFloyd g)).Results) :
    pr.Paths.length ≤ MaxShortestPaths ∧
    pr.ViaNeighborPaths.length ≤ MaxViaNeighborPaths ∧
    ∀ pd ∈ pr.ViaNeighborPaths, pd.Path.head? = some pr.From ∧
      ∀ x ∈ pd.Path.tail, x ≠ pr.From := by
  obtain ⟨hW, hnodes, hadj, -, -⟩ := weightsOK_of_ok hok
  have hg : (RunFloyd g).g = g := rfl
  refine fillVia_invariant (RunFloyd g) ?_ ?_ ?_ ?_ pr hpr
  · rw [hg]
    exact hW
  · rw [hg, hnodes]
    exact buildNodes_nodup gj
  · rw [hg, hadj]
    rw [show NumNodes g = (buildNodes gj).length from by
      rw [show NumNodes g = g.Nodes.length from rfl, hnodes]]
    exact matWF_buildAdj gj (buildNodes gj)
  · intro q hq
    obtain ⟨i, j, hi, hj, rfl⟩ := runFloyd_mem _ hq
    refine ⟨?_, ?_, ?_⟩
    · unfold pairResult
      split_ifs
      · exact Nat.zero_le _
      · exact enumeratePaths_length _ _ _ i j MaxShortestPaths (by decide)
    · rw [pairResult_via_nil]
      exact Nat.zero_le _
    · rw [pairResult_via_nil]
      intro pd hpd
      exact absurd hpd (List.not_mem_nil pd)

set_option maxRecDepth 100000 in
/-- Witness for C5 on the diamond via-scenario graph: some entry of the
filled result, with the theorem discharging its membership hypothesis. -/
theorem caps_and_via_shape_witness :
    ∃ pr, pr ∈ (FillViaNeighborPaths (RunFloyd gD)).Results ∧
      (pr.Paths.length ≤ MaxShortestPaths ∧
       pr.ViaNeighborPaths.length ≤ MaxViaNeighborPaths ∧
       ∀ pd ∈ pr.ViaNeighborPaths, pd.Path.head? = some pr.From ∧
         ∀ x ∈ pd.Path.tail, x ≠ pr.From) :=
  match hfind : (FillViaNeighborPaths (RunFloyd gD)).Results with
  | [] => by
    exfalso
    revert hfind
    decide
  | pr :: rest => ⟨pr, List.mem_cons_self pr rest,
      caps_and_via_shape gjD gD (by rfl) pr (by
        rw [hfind]
        exact List.mem_cons_self pr rest)⟩

theorem chain_lift (g : Graph) (x : Nat) (hx : x < NumNodes g)
    (hform : ∀ a b, a < NumNodes g - 1 → b < NumNodes g - 1 →
      Weight (CopyWithoutNode g x).1 a b = Weight g (oldIdx x a) (oldIdx x b)) :
    ∀ P : List Nat, (∀ y ∈ P, y < NumNodes g - 1) →
      List.Chain' (fun u v => 0 < Weight (CopyWithoutNode g x).1 u v) P →
      List.Chain' (fun u v => 0 < Weight g u v) (P.map (oldIdx x))
  | [], _, _ => by simp
  | [u], _, _ => by simp
  | u :: v :: rest, hb, hc => by
    rcases List.chain'_cons.mp hc with ⟨huv, hrest⟩
    rw [List.map_cons, List.map_cons]
    refine List.chain'_cons.mpr ⟨?_, ?_⟩
    · rw [← hform u v (hb u (List.mem_cons_self u _))
        (hb v (List.mem_cons_of_mem u (List.mem_cons_self v rest)))]
      exact huv
    · rw [← List.map_cons]
      exact chain_lift g x hx hform (v :: rest)
        (fun y hy => hb y (List.mem_cons_of_mem u hy)) hrest

theorem walk_lift_copy (g : Graph) (x : Nat) (hx : x < NumNodes g) (P : List Nat)
    (a b : Nat) (hwalk : IsWalkFrom (CopyWithoutNode g x).1 a b P) :
    IsWalkFrom g (oldIdx x a) (oldIdx x b) (P.map (oldIdx x)) := by
  obtain ⟨hWFsub, hform⟩ := copyWithoutNode_adj g x hx
  obtain ⟨hh, hl, hbnd, hch⟩ := hwalk
  refine ⟨?_, ?_, ?_, ?_⟩
  · rw [List.head?_map, hh]
    rfl
  · rw [List.getLast?_map, hl]
    rfl
  · intro y hy
    rcases List.mem_map.mp hy with ⟨a1, ha1, rfl⟩
    refine oldIdx_lt hx ?_
    have hb1 := hbnd a1 ha1
    rwa [numNodes_copy g x hx] at hb1
  · refine chain_lift g x hx (fun a1 b1 ha1 hb1 => hform a1 b1 ha1 hb1) P ?_ hch
    intro y hy
    have hb1 := hbnd y hy
    rwa [numNodes_copy g x hx] at hb1

theorem assignVia_getElem :
    ∀ (rs : List PairResult) (f t : String) (v : List PathDist) (n : Nat),
      (assignVia rs f t v)[n]? = rs[n]? ∨
      (∃ pr, rs[n]? = some pr ∧ pr.From = f ∧ pr.To = t ∧
        (assignVia rs f t v)[n]? = some { pr with ViaNeighborPaths := v })
  | [], _, _, _, _ => Or.inl rfl
  | pr0 :: rest, f, t, v, n => by
    unfold assignVia
    split_ifs with hm
    · match n with
      | 0 => exact Or.inr ⟨pr0, by simp, hm.1, hm.2, by simp⟩
      | Nat.succ k =>
        rw [List.getElem?_cons_succ, List.getElem?_cons_succ]
        exact Or.inl rfl
    · match n with
      | 0 => exact Or.inl (by simp)
      | Nat.succ k =>
        rw [List.getElem?_cons_succ, List.getElem?_cons_succ]
        exact assignVia_getElem rest f t v k

theorem viaCandidates_empty (g : Graph) (fromIdx newTo : Nat)
    (subPred : List (List (List Nat)))
    (hW : WeightsOK g) (hAdjWF : MatWF g.AdjMatrix (NumNodes g))
    (hfrom : fromIdx < NumNodes g) (hto : newTo < NumNodes g - 1)
    (hnr : ¬ Reachable g fromIdx (oldIdx fromIdx newTo)) :
    viaCandidates g (CopyWithoutNode g fromIdx).1
      (fwAll (NumNodes (CopyWithoutNode g fromIdx).1)
        (initDist (CopyWithoutNode g fromIdx).1 (NumNodes (CopyWithoutNode g fromIdx).1)))
      subPred (CopyWithoutNode g fromIdx).2 fromIdx newTo = [] := by
  unfold viaCandidates
  refine foldl_invariant _ (fun cs : List PathDist => cs = []) _ [] rfl ?_
  intro cs nb hnb hcs
  dsimp only
  by_cases h1 : (CopyWithoutNode g fromIdx).2.getD nb (-1) < 0
  · rw [if_pos h1]
    exact hcs
  rw [if_neg h1]
  have hnbN : nb < NumNodes g := by
    have hmemf := (List.mem_filter.mp hnb).1
    have h3 := List.mem_range.mp hmemf
    rw [matWF_rowLen hAdjWF hfrom] at h3
    exact h3
  have hmap : (CopyWithoutNode g fromIdx).2.getD nb (-1) =
      if nb = fromIdx then -1 else (newIdx fromIdx nb : Int) :=
    oldToNewList_getD (NumNodes g) fromIdx nb hnbN (-1)
  by_cases hnbf : nb = fromIdx
  · rw [hmap, if_pos hnbf] at h1
    exact absurd (by norm_num) h1
  have hnewNb : ((CopyWithoutNode g fromIdx).2.getD nb (-1)).toNat = newIdx fromIdx nb := by
    rw [hmap, if_neg hnbf]
    simp
  have hsubN := numNodes_copy g fromIdx hfrom
  have hWsub := weightsOK_copy g fromIdx hfrom hW
  obtain ⟨hWFs, hInvs, hComps⟩ := fwAll_go (CopyWithoutNode g fromIdx).1
    (NumNodes (CopyWithoutNode g fromIdx).1) (le_refl _)
    (initDist (CopyWithoutNode g fromIdx).1 (NumNodes (CopyWithoutNode g fromIdx).1))
    (matWF_initDist _ _) (floydInv_initDist _ hWsub) (compInv0_initDist _)
  have hfix : (List.range (NumNodes (CopyWithoutNode g fromIdx).1)).foldl
      (fun M k => fwMid (NumNodes (CopyWithoutNode g fromIdx).1) k M)
      (initDist (CopyWithoutNode g fromIdx).1 (NumNodes (CopyWithoutNode g fromIdx).1)) =
      fwAll (NumNodes (CopyWithoutNode g fromIdx).1)
        (initDist (CopyWithoutNode g fromIdx).1
          (NumNodes (CopyWithoutNode g fromIdx).1)) := rfl
  rw [hfix] at hInvs
  have hInf : getM (fwAll (NumNodes (CopyWithoutNode g fromIdx).1)
      (initDist (CopyWithoutNode g fromIdx).1 (NumNodes (CopyWithoutNode g fromIdx).1)))
      ((CopyWithoutNode g fromIdx).2.getD nb (-1)).toNat newTo = InfSentinel := by
    by_contra hne
    have hb1 : ((CopyWithoutNode g fromIdx).2.getD nb (-1)).toNat <
        NumNodes (CopyWithoutNode g fromIdx).1 := by
      rw [hsubN, hnewNb]
      exact newIdx_lt hfrom hnbN hnbf
    have hb2 : newTo < NumNodes (CopyWithoutNode g fromIdx).1 := by
      rw [hsubN]
      exact hto
    obtain ⟨-, hle, -, hreal⟩ := hInvs _ newTo hb1 hb2
    obtain ⟨P, hwalk, -⟩ := hreal (lt_of_le_of_ne hle hne)
    have hg := walk_lift_copy g fromIdx hfrom P _ newTo hwalk
    rw [hnewNb, oldIdx_newIdx hnbf] at hg
    have hedge : 0 < Weight g fromIdx nb := by
      have hmemf := List.mem_filter.mp hnb
      exact of_decide_eq_true hmemf.2
    have hcomp := walk_compose g (walk_edge g hfrom hnbN hedge) hg
    exact hnr (reachable_of_walk g hcomp.1)
  rw [if_pos hInf]
  exact hcs

theorem gC_unreachable : ¬ Reachable gC 1 0 := by
  rintro ⟨P, ⟨⟨hh, hl, hb, hch⟩, hnd2⟩⟩
  rcases P with _ | ⟨u, rest⟩
  · cases hh
  have hu : u = 1 := by simpa using hh
  subst hu
  rcases rest with _ | ⟨v, rest2⟩
  · have h10 : (1 : Nat) = 0 := by simpa using hl
    cases h10
  · rcases List.chain'_cons.mp hch with ⟨hw, -⟩
    have hrow : gC.AdjMatrix.getD 1 [] = [0, 0] := by decide
    have h0 : Weight gC 1 v = 0 := by
      show (gC.AdjMatrix.getD 1 []).getD v 0 = 0
      rw [hrow]
      match v with
      | 0 => rfl
      | 1 => rfl
      | Nat.succ (Nat.succ k) =>
        exact getD_default 0 (by show (2 : Nat) ≤ k + 2; omega)
    rw [h0] at hw
    exact absurd hw (lt_irrefl 0)

/-- C6: for every graph accepted by NewFromStruct and every ordered pair
(i,j) with i distinct from j and j not reachable from i by any directed
path, the entry for (i,j) after RunFloyd and FillViaNeighborPaths has
Distance -1, an empty Paths list, and an empty ViaNeighborPaths list
(the via list stays empty through the fill pass). -/
theorem unreachable_result (gj : GraphJSON) (g : Graph)
    (hok : NewFromStruct gj = Except.ok g) (i j : Nat)
    (hi : i < NumNodes g) (hj : j < NumNodes g) (hij : i ≠ j)
    (hnr : ¬ Reachable g i j) (pr : PairResult)
    (hpr : (FillViaNeighborPaths (RunFloyd g)).Results[i * NumNodes g + j]? = some pr) :
    pr.Distance = -1 ∧ pr.Paths = [] ∧ pr.ViaNeighborPaths = [] := by
  obtain ⟨hW, hnodes, hadj, -, -⟩ := weightsOK_of_ok hok
  have hnd : g.Nodes.Nodup := by
    rw [hnodes]
    exact buildNodes_nodup gj
  have hAdjWF : MatWF g.AdjMatrix (NumNodes g) := by
    rw [hadj, show NumNodes g = (buildNodes gj).length from by
      rw [show NumNodes g = g.Nodes.length from rfl, hnodes]]
    exact matWF_buildAdj gj (buildNodes gj)
  obtain ⟨-, hInv0, -⟩ := fwAll_go g (NumNodes g) (le_refl _) (initDist g (NumNodes g))
    (matWF_initDist g _) (floydInv_initDist g hW) (compInv0_initDist g)
  have hfix : (List.range (NumNodes g)).foldl (fun M k => fwMid (NumNodes g) k M)
      (initDist g (NumNodes g)) = fwAll (NumNodes g) (initDist g (NumNodes g)) := rfl
  rw [hfix] at hInv0
  have hInf : getM (fwAll (NumNodes g) (initDist g (NumNodes g))) i j = InfSentinel := by
    obtain ⟨-, hle, -, hreal⟩ := hInv0 i j hi hj
    by_contra hne
    obtain ⟨P, hwalk, -⟩ := hreal (lt_of_le_of_ne hle hne)
    exact hnr (reachable_of_walk g hwalk)
  have he0 : (RunFloyd g).Results[i * NumNodes g + j]? =
      some { From := Name g i, To := Name g j, Distance := -1, Paths := [], ViaNeighborPaths := [] } := by
    rw [runFloyd_results_getElem g i j hi hj]
    unfold pairResult
    rw [if_pos hInf]
  have hgen : ∀ (r : AllPairsResult), r.g = g →
      r.Results[i * NumNodes g + j]? = some { From := Name g i, To := Name g j, Distance := -1, Paths := [], ViaNeighborPaths := [] } →
      (FillViaNeighborPaths r).Results[i * NumNodes g + j]? = some { From := Name g i, To := Name g j, Distance := -1, Paths := [], ViaNeighborPaths := [] } := by
    intro r hgr hres
    show ((List.range (NumNodes r.g)).foldl _ r.Results)[i * NumNodes g + j]? = _
    rw [hgr]
    refine foldl_invariant _ (fun rs : List PairResult =>
      rs[i * NumNodes g + j]? = some { From := Name g i, To := Name g j, Distance := -1, Paths := [], ViaNeighborPaths := [] }) _ _ hres ?_
    intro rs fromIdx hfi hrs
    dsimp only
    split_ifs with hnbs
    · exact hrs
    refine foldl_invariant _ (fun rs : List PairResult =>
      rs[i * NumNodes g + j]? = some { From := Name g i, To := Name g j, Distance := -1, Paths := [], ViaNeighborPaths := [] }) _ _ hrs ?_
    intro rs2 toIdx hti hrs2
    dsimp only
    split_ifs with hft hneg
    · exact hrs2
    · exact hrs2
    rcases assignVia_getElem rs2 (Name g fromIdx) (Name g toIdx) _ (i * NumNodes g + j)
      with hsame | ⟨pr1, hpos, hf1, ht1, hnewv⟩
    · rw [hsame]
      exact hrs2
    have hpr1 : pr1 = { From := Name g i, To := Name g j, Distance := -1, Paths := [], ViaNeighborPaths := [] } := by
      rw [hrs2] at hpos
      exact (Option.some.inj hpos).symm
    have hfromN : fromIdx < NumNodes g := List.mem_range.mp hfi
    have htoN : toIdx < NumNodes g := List.mem_range.mp hti
    have hfi2 : fromIdx = i := by
      by_contra hne
      refine name_inj g hnd hfromN hi hne ?_
      rw [hpr1] at hf1
      exact hf1.symm
    have htj2 : toIdx = j := by
      by_contra hne
      refine name_inj g hnd htoN hj hne ?_
      rw [hpr1] at ht1
      exact ht1.symm
    rw [hnewv, hpr1]
    have hmapj : (CopyWithoutNode g fromIdx).2.getD toIdx (-1) =
        if toIdx = fromIdx then -1 else (newIdx fromIdx toIdx : Int) :=
      oldToNewList_getD (NumNodes g) fromIdx toIdx htoN (-1)
    have htoNat : ((CopyWithoutNode g fromIdx).2.getD toIdx (-1)).toNat =
        newIdx fromIdx toIdx := by
      rw [hmapj, if_neg hft]
      simp
    have htoB : ((CopyWithoutNode g fromIdx).2.getD toIdx (-1)).toNat <
        NumNodes g - 1 := by
      rw [htoNat]
      exact newIdx_lt hfromN htoN hft
    have hempty := viaCandidates_empty g fromIdx
      ((CopyWithoutNode g fromIdx).2.getD toIdx (-1)).toNat
      (buildPred (CopyWithoutNode g fromIdx).1 (NumNodes (CopyWithoutNode g fromIdx).1)
        (fwAll (NumNodes (CopyWithoutNode g fromIdx).1)
          (initDist (CopyWithoutNode g fromIdx).1
            (NumNodes (CopyWithoutNode g fromIdx).1))))
      hW hAdjWF hfromN htoB (by
        rw [htoNat, oldIdx_newIdx hft, hfi2, htj2]
        exact hnr)
    rw [hempty]
    rfl
  have hfinal := hgen (RunFloyd g) rfl he0
  rw [hfinal] at hpr
  have hpr2 := Option.some.inj hpr
  rw [← hpr2]
  exact ⟨rfl, rfl, rfl⟩

set_option maxRecDepth 40000 in
theorem unreachable_result_witness :
    (⟨"B", "A", -1, [], []⟩ : PairResult).Distance = -1 ∧
    (⟨"B", "A", -1, [], []⟩ : PairResult).Paths = [] ∧
    (⟨"B", "A", -1, [], []⟩ : PairResult).ViaNeighborPaths = [] :=
  unreachable_result gjC gC (by rfl) 1 0 (by decide) (by decide) (by decide)
    gC_unreachable ⟨"B", "A", -1, [], []⟩ (by decide)

theorem foldl_filter_eq {α β : Type _} (p : β → Bool) (f : α → β → α) :
    ∀ (l : List β) (init : α),
      (l.filter p).foldl f init = l.foldl (fun x y => if p y then f x y else x) init
  | [], _ => rfl
  | b :: rest, init => by
    rw [List.filter_cons]
    by_cases hb : p b
    · rw [if_pos hb, List.foldl_cons, List.foldl_cons, if_pos hb]
      exact foldl_filter_eq p f rest (f init b)
    · rw [if_neg hb, List.foldl_cons, if_neg hb]
      exact foldl_filter_eq p f rest init

theorem foldl_congr_avoid {α β : Type _} (F1 F2 : α → β → α) (s : β) :
    ∀ l : List β, (∀ a b, b ∈ l → b ≠ s → F1 a b = F2 a b) → s ∉ l →
      ∀ a, l.foldl F1 a = l.foldl F2 a
  | [], _, _, _ => rfl
  | b :: rest, hstep, hs, a => by
    have hb : b ≠ s := fun he => hs (he ▸ List.mem_cons_self b rest)
    rw [List.foldl_cons, List.foldl_cons, hstep a b (List.mem_cons_self b rest) hb]
    exact foldl_congr_avoid F1 F2 s rest
      (fun x y hy => hstep x y (List.mem_cons_of_mem b hy))
      (fun h2 => hs (List.mem_cons_of_mem b h2)) _

theorem foldl_congr_with_flag {α β : Type _} (F1 F2 : α → β → α) (s : β) (Q : α → Prop) :
    ∀ l : List β,
      (∀ a b, b ∈ l → b ≠ s → F1 a b = F2 a b) →
      (∀ a b, b ∈ l → b ≠ s → Q a → Q (F2 a b)) →
      (∀ a, Q a → F1 a s = F2 a s) →
      l.Nodup → ∀ a, Q a → l.foldl F1 a = l.foldl F2 a
  | [], _, _, _, _, _, _ => rfl
  | b :: rest, hstep, hQstep, hsQ, hnd, a, hQ => by
    rw [List.foldl_cons, List.foldl_cons]
    by_cases hb : b = s
    · subst hb
      rw [hsQ a hQ]
      exact foldl_congr_avoid F1 F2 b rest
        (fun x y hy => hstep x y (List.mem_cons_of_mem b hy))
        (List.nodup_cons.mp hnd).1 _
    · rw [hstep a b (List.mem_cons_self b rest) hb]
      exact foldl_congr_with_flag F1 F2 s Q rest
        (fun x y hy => hstep x y (List.mem_cons_of_mem b hy))
        (fun x y hy => hQstep x y (List.mem_cons_of_mem b hy))
        hsQ (List.nodup_cons.mp hnd).2 _
        (hQstep a b (List.mem_cons_self b rest) hb hQ)

theorem assignVia_keep :
    ∀ (rs : List PairResult) (f t : String) (v : List PathDist),
      (∀ q ∈ rs, q.From = f → q.To = t → q.ViaNeighborPaths = v) →
      assignVia rs f t v = rs
  | [], _, _, _, _ => rfl
  | pr0 :: rest, f, t, v, h => by
    unfold assignVia
    split_ifs with hm
    · have hv := h pr0 (List.mem_cons_self pr0 rest) hm.1 hm.2
      have hpr : ({ pr0 with ViaNeighborPaths := v } : PairResult) = pr0 := by
        cases pr0
        rw [← hv]
      rw [hpr]
    · rw [assignVia_keep rest f t v (fun q hq => h q (List.mem_cons_of_mem pr0 hq))]

theorem numNodes_diagAgree {g1 g2 : Graph} {s : Nat} (h : DiagAgree g1 g2 s) :
    NumNodes g1 = NumNodes g2 := by
  show g1.Nodes.length = g2.Nodes.length
  rw [h.1]

theorem name_diagAgree {g1 g2 : Graph} {s : Nat} (h : DiagAgree g1 g2 s) (a : Nat) :
    Name g1 a = Name g2 a := by
  show g1.Nodes.getD a "" = g2.Nodes.getD a ""
  rw [h.1]

theorem initDist_diagAgree {g1 g2 : Graph} {s : Nat} (h : DiagAgree g1 g2 s) (N : Nat) :
    initDist g1 N = initDist g2 N := by
  unfold initDist
  refine List.map_congr_left fun i _ => ?_
  refine List.map_congr_left fun j _ => ?_
  by_cases hij : i = j
  · rw [if_pos hij, if_pos hij]
  · have hW := h.2 i j (by rintro ⟨h1, h2⟩; exact hij (h1.trans h2.symm))
    rw [if_neg hij, if_neg hij, hW]

theorem buildPred_diagAgree {g1 g2 : Graph} {s : Nat} (h : DiagAgree g1 g2 s)
    (N : Nat) (dist : Mat) : buildPred g1 N dist = buildPred g2 N dist := by
  unfold buildPred
  refine List.map_congr_left fun i _ => ?_
  refine List.map_congr_left fun j _ => ?_
  by_cases hc : i = j ∨ getM dist i j = InfSentinel
  · rw [if_pos hc, if_pos hc]
  · rw [if_neg hc, if_neg hc]
    refine List.filter_congr fun m _ => ?_
    by_cases hms : m = s ∧ j = s
    · obtain ⟨hm, hj⟩ := hms
      have hmj : m = j := hm.trans hj.symm
      have hFalse : ∀ (gx : Graph), decide (m ≠ i ∧ 0 < Weight gx m j ∧
          getM dist i m ≠ InfSentinel ∧
          getM dist i m + Weight gx m j = getM dist i j) = false := by
        intro gx
        apply decide_eq_false
        rintro ⟨-, h2, -, h4⟩
        rw [hmj] at h2 h4
        omega
      rw [hFalse g1, hFalse g2]
    · have hW := h.2 m j hms
      rw [hW]

theorem collectPaths_diagAgree {g1 g2 : Graph} {s : Nat} (h : DiagAgree g1 g2 s)
    (dist : Mat) (pred : List (List (List Nat))) (maxPaths : Nat) :
    ∀ (fuel i t : Nat) (sfx : List String) (out : List (List String)),
      collectPaths g1 dist pred maxPaths fuel i t sfx out =
      collectPaths g2 dist pred maxPaths fuel i t sfx out
  | 0, _, _, _, _ => rfl
  | Nat.succ fuel, i, t, sfx, out => by
    rw [show collectPaths g1 dist pred maxPaths (Nat.succ fuel) i t sfx out =
      (if maxPaths ≤ out.length then out
       else if i = t then emitPath out (Name g1 i :: sfx)
       else
         (getPred pred i t).foldl
           (fun acc m => collectPaths g1 dist pred maxPaths fuel i m (Name g1 m :: sfx) acc)
           (if 0 < Weight g1 i t ∧ Weight g1 i t = getM dist i t then
             emitPath out (Name g1 i :: sfx)
           else out)) from rfl,
      show collectPaths g2 dist pred maxPaths (Nat.succ fuel) i t sfx out =
      (if maxPaths ≤ out.length then out
       else if i = t then emitPath out (Name g2 i :: sfx)
       else
         (getPred pred i t).foldl
           (fun acc m => collectPaths g2 dist pred maxPaths fuel i m (Name g2 m :: sfx) acc)
           (if 0 < Weight g2 i t ∧ Weight g2 i t = getM dist i t then
             emitPath out (Name g2 i :: sfx)
           else out)) from rfl]
    by_cases hcap : maxPaths ≤ out.length
    · rw [if_pos hcap, if_pos hcap]
    rw [if_neg hcap, if_neg hcap]
    by_cases hit : i = t
    · rw [if_pos hit, if_pos hit, name_diagAgree h i]
    rw [if_neg hit, if_neg hit]
    have hW : Weight g1 i t = Weight g2 i t :=
      h.2 i t (by rintro ⟨h1, h2⟩; exact hit (h1.trans h2.symm))
    rw [hW, name_diagAgree h i]
    refine List.foldl_ext _ _ _ fun acc m _ => ?_
    rw [name_diagAgree h m]
    exact collectPaths_diagAgree h dist pred maxPaths fuel i m (Name g2 m :: sfx) acc

theorem enumeratePaths_diagAgree {g1 g2 : Graph} {s : Nat} (h : DiagAgree g1 g2 s)
    (dist : Mat) (pred : List (List (List Nat))) (i j maxPaths : Nat) :
    enumeratePaths g1 dist pred i j maxPaths = enumeratePaths g2 dist pred i j maxPaths := by
  unfold enumeratePaths
  by_cases hij : i = j
  · rw [if_pos hij, if_pos hij, name_diagAgree h i]
  rw [if_neg hij, if_neg hij]
  by_cases hinf : getM dist i j = InfSentinel
  · rw [if_pos hinf, if_pos hinf]
  rw [if_neg hinf, if_neg hinf, name_diagAgree h j]
  exact collectPaths_diagAgree h dist pred maxPaths _ i j [Name g2 j] []

theorem pairResult_diagAgree {g1 g2 : Graph} {s : Nat} (h : DiagAgree g1 g2 s)
    (dist : Mat) (pred : List (List (List Nat))) (i j : Nat) :
    pairResult g1 dist pred i j = pairResult g2 dist pred i j := by
  unfold pairResult
  by_cases hinf : getM dist i j = InfSentinel
  · rw [if_pos hinf, if_pos hinf, name_diagAgree h i, name_diagAgree h j]
  · rw [if_neg hinf, if_neg hinf, name_diagAgree h i, name_diagAgree h j,
      enumeratePaths_diagAgree h dist pred i j MaxShortestPaths]

theorem runFloyd_results_diagAgree {g1 g2 : Graph} {s : Nat} (h : DiagAgree g1 g2 s) :
    (RunFloyd g1).Results = (RunFloyd g2).Results := by
  have hN := numNodes_diagAgree h
  show ((List.range (NumNodes g1)).map fun i => (List.range (NumNodes g1)).map fun j =>
      pairResult g1 (fwAll (NumNodes g1) (initDist g1 (NumNodes g1)))
        (buildPred g1 (NumNodes g1) (fwAll (NumNodes g1) (initDist g1 (NumNodes g1))))
        i j).flatten =
    ((List.range (NumNodes g2)).map fun i => (List.range (NumNodes g2)).map fun j =>
      pairResult g2 (fwAll (NumNodes g2) (initDist g2 (NumNodes g2)))
        (buildPred g2 (NumNodes g2) (fwAll (NumNodes g2) (initDist g2 (NumNodes g2))))
        i j).flatten
  rw [hN, initDist_diagAgree h (NumNodes g2),
    buildPred_diagAgree h (NumNodes g2) (fwAll (NumNodes g2) (initDist g2 (NumNodes g2)))]
  refine congrArg List.flatten ?_
  refine List.map_congr_left fun i _ => ?_
  refine List.map_congr_left fun j _ => ?_
  exact pairResult_diagAgree h _ _ i j

theorem neighbors_congr {g1 g2 : Graph} (fromIdx : Nat)
    (hrow : g1.AdjMatrix.getD fromIdx [] = g2.AdjMatrix.getD fromIdx []) :
    Neighbors g1 fromIdx = Neighbors g2 fromIdx := by
  unfold Neighbors
  rw [hrow]
  refine List.filter_congr fun j _ => ?_
  have hW : getM g1.AdjMatrix fromIdx j = getM g2.AdjMatrix fromIdx j := by
    show (g1.AdjMatrix.getD fromIdx []).getD j 0 = (g2.AdjMatrix.getD fromIdx []).getD j 0
    rw [hrow]
  rw [hW]

theorem copy_eq_at_s {g1 g2 : Graph} {s : Nat} (h : DiagAgree g1 g2 s) :
    CopyWithoutNode g1 s = CopyWithoutNode g2 s := by
  have hN := numNodes_diagAgree h
  show
    (({ Nodes := g1.Nodes.eraseIdx s,
        AdjMatrix := (List.range (NumNodes g1)).foldl (fun adj i =>
          if i = s then adj else
          (List.range (NumNodes g1)).foldl (fun adj j =>
            if j = s ∨ getM g1.AdjMatrix i j = 0 then adj
            else setM adj ((oldToNewList (NumNodes g1) s).getD i 0).toNat
              ((oldToNewList (NumNodes g1) s).getD j 0).toNat (getM g1.AdjMatrix i j)) adj)
          (zeroMat (g1.Nodes.eraseIdx s).length) } : Graph), oldToNewList (NumNodes g1) s) =
    (({ Nodes := g2.Nodes.eraseIdx s,
        AdjMatrix := (List.range (NumNodes g2)).foldl (fun adj i =>
          if i = s then adj else
          (List.range (NumNodes g2)).foldl (fun adj j =>
            if j = s ∨ getM g2.AdjMatrix i j = 0 then adj
            else setM adj ((oldToNewList (NumNodes g2) s).getD i 0).toNat
              ((oldToNewList (NumNodes g2) s).getD j 0).toNat (getM g2.AdjMatrix i j)) adj)
          (zeroMat (g2.Nodes.eraseIdx s).length) } : Graph), oldToNewList (NumNodes g2) s)
  rw [h.1, hN]
  refine congrArg (fun A => (({ Nodes := g2.Nodes.eraseIdx s, AdjMatrix := A } : Graph),
    oldToNewList (NumNodes g2) s)) ?_
  refine List.foldl_ext _ _ _ fun adj i _ => ?_
  by_cases his : i = s
  · rw [if_pos his, if_pos his]
  rw [if_neg his, if_neg his]
  refine List.foldl_ext _ _ _ fun adj2 j _ => ?_
  have hWij : getM g1.AdjMatrix i j = getM g2.AdjMatrix i j :=
    h.2 i j (by rintro ⟨h1, -⟩; exact his h1)
  rw [hWij]

theorem copy_diagAgree_of_ne {g1 g2 : Graph} {s : Nat} (h : DiagAgree g1 g2 s)
    (x : Nat) (hx : x < NumNodes g2) (hxs : x ≠ s) :
    DiagAgree (CopyWithoutNode g1 x).1 (CopyWithoutNode g2 x).1 (newIdx x s) := by
  have hN := numNodes_diagAgree h
  obtain ⟨hWF1, hform1⟩ := copyWithoutNode_adj g1 x (by rw [hN]; exact hx)
  obtain ⟨hWF2, hform2⟩ := copyWithoutNode_adj g2 x hx
  constructor
  · show g1.Nodes.eraseIdx x = g2.Nodes.eraseIdx x
    rw [h.1]
  · intro a b hab
    rcases Nat.lt_or_ge a (NumNodes g2 - 1) with ha | ha
    · rcases Nat.lt_or_ge b (NumNodes g2 - 1) with hb | hb
      · rw [hform1 a b (by rw [hN]; exact ha) (by rw [hN]; exact hb), hform2 a b ha hb]
        apply h.2
        rintro ⟨hoa, hob⟩
        apply hab
        constructor
        · rw [← newIdx_oldIdx x a, hoa]
        · rw [← newIdx_oldIdx x b, hob]
      · show getM (CopyWithoutNode g1 x).1.AdjMatrix a b =
          getM (CopyWithoutNode g2 x).1.AdjMatrix a b
        rw [getM_oob hWF1 (Or.inr (by rw [hN]; exact hb)),
          getM_oob hWF2 (Or.inr hb)]
    · show getM (CopyWithoutNode g1 x).1.AdjMatrix a b =
        getM (CopyWithoutNode g2 x).1.AdjMatrix a b
      rw [getM_oob hWF1 (Or.inl (by rw [hN]; exact ha)),
        getM_oob hWF2 (Or.inl ha)]

theorem viaCandidates_diagAgree_s {g1 g2 : Graph} {s : Nat} (h : DiagAgree g1 g2 s)
    (hlen : (g1.AdjMatrix.getD s []).length = (g2.AdjMatrix.getD s []).length)
    (hs : s < NumNodes g2)
    (sub : Graph) (subDist : Mat) (subPred : List (List (List Nat))) (newTo : Nat) :
    viaCandidates g1 sub subDist subPred (oldToNewList (NumNodes g2) s) s newTo =
    viaCandidates g2 sub subDist subPred (oldToNewList (NumNodes g2) s) s newTo := by
  unfold viaCandidates Neighbors
  rw [hlen, foldl_filter_eq, foldl_filter_eq]
  refine List.foldl_ext _ _ _ fun cs nb _ => ?_
  by_cases hnbs : nb = s
  · have hval : (oldToNewList (NumNodes g2) s).getD nb (-1) = -1 := by
      rw [oldToNewList_getD (NumNodes g2) s nb (by rw [hnbs]; exact hs) (-1), if_pos hnbs]
    trans cs
    · split
      · dsimp only
        rw [hval, if_pos (by norm_num : (-1 : Int) < 0)]
      · rfl
    · split
      · dsimp only
        rw [hval, if_pos (by norm_num : (-1 : Int) < 0)]
      · rfl
  · have hns : ¬(s = s ∧ nb = s) := by
      rintro ⟨-, h2⟩
      exact hnbs h2
    have hWnb : getM g1.AdjMatrix s nb = getM g2.AdjMatrix s nb := h.2 s nb hns
    have hWnb2 : Weight g1 s nb = Weight g2 s nb := h.2 s nb hns
    rw [hWnb]
    dsimp only
    split_ifs <;> first
    | rfl
    | rw [hWnb2, name_diagAgree h s]

theorem viaCandidates_congr_ne {g1 g2 : Graph} (fromIdx : Nat)
    (hrow : g1.AdjMatrix.getD fromIdx [] = g2.AdjMatrix.getD fromIdx [])
    (hname : Name g1 fromIdx = Name g2 fromIdx)
    {sub1 sub2 : Graph} {t : Nat} (hsub : DiagAgree sub1 sub2 t)
    (subDist : Mat) (subPred : List (List (List Nat))) (otn : List Int) (newTo : Nat) :
    viaCandidates g1 sub1 subDist subPred otn fromIdx newTo =
    viaCandidates g2 sub2 subDist subPred otn fromIdx newTo := by
  unfold viaCandidates
  rw [neighbors_congr fromIdx hrow]
  refine List.foldl_ext _ _ _ fun cs nb _ => ?_
  dsimp only
  by_cases h1 : otn.getD nb (-1) < 0
  · rw [if_pos h1, if_pos h1]
  rw [if_neg h1, if_neg h1]
  by_cases h2 : getM subDist (otn.getD nb (-1)).toNat newTo = InfSentinel
  · rw [if_pos h2, if_pos h2]
  rw [if_neg h2, if_neg h2]
  have hW : Weight g1 fromIdx nb = Weight g2 fromIdx nb := by
    show (g1.AdjMatrix.getD fromIdx []).getD nb 0 = (g2.AdjMatrix.getD fromIdx []).getD nb 0
    rw [hrow]
  rw [hW, hname,
    enumeratePaths_diagAgree hsub subDist subPred (otn.getD nb (-1)).toNat newTo
      MaxViaNeighborPaths]

theorem buildNodes_append_self (gj : GraphJSON) (e : Edge) (hmem : e.From ∈ buildNodes gj)
    (hself : e.From = e.To) :
    buildNodes { Nodes := gj.Nodes, Edges := gj.Edges ++ [e] } = buildNodes gj := by
  show (gj.Edges ++ [e]).foldl (fun acc e =>
      let acc2 := if e.From ∈ acc then acc else acc ++ [e.From]
      if e.To ∈ acc2 then acc2 else acc2 ++ [e.To])
    (gj.Nodes.foldl (fun acc n => if n ∈ acc then acc else acc ++ [n]) []) = buildNodes gj
  rw [List.foldl_append, List.foldl_cons, List.foldl_nil]
  show (let acc2 := if e.From ∈ buildNodes gj then buildNodes gj
      else buildNodes gj ++ [e.From]
    if e.To ∈ acc2 then acc2 else acc2 ++ [e.To]) = buildNodes gj
  dsimp only
  rw [if_pos hmem, if_pos (hself ▸ hmem)]

theorem buildAdj_append (gj : GraphJSON) (e : Edge) (nodes : List String) :
    buildAdj { Nodes := gj.Nodes, Edges := gj.Edges ++ [e] } nodes =
      setM (buildAdj gj nodes) (idxOf nodes e.From) (idxOf nodes e.To) e.Weight := by
  show (gj.Edges ++ [e]).foldl (fun adj e =>
      setM adj (idxOf nodes e.From) (idxOf nodes e.To) e.Weight) (zeroMat nodes.length) = _
  rw [List.foldl_append, List.foldl_cons, List.foldl_nil]
  rfl

theorem fill_results_congr (g1 g2 : Graph) (s : Nat) (wv : Int)
    (hN : g1.Nodes = g2.Nodes) (hA : g1.AdjMatrix = setM g2.AdjMatrix s s wv)
    (hs : s < NumNodes g2) (hnd : g2.Nodes.Nodup)
    (hWF2 : MatWF g2.AdjMatrix (NumNodes g2)) :
    (FillViaNeighborPaths (RunFloyd g1)).Results =
      (FillViaNeighborPaths (RunFloyd g2)).Results := by
  have h : DiagAgree g1 g2 s := by
    refine ⟨hN, fun i j hij => ?_⟩
    show getM g1.AdjMatrix i j = getM g2.AdjMatrix i j
    rw [hA]
    exact getM_setM_ne wv hij
  have hNN := numNodes_diagAgree h
  have hres := runFloyd_results_diagAgree h
  have hrowne : ∀ fromIdx, fromIdx ≠ s →
      g1.AdjMatrix.getD fromIdx [] = g2.AdjMatrix.getD fromIdx [] := by
    intro fromIdx hfs
    rw [hA]
    exact getD_set_other _ (Ne.symm hfs) _ _
  have hrowlen : (g1.AdjMatrix.getD s []).length = (g2.AdjMatrix.getD s []).length := by
    rw [hA]
    rw [show (setM g2.AdjMatrix s s wv).getD s [] = ((g2.AdjMatrix.getD s []).set s wv) from
      getD_set_self (by rw [hWF2.1]; exact hs) _ _]
    rw [List.length_set]
  show (List.range (NumNodes (RunFloyd g1).g)).foldl _ (RunFloyd g1).Results =
       (List.range (NumNodes (RunFloyd g2).g)).foldl _ (RunFloyd g2).Results
  rw [show (RunFloyd g1).g = g1 from rfl, show (RunFloyd g2).g = g2 from rfl, hres, hNN]
  refine foldl_congr_with_flag _ _ s
    (fun rs => ∀ q ∈ rs, q.From = Name g2 s → q.ViaNeighborPaths = [])
    (List.range (NumNodes g2)) ?_ ?_ ?_ (List.nodup_range _) _ ?_
  · -- step congruence away from s
    intro rs fromIdx hfi hfs
    have hfiN : fromIdx < NumNodes g2 := List.mem_range.mp hfi
    dsimp only
    rw [neighbors_congr fromIdx (hrowne fromIdx hfs)]
    split_ifs with hemp
    · rfl
    have hsubDA := copy_diagAgree_of_ne h fromIdx hfiN hfs
    have hsubN := numNodes_diagAgree hsubDA
    have hP : buildPred (CopyWithoutNode g1 fromIdx).1
        (NumNodes (CopyWithoutNode g1 fromIdx).1)
        (fwAll (NumNodes (CopyWithoutNode g1 fromIdx).1)
          (initDist (CopyWithoutNode g1 fromIdx).1
            (NumNodes (CopyWithoutNode g1 fromIdx).1))) =
        buildPred (CopyWithoutNode g2 fromIdx).1
        (NumNodes (CopyWithoutNode g2 fromIdx).1)
        (fwAll (NumNodes (CopyWithoutNode g2 fromIdx).1)
          (initDist (CopyWithoutNode g2 fromIdx).1
            (NumNodes (CopyWithoutNode g2 fromIdx).1))) := by
      rw [hsubN, initDist_diagAgree hsubDA (NumNodes (CopyWithoutNode g2 fromIdx).1),
        buildPred_diagAgree hsubDA (NumNodes (CopyWithoutNode g2 fromIdx).1)
          (fwAll (NumNodes (CopyWithoutNode g2 fromIdx).1)
            (initDist (CopyWithoutNode g2 fromIdx).1
              (NumNodes (CopyWithoutNode g2 fromIdx).1)))]
    have hD : fwAll (NumNodes (CopyWithoutNode g1 fromIdx).1)
        (initDist (CopyWithoutNode g1 fromIdx).1
          (NumNodes (CopyWithoutNode g1 fromIdx).1)) =
        fwAll (NumNodes (CopyWithoutNode g2 fromIdx).1)
        (initDist (CopyWithoutNode g2 fromIdx).1
          (NumNodes (CopyWithoutNode g2 fromIdx).1)) := by
      rw [hsubN, initDist_diagAgree hsubDA (NumNodes (CopyWithoutNode g2 fromIdx).1)]
    have hotn : (CopyWithoutNode g1 fromIdx).2 = (CopyWithoutNode g2 fromIdx).2 := by
      show oldToNewList (NumNodes g1) fromIdx = oldToNewList (NumNodes g2) fromIdx
      rw [hNN]
    rw [hP, hD, hotn]
    refine List.foldl_ext _ _ _ fun rs2 toIdx _ => ?_
    dsimp only
    by_cases hft : toIdx = fromIdx
    · rw [if_pos hft, if_pos hft]
    rw [if_neg hft, if_neg hft]
    by_cases hneg : (CopyWithoutNode g2 fromIdx).2.getD toIdx (-1) < 0
    · rw [if_pos hneg, if_pos hneg]
    rw [if_neg hneg, if_neg hneg]
    rw [name_diagAgree h fromIdx, name_diagAgree h toIdx,
      viaCandidates_congr_ne fromIdx (hrowne fromIdx hfs) (name_diagAgree h fromIdx)
        hsubDA (fwAll (NumNodes (CopyWithoutNode g2 fromIdx).1)
          (initDist (CopyWithoutNode g2 fromIdx).1 (NumNodes (CopyWithoutNode g2 fromIdx).1)))
        (buildPred (CopyWithoutNode g2 fromIdx).1 (NumNodes (CopyWithoutNode g2 fromIdx).1)
          (fwAll (NumNodes (CopyWithoutNode g2 fromIdx).1)
            (initDist (CopyWithoutNode g2 fromIdx).1
              (NumNodes (CopyWithoutNode g2 fromIdx).1))))
        (CopyWithoutNode g2 fromIdx).2
        ((CopyWithoutNode g2 fromIdx).2.getD toIdx (-1)).toNat]
  · -- Q preservation away from s
    intro rs fromIdx hfi hfs hQ
    have hfiN : fromIdx < NumNodes g2 := List.mem_range.mp hfi
    dsimp only
    split_ifs with hemp
    · exact hQ
    refine foldl_invariant _ (fun rs2 : List PairResult => ∀ q ∈ rs2,
      q.From = Name g2 s → q.ViaNeighborPaths = []) _ _ hQ ?_
    intro rs2 toIdx _ hQ2
    dsimp only
    split_ifs with hft hneg
    · exact hQ2
    · exact hQ2
    intro q hq hqf
    rcases assignVia_mem hq with h1 | ⟨q0, hq0, hf0, -, rfl⟩
    · exact hQ2 q h1 hqf
    · exfalso
      have hqf2 : q0.From = Name g2 s := hqf
      rw [hf0] at hqf2
      exact name_inj g2 hnd hfiN hs hfs hqf2
  · -- the step at s itself
    intro rs hQ
    dsimp only
    rw [copy_eq_at_s h, show (CopyWithoutNode g2 s).2 = oldToNewList (NumNodes g2) s
      from rfl]
    by_cases he1 : (Neighbors g1 s).isEmpty
    · by_cases he2 : (Neighbors g2 s).isEmpty
      · rw [if_pos he1, if_pos he2]
      · rw [if_pos he1, if_neg he2]
        symm
        have hcand : ∀ newTo : Nat, viaCandidates g2 (CopyWithoutNode g2 s).1
            (fwAll (NumNodes (CopyWithoutNode g2 s).1)
              (initDist (CopyWithoutNode g2 s).1 (NumNodes (CopyWithoutNode g2 s).1)))
            (buildPred (CopyWithoutNode g2 s).1 (NumNodes (CopyWithoutNode g2 s).1)
              (fwAll (NumNodes (CopyWithoutNode g2 s).1)
                (initDist (CopyWithoutNode g2 s).1
                  (NumNodes (CopyWithoutNode g2 s).1))))
            (oldToNewList (NumNodes g2) s) s newTo = [] := by
          intro newTo
          rw [← viaCandidates_diagAgree_s h hrowlen hs _ _ _ newTo]
          show (Neighbors g1 s).foldl _ [] = []
          rw [List.isEmpty_iff.mp he1]
          rfl
        refine foldl_invariant _ (fun rs2 : List PairResult => rs2 = rs) _ _ rfl ?_
        intro rs2 toIdx _ hrs2
        dsimp only
        split_ifs with hft hneg
        · exact hrs2
        · exact hrs2
        rw [hcand _, show dedupPathsByKey [] MaxViaNeighborPaths = [] from rfl, hrs2]
        exact assignVia_keep rs _ _ [] (fun q hq hf _ => hQ q hq hf)
    · by_cases he2 : (Neighbors g2 s).isEmpty
      · rw [if_neg he1, if_pos he2]
        have hcand : ∀ newTo : Nat, viaCandidates g1 (CopyWithoutNode g2 s).1
            (fwAll (NumNodes (CopyWithoutNode g2 s).1)
              (initDist (CopyWithoutNode g2 s).1 (NumNodes (CopyWithoutNode g2 s).1)))
            (buildPred (CopyWithoutNode g2 s).1 (NumNodes (CopyWithoutNode g2 s).1)
              (fwAll (NumNodes (CopyWithoutNode g2 s).1)
                (initDist (CopyWithoutNode g2 s).1
                  (NumNodes (CopyWithoutNode g2 s).1))))
            (oldToNewList (NumNodes g2) s) s newTo = [] := by
          intro newTo
          rw [viaCandidates_diagAgree_s h hrowlen hs _ _ _ newTo]
          show (Neighbors g2 s).foldl _ [] = []
          rw [List.isEmpty_iff.mp he2]
          rfl
        refine foldl_invariant _ (fun rs2 : List PairResult => rs2 = rs) _ _ rfl ?_
        intro rs2 toIdx _ hrs2
        dsimp only
        split_ifs with hft hneg
        · exact hrs2
        · exact hrs2
        rw [hcand _, show dedupPathsByKey [] MaxViaNeighborPaths = [] from rfl, hrs2]
        exact assignVia_keep rs _ _ []
          (fun q hq hf _ => hQ q hq (hf.trans (name_diagAgree h s)))
      · rw [if_neg he1, if_neg he2]
        refine List.foldl_ext _ _ _ fun rs2 toIdx _ => ?_
        dsimp only
        by_cases hft : toIdx = s
        · rw [if_pos hft, if_pos hft]
        rw [if_neg hft, if_neg hft]
        by_cases hneg : (oldToNewList (NumNodes g2) s).getD toIdx (-1) < 0
        · rw [if_pos hneg, if_pos hneg]
        rw [if_neg hneg, if_neg hneg]
        rw [name_diagAgree h s, name_diagAgree h toIdx,
          viaCandidates_diagAgree_s h hrowlen hs _ _ _ _]
  · -- Q holds initially
    intro q hq hqf
    obtain ⟨i, j, -, -, rfl⟩ := runFloyd_mem g2 hq
    rw [pairResult_via_nil]

set_option maxRecDepth 40000 in
/-- C10 counterexample: the claim as stated fails when the self-loop's
endpoint is a NEW name.  gj1 has the single node A and no edges; adding
the self-loop B->B with valid weight 5 adds the node B, so the output
grows from 1 pair entry to 4 — the Distance/Paths/Via data is not "left
unchanged for every ordered pair". -/
theorem selfLoop_counterexample :
    (∃ u : Graph, NewFromStruct gj1 = Except.ok u) ∧
    (∃ u : Graph, NewFromStruct gj1b = Except.ok u) ∧
    gj1b.Nodes = gj1.Nodes ∧
    gj1b.Edges = gj1.Edges ++ [{ From := "B", To := "B", Weight := 5 }] ∧
    (MinWeight : Int) ≤ 5 ∧ (5 : Int) ≤ MaxWeight ∧
    (FillViaNeighborPaths (RunFloyd (getOk (NewFromStruct gj1)))).Results.length = 1 ∧
    (FillViaNeighborPaths (RunFloyd (getOk (NewFromStruct gj1b)))).Results.length = 4 :=
  ⟨⟨getOk (NewFromStruct gj1), by rfl⟩, ⟨getOk (NewFromStruct gj1b), by rfl⟩, rfl, rfl,
    by decide, by decide, by decide, by decide⟩

/-- C10 amended: adding a self-loop edge (from = to) on a node name that
already belongs to the built node set leaves the entire output of
RunFloyd followed by FillViaNeighborPaths unchanged — every entry's
From, To, Distance, Paths and ViaNeighborPaths are identical with and
without the self-loop.  (Without the membership condition the claim is
false: a self-loop on a fresh name adds a node, see the counterexample.) -/
theorem selfLoop_invariant (gj : GraphJSON) (e : Edge) (g g' : Graph)
    (hok : NewFromStruct gj = Except.ok g)
    (hok' : NewFromStruct { Nodes := gj.Nodes, Edges := gj.Edges ++ [e] } = Except.ok g')
    (hself : e.From = e.To) (hmem : e.From ∈ buildNodes gj) :
    (FillViaNeighborPaths (RunFloyd g')).Results =
      (FillViaNeighborPaths (RunFloyd g)).Results := by
  obtain ⟨hW, hnodes, hadj, -, -⟩ := weightsOK_of_ok hok
  obtain ⟨hW', hnodes', hadj', -, -⟩ := weightsOK_of_ok hok'
  have hBN : buildNodes { Nodes := gj.Nodes, Edges := gj.Edges ++ [e] } = buildNodes gj :=
    buildNodes_append_self gj e hmem hself
  have hNodesEq : g'.Nodes = g.Nodes := by
    rw [hnodes', hBN, hnodes]
  have hAdjEq : g'.AdjMatrix = setM g.AdjMatrix (idxOf (buildNodes gj) e.From)
      (idxOf (buildNodes gj) e.From) e.Weight := by
    rw [hadj', hBN, buildAdj_append, hadj, ← hself]
  have hsBound : idxOf (buildNodes gj) e.From < NumNodes g := by
    show _ < g.Nodes.length
    rw [hnodes]
    exact List.findIdx_lt_length_of_exists ⟨e.From, hmem, by simp⟩
  have hnd : g.Nodes.Nodup := by
    rw [hnodes]
    exact buildNodes_nodup gj
  have hWF : MatWF g.AdjMatrix (NumNodes g) := by
    rw [hadj, show NumNodes g = (buildNodes gj).length from by
      rw [show NumNodes g = g.Nodes.length from rfl, hnodes]]
    exact matWF_buildAdj gj (buildNodes gj)
  exact fill_results_congr g' g (idxOf (buildNodes gj) e.From) e.Weight
    hNodesEq hAdjEq hsBound hnd hWF

set_option maxRecDepth 100000 in
/-- Witness for the amended C10 on Scenario A plus a self-loop A->A(7):
the two pipelines produce identical result lists. -/
theorem selfLoop_invariant_witness :
    (FillViaNeighborPaths (RunFloyd (getOk (NewFromStruct gjAloop)))).Results =
      (FillViaNeighborPaths (RunFloyd gA)).Results :=
  selfLoop_invariant gjA { From := "A", To := "A", Weight := 7 }
    gA (getOk (NewFromStruct gjAloop)) (by rfl) (by rfl) rfl (by decide)
